import Mathlib

/-!
Verification of commonz: call-frame symbols (`trace.go`), type names
(`typename.go`) and slice-to-set conversion (`slice_to_set.go`).

A shallow embedding of `ParseCallerInfo`, `CallerInfo.String`,
`CallerInfo.IsUnknown`, `unknownCallerInfo` and `GetCaller` from `trace.go`,
of `TypeName`, `typeNameWithDepth` and `typeNameForFunc` from `typename.go`
and of `SliceToSet` from `slice_to_set.go`, followed by their properties.

Modelling conventions
* A Go `string` is an immutable sequence of bytes: `GoString = List UInt8`.
  `len(s)` is `s.length`.
* Go `int` values are modelled by `Int`.  Every integer computed by the parser
  lies between `-1` and `len(fnName)`, so 64-bit wrap-around cannot occur and
  is not modelled there; `depth + 1` in `GetCaller` is wrapped explicitly.
* A slice expression whose bounds are out of range panics in Go; the slicing
  helpers return `none` in that case and the parser is written in `Option`.
-/

namespace Commonz

/-! ## Go strings and the standard-library functions used by `trace.go` -/

/-- A Go string: a sequence of bytes. -/
abbrev GoString := List UInt8

/-- The bytes (UTF-8) of a string literal of the Go source. -/
def goStr (s : String) : GoString := s.toUTF8.data.toList

/-- The byte `'/'`. -/
def slash : UInt8 := 47

/-- The byte `'.'`. -/
def dot : UInt8 := 46

/-- The byte `'%'`. -/
def percent : UInt8 := 37

/-- Go `strings.IndexByte(s, c)`: the index of the first instance of `c` in
`s`, or `-1` if `c` is not present in `s`. -/
def IndexByte : GoString → UInt8 → Int
  | [], _ => -1
  | b :: s, c =>
    if b = c then 0
    else if IndexByte s c < 0 then -1
    else IndexByte s c + 1

/-- Go `strings.LastIndexByte(s, c)`: the index of the last instance of `c` in
`s`, or `-1` if `c` is not present in `s`. -/
def LastIndexByte : GoString → UInt8 → Int
  | [], _ => -1
  | b :: s, c =>
    if 0 ≤ LastIndexByte s c then LastIndexByte s c + 1
    else if b = c then 0
    else -1

/-- Go slice expression `s[lo:]`; it panics (`none`) unless `0 ≤ lo ≤ len(s)`. -/
def sliceFrom (s : GoString) (lo : Int) : Option GoString :=
  if 0 ≤ lo ∧ lo ≤ (s.length : Int) then some (s.drop lo.toNat) else none

/-- Go slice expression `s[:hi]`; it panics (`none`) unless `0 ≤ hi ≤ len(s)`. -/
def sliceTo (s : GoString) (hi : Int) : Option GoString :=
  if 0 ≤ hi ∧ hi ≤ (s.length : Int) then some (s.take hi.toNat) else none

/-- An operand of `fmt.Sprintf`. -/
inductive FmtArg where
  | str (s : GoString)
  | int (n : Int)

/-- Decimal rendering of an integer, as the verb `%d` prints it. -/
def formatInt (n : Int) : GoString :=
  let digits : GoString := (Nat.toDigits 10 n.natAbs).map (fun c => c.toNat.toUInt8)
  if n < 0 then 45 :: digits else digits

/-- Scanner behind `Sprintf`; `verb = true` when the previous byte was an
unconsumed `'%'`. -/
def sprintfAux : Bool → GoString → List FmtArg → GoString
  | false, [], _ => []
  | true, [], _ => [percent]
  | false, b :: rest, args =>
    if b = percent then sprintfAux true rest args
    else b :: sprintfAux false rest args
  | true, v :: rest, args =>
    if v = percent then percent :: sprintfAux false rest args
    else
      match args with
      | FmtArg.str s :: more =>
        if v = 115 then s ++ sprintfAux false rest more
        else percent :: v :: sprintfAux false rest args
      | FmtArg.int n :: more =>
        if v = 100 then formatInt n ++ sprintfAux false rest more
        else percent :: v :: sprintfAux false rest args
      | [] => percent :: v :: sprintfAux false rest args

/-- Go `fmt.Sprintf` on the fragment this package uses: the verbs `%s` (with a
string operand), `%d` (with an integer operand) and `%%`; every other byte of
the format is copied.  Uses outside that fragment are not modelled (their
bytes are copied through). -/
def Sprintf (format : GoString) (args : List FmtArg) : GoString :=
  sprintfAux false format args

/-! ## `trace.go` -/

/-- `CallerInfo` contains the parsed components of a Go function name. -/
structure CallerInfo where
  Package : GoString
  Function : GoString
  deriving DecidableEq

/-- Method `func (ci CallerInfo) String() string`:
`fmt.Sprintf("%s.%s", ci.Package, ci.Function)`. -/
def CallerInfo.String (ci : CallerInfo) : GoString :=
  Sprintf (goStr "%s.%s") [FmtArg.str ci.Package, FmtArg.str ci.Function]

/-- Method `func (ci CallerInfo) IsUnknown() bool`. -/
def CallerInfo.IsUnknown (ci : CallerInfo) : Bool :=
  ci.Package == goStr "<unknown-package>" || ci.Function == goStr "<unknown-function>"

/-- The function `unknownCallerInfo`: the value representing an unknown caller. -/
def unknownCallerInfo : CallerInfo :=
  { Package := goStr "<unknown-package>", Function := goStr "<unknown-function>" }

/-- The value of the local variable `startPos` of `ParseCallerInfo` once the
`if startPos < 0 ... else startPos++` statement has run. -/
def startPosOf (fnName : GoString) : Int :=
  let startPos := LastIndexByte fnName slash
  if startPos < 0 then 0 else startPos + 1

/-- The function `ParseCallerInfo`.  `none` stands for a run-time panic of one
of the three slice expressions. -/
def ParseCallerInfo (fnName : GoString) : Option CallerInfo := do
  let startPos := startPosOf fnName
  let tail ← sliceFrom fnName startPos
  let periodPos := IndexByte tail dot
  if 0 ≤ periodPos then
    let pkg ← sliceTo fnName (startPos + periodPos)
    let fn ← sliceFrom fnName (startPos + periodPos + 1)
    pure { Package := pkg, Function := fn }
  else
    pure unknownCallerInfo

/-! ## `trace.go`: `GetCaller` -/

/-- Constant `CurrentCaller`: the function that called `GetCaller`. -/
def CurrentCaller : Int := 0

/-- Constant `ParentCaller`: the caller of the function that called `GetCaller`. -/
def ParentCaller : Int := 1

/-- Constant `GrandparentCaller`: the caller of that caller. -/
def GrandparentCaller : Int := 2

/-- A Go `int` (64 bits, two's complement): the value an arithmetic result
wraps to. -/
def wrapInt64 (n : Int) : Int :=
  (n + 9223372036854775808) % 18446744073709551616 - 9223372036854775808

/-- The stack walker of the Go runtime, as an oracle over the live call stack.
`Caller skip` is the program counter reported by `runtime.Caller(skip)`, or
`none` when its `ok` result is false; index `0` is the function that calls
`runtime.Caller`, here `GetCaller` itself.  `FuncForPC pc` is the name of the
function `runtime.FuncForPC(pc)` describes, or `none` when it returns `nil`. -/
structure StackWalker where
  Caller : Int → Option Nat
  FuncForPC : Nat → Option GoString

/-- The function `GetCaller`, run against the stack walker `w`.  The argument
of `runtime.Caller` is the Go expression `depth + 1`, which wraps at 64 bits.
`none` stands for a panic of `ParseCallerInfo`. -/
def GetCaller (w : StackWalker) (depth : Int) : Option CallerInfo :=
  if depth < 0 then
    some unknownCallerInfo
  else
    match w.Caller (wrapInt64 (depth + 1)) with
    | none => some unknownCallerInfo
    | some pc =>
      match w.FuncForPC pc with
      | some name => ParseCallerInfo name
      | none => some unknownCallerInfo

/-- A sample call stack, innermost frame first: `GetCaller` itself (index 0),
`main.helper`, `main.(*T).Run`, a frame whose symbol has no package qualifier,
and a frame whose program counter resolves to no function. -/
def sampleWalker : StackWalker where
  Caller := fun skip =>
    if skip = 0 then some 10 else if skip = 1 then some 11 else if skip = 2 then some 12
    else if skip = 3 then some 13 else if skip = 4 then some 14 else none
  FuncForPC := fun pc =>
    if pc = 10 then some (goStr "github.com/goosz/commonz.GetCaller")
    else if pc = 11 then some (goStr "main.helper")
    else if pc = 12 then some (goStr "main.(*T).Run")
    else if pc = 13 then some (goStr "justafunctionname")
    else none

/-! ## `typename.go`

A type descriptor (`reflect.Type`) is a handle into a universe of descriptors
`τ`; the methods of `reflect.Type` that `typename.go` calls are given by a
record of functions over `τ`, so that descriptors may be shared or cyclic
(`type T []T`).  A method that panics on a descriptor returns `none` there.
The depth budget `maxDepth` is a natural number: `TypeName` starts it at
`maxTypeDepth` and every call passes on `maxDepth-1` of a non-zero budget. -/

/-- Go `reflect.Kind`. -/
inductive reflect.Kind where
  | Invalid | Bool | Int | Int8 | Int16 | Int32 | Int64
  | Uint | Uint8 | Uint16 | Uint32 | Uint64 | Uintptr
  | Float32 | Float64 | Complex64 | Complex128
  | Array | Chan | Func | Interface | Map | Ptr | Slice | String | Struct | UnsafePointer
  deriving DecidableEq

/-- Go `reflect.ChanDir`. -/
inductive reflect.ChanDir where
  | RecvDir | SendDir | BothDir
  deriving DecidableEq

/-- The methods of `reflect.Type` used by `typename.go`, over the descriptors
`τ`.  `Len`, `Elem`, `Key`, `ChanDir`, `NumIn`, `In`, `IsVariadic`, `NumOut`
and `Out` panic in Go when the kind of the receiver does not have the
attribute (or the index is out of range); they return `none` then. -/
structure reflect.Methods (τ : Type) where
  Kind : τ → reflect.Kind
  Len : τ → Option Int
  Elem : τ → Option τ
  Key : τ → Option τ
  ChanDir : τ → Option reflect.ChanDir
  PkgPath : τ → GoString
  Name : τ → GoString
  String : τ → GoString
  NumIn : τ → Option Nat
  In : τ → Nat → Option τ
  IsVariadic : τ → Option Bool
  NumOut : τ → Option Nat
  Out : τ → Nat → Option τ

/-- Constant `maxTypeDepth`. -/
def maxTypeDepth : Nat := 8

/-- The loop `for i := 1; i < len(xs); i++ { acc += ", " + xs[i] }`, `rest`
being `xs[1:]`. -/
def appendCommaSeparated (acc : GoString) (rest : List GoString) : GoString :=
  rest.foldl (fun acc x => acc ++ (goStr ", " ++ x)) acc

/-- The body of the first loop of `typeNameForFunc`: the value stored in
`paramTypes[i]`.  `recur u` stands for `typeNameWithDepth(u, maxDepth-1)`. -/
def paramTypeName {τ : Type} (R : reflect.Methods τ) (recur : τ → Option GoString)
    (t : τ) (i : Nat) : Option GoString := do
  let variadic ← R.IsVariadic t
  let isLast ←
    if variadic then (R.NumIn t).map (fun n => decide ((i : Int) = (n : Int) - 1))
    else some false
  if isLast then
    let param ← R.In t i
    let elem ← R.Elem param
    let name ← recur elem
    pure (goStr "..." ++ name)
  else
    let param ← R.In t i
    recur param

/-- The function `typeNameForFunc`; `recur u` stands for
`typeNameWithDepth(u, maxDepth-1)`. -/
def typeNameForFunc {τ : Type} (R : reflect.Methods τ) (recur : τ → Option GoString)
    (t : τ) : Option GoString := do
  let numIn ← R.NumIn t
  let paramTypes ← (List.range numIn).mapM (paramTypeName R recur t)
  let params : GoString :=
    match paramTypes with
    | [] => goStr ""
    | first :: rest => appendCommaSeparated first rest
  let numOut ← R.NumOut t
  if 0 < numOut then
    let returnTypes ← (List.range numOut).mapM (fun i => (R.Out t i).bind recur)
    let returns : GoString := goStr ""
    let returns := if 1 < returnTypes.length then returns ++ goStr "(" else returns
    let first ← returnTypes[0]?
    let returns := returns ++ first
    let returns := appendCommaSeparated returns (returnTypes.drop 1)
    let returns := if 1 < returnTypes.length then returns ++ goStr ")" else returns
    pure (Sprintf (goStr "func(%s) %s") [FmtArg.str params, FmtArg.str returns])
  else
    pure (Sprintf (goStr "func(%s)") [FmtArg.str params])

/-- The function `typeNameWithDepth`. -/
def typeNameWithDepth {τ : Type} (R : reflect.Methods τ) : τ → Nat → Option GoString
  | _, 0 => some (goStr "<...>")
  | t, d + 1 =>
    match R.Kind t with
    | reflect.Kind.Array => do
      let len ← R.Len t
      let elem ← R.Elem t
      let name ← typeNameWithDepth R elem d
      pure (Sprintf (goStr "[%d]%s") [FmtArg.int len, FmtArg.str name])
    | reflect.Kind.Slice => do
      let elem ← R.Elem t
      let name ← typeNameWithDepth R elem d
      pure (Sprintf (goStr "[]%s") [FmtArg.str name])
    | reflect.Kind.Map => do
      let key ← R.Key t
      let keyName ← typeNameWithDepth R key d
      let elem ← R.Elem t
      let elemName ← typeNameWithDepth R elem d
      pure (Sprintf (goStr "map[%s]%s") [FmtArg.str keyName, FmtArg.str elemName])
    | reflect.Kind.Chan => do
      let chanDir ← R.ChanDir t
      let dir : GoString :=
        match chanDir with
        | reflect.ChanDir.RecvDir => goStr "<-chan "
        | reflect.ChanDir.SendDir => goStr "chan<- "
        | _ => goStr "chan "
      let elem ← R.Elem t
      let name ← typeNameWithDepth R elem d
      pure (dir ++ name)
    | reflect.Kind.Ptr => do
      let elem ← R.Elem t
      let name ← typeNameWithDepth R elem d
      pure (goStr "*" ++ name)
    | reflect.Kind.Struct | reflect.Kind.Interface =>
      if R.PkgPath t = goStr "" then some (R.String t)
      else some (Sprintf (goStr "%s.%s") [FmtArg.str (R.PkgPath t), FmtArg.str (R.Name t)])
    | reflect.Kind.Func => typeNameForFunc R (fun u => typeNameWithDepth R u d) t
    | _ => some (R.String t)

/-- The function `TypeName`; `none` is the nil `reflect.Type`. -/
def TypeName {τ : Type} (R : reflect.Methods τ) (t : Option τ) : Option GoString :=
  match t with
  | none => some (goStr "<nil>")
  | some t => typeNameWithDepth R t maxTypeDepth

/-- A few descriptors, numbered: `int`, `string`, the struct `User` of package
`example.com/app`, `*User`, `[]*User`, `[3]int`, `map[string]int`, `chan int`,
`<-chan int`, `chan<- int`, the self-referential `type T []T` (10), and from 20
on a tower of slices: 20 is `int`, `21` is `[]int`, every next one a slice of
the one before. -/
def sampleTypes : reflect.Methods Nat where
  Kind := fun t =>
    match t with
    | 0 => reflect.Kind.Int
    | 1 => reflect.Kind.String
    | 2 => reflect.Kind.Struct
    | 3 => reflect.Kind.Ptr
    | 4 => reflect.Kind.Slice
    | 5 => reflect.Kind.Array
    | 6 => reflect.Kind.Map
    | 7 => reflect.Kind.Chan
    | 8 => reflect.Kind.Chan
    | 9 => reflect.Kind.Chan
    | 10 => reflect.Kind.Slice
    | t => if t = 20 then reflect.Kind.Int else if 20 < t then reflect.Kind.Slice
      else reflect.Kind.Invalid
  Len := fun t => if t = 5 then some 3 else none
  Elem := fun t =>
    match t with
    | 3 => some 2
    | 4 => some 3
    | 5 => some 0
    | 6 => some 0
    | 7 => some 0
    | 8 => some 0
    | 9 => some 0
    | 10 => some 10
    | t => if 20 < t then some (t - 1) else none
  Key := fun t => if t = 6 then some 1 else none
  ChanDir := fun t =>
    match t with
    | 7 => some reflect.ChanDir.BothDir
    | 8 => some reflect.ChanDir.RecvDir
    | 9 => some reflect.ChanDir.SendDir
    | _ => none
  PkgPath := fun t => if t = 2 then goStr "example.com/app" else if t = 10 then goStr "main"
    else goStr ""
  Name := fun t =>
    match t with
    | 0 => goStr "int"
    | 1 => goStr "string"
    | 2 => goStr "User"
    | 10 => goStr "T"
    | t => if t = 20 then goStr "int" else goStr ""
  String := fun t =>
    match t with
    | 0 => goStr "int"
    | 1 => goStr "string"
    | 2 => goStr "app.User"
    | 3 => goStr "*app.User"
    | 4 => goStr "[]*app.User"
    | 5 => goStr "[3]int"
    | 6 => goStr "map[string]int"
    | 7 => goStr "chan int"
    | 8 => goStr "<-chan int"
    | 9 => goStr "chan<- int"
    | 10 => goStr "main.T"
    | t => if t = 20 then goStr "int" else goStr ""
  NumIn := fun _ => none
  In := fun _ _ => none
  IsVariadic := fun _ => none
  NumOut := fun _ => none
  Out := fun _ _ => none

/-- The descriptor `t` is `n` slice constructors around the base type `b`. -/
def IsNestedSlice {τ : Type} (R : reflect.Methods τ) (b : τ) : Nat → τ → Prop
  | 0, t => t = b
  | n + 1, t =>
    R.Kind t = reflect.Kind.Slice ∧
      match R.Elem t with
      | some e => IsNestedSlice R b n e
      | none => False

/-- The descriptor invariants of `reflect.Type`: each method is defined on the
kinds for which `reflect` documents it (an array has a length; array, slice,
map, channel and pointer have an element type; a map has a key type; a channel
has a direction; a function has a variadic flag, parameter and result counts,
and a parameter or result at every index below the count), and the last
parameter of a variadic function is a slice. -/
structure reflect.WellFormed {τ : Type} (R : reflect.Methods τ) : Prop where
  len_array : ∀ t, R.Kind t = reflect.Kind.Array → ∃ n, R.Len t = some n
  elem : ∀ t, R.Kind t = reflect.Kind.Array ∨ R.Kind t = reflect.Kind.Slice ∨
    R.Kind t = reflect.Kind.Map ∨ R.Kind t = reflect.Kind.Chan ∨
    R.Kind t = reflect.Kind.Ptr → ∃ e, R.Elem t = some e
  key_map : ∀ t, R.Kind t = reflect.Kind.Map → ∃ k, R.Key t = some k
  dir_chan : ∀ t, R.Kind t = reflect.Kind.Chan → ∃ d, R.ChanDir t = some d
  func_variadic : ∀ t, R.Kind t = reflect.Kind.Func → ∃ v, R.IsVariadic t = some v
  func_numIn : ∀ t, R.Kind t = reflect.Kind.Func → ∃ n, R.NumIn t = some n
  func_numOut : ∀ t, R.Kind t = reflect.Kind.Func → ∃ n, R.NumOut t = some n
  func_in : ∀ t n i, R.Kind t = reflect.Kind.Func → R.NumIn t = some n → i < n →
    ∃ p, R.In t i = some p
  func_out : ∀ t n i, R.Kind t = reflect.Kind.Func → R.NumOut t = some n → i < n →
    ∃ p, R.Out t i = some p
  variadic_last : ∀ t n p, R.Kind t = reflect.Kind.Func → R.IsVariadic t = some true →
    R.NumIn t = some (n + 1) → R.In t n = some p → R.Kind p = reflect.Kind.Slice

/-- A few more descriptors, numbered: `int` (0), `[]int` (1), the interface
`error` (2, no package path), the struct `Struct` of package
`github.com/goosz/commonz_test` (3), and the function types
`func(int, ...int)` (4), `func(int, int) (int, error)` (5), `func() int` (6),
`func(int, int)` (7), `func(Struct, ...int) Struct` (8). -/
def funcTypes : reflect.Methods Nat where
  Kind := fun t =>
    match t with
    | 0 => reflect.Kind.Int
    | 1 => reflect.Kind.Slice
    | 2 => reflect.Kind.Interface
    | 3 => reflect.Kind.Struct
    | 4 => reflect.Kind.Func
    | 5 => reflect.Kind.Func
    | 6 => reflect.Kind.Func
    | 7 => reflect.Kind.Func
    | 8 => reflect.Kind.Func
    | _ => reflect.Kind.Invalid
  Len := fun _ => none
  Elem := fun t => if t = 1 then some 0 else none
  Key := fun _ => none
  ChanDir := fun _ => none
  PkgPath := fun t => if t = 3 then goStr "github.com/goosz/commonz_test" else goStr ""
  Name := fun t =>
    match t with
    | 0 => goStr "int"
    | 2 => goStr "error"
    | 3 => goStr "Struct"
    | _ => goStr ""
  String := fun t =>
    match t with
    | 0 => goStr "int"
    | 1 => goStr "[]int"
    | 2 => goStr "error"
    | 3 => goStr "commonz_test.Struct"
    | 4 => goStr "func(int, ...int)"
    | 5 => goStr "func(int, int) (int, error)"
    | 6 => goStr "func() int"
    | 7 => goStr "func(int, int)"
    | 8 => goStr "func(commonz_test.Struct, ...int) commonz_test.Struct"
    | _ => goStr ""
  NumIn := fun t =>
    match t with
    | 4 => some 2
    | 5 => some 2
    | 6 => some 0
    | 7 => some 2
    | 8 => some 2
    | _ => none
  In := fun t i =>
    match t, i with
    | 4, 0 => some 0
    | 4, 1 => some 1
    | 5, 0 => some 0
    | 5, 1 => some 0
    | 7, 0 => some 0
    | 7, 1 => some 0
    | 8, 0 => some 3
    | 8, 1 => some 1
    | _, _ => none
  IsVariadic := fun t =>
    match t with
    | 4 => some true
    | 5 => some false
    | 6 => some false
    | 7 => some false
    | 8 => some true
    | _ => none
  NumOut := fun t =>
    match t with
    | 4 => some 0
    | 5 => some 2
    | 6 => some 1
    | 7 => some 0
    | 8 => some 1
    | _ => none
  Out := fun t i =>
    match t, i with
    | 5, 0 => some 0
    | 5, 1 => some 2
    | 6, 0 => some 0
    | 8, 0 => some 3
    | _, _ => none

/-- The `switch` statement of `typeNameWithDepth`, reached when the budget is
not zero; `recur u` stands for the recursive call
`typeNameWithDepth(u, maxDepth-1)`. -/
def typeNameSwitch {τ : Type} (R : reflect.Methods τ) (recur : τ → Option GoString)
    (t : τ) : Option GoString :=
  match R.Kind t with
  | reflect.Kind.Array => do
    let len ← R.Len t
    let elem ← R.Elem t
    let name ← recur elem
    pure (Sprintf (goStr "[%d]%s") [FmtArg.int len, FmtArg.str name])
  | reflect.Kind.Slice => do
    let elem ← R.Elem t
    let name ← recur elem
    pure (Sprintf (goStr "[]%s") [FmtArg.str name])
  | reflect.Kind.Map => do
    let key ← R.Key t
    let keyName ← recur key
    let elem ← R.Elem t
    let elemName ← recur elem
    pure (Sprintf (goStr "map[%s]%s") [FmtArg.str keyName, FmtArg.str elemName])
  | reflect.Kind.Chan => do
    let chanDir ← R.ChanDir t
    let dir : GoString :=
      match chanDir with
      | reflect.ChanDir.RecvDir => goStr "<-chan "
      | reflect.ChanDir.SendDir => goStr "chan<- "
      | _ => goStr "chan "
    let elem ← R.Elem t
    let name ← recur elem
    pure (dir ++ name)
  | reflect.Kind.Ptr => do
    let elem ← R.Elem t
    let name ← recur elem
    pure (goStr "*" ++ name)
  | reflect.Kind.Struct | reflect.Kind.Interface =>
    if R.PkgPath t = goStr "" then some (R.String t)
    else some (Sprintf (goStr "%s.%s") [FmtArg.str (R.PkgPath t), FmtArg.str (R.Name t)])
  | reflect.Kind.Func => typeNameForFunc R recur t
  | _ => some (R.String t)

/-- The function `typeNameWithDepth` as Go runs it: the budget is an `int`,
compared with zero and decremented (with 64-bit wrap-around) at each recursive
call, and `fuel` bounds the nesting of recursive calls below this one.  A
recursive call made when the fuel is used up returns `none`. -/
def typeNameWithDepthFuel {τ : Type} (R : reflect.Methods τ) :
    Nat → τ → Int → Option GoString
  | 0, t, maxDepth =>
    if maxDepth = 0 then some (goStr "<...>")
    else typeNameSwitch R (fun _ => none) t
  | fuel + 1, t, maxDepth =>
    if maxDepth = 0 then some (goStr "<...>")
    else typeNameSwitch R (fun u => typeNameWithDepthFuel R fuel u (wrapInt64 (maxDepth - 1))) t

/-- Nested maps, numbered: `int` (0), `string` (1), `map[string]int` (2),
`map[int]map[string]int` (3), `map[string]map[int]map[string]int` (4),
`map[int]map[string]map[int]map[string]int` (5). -/
def nestedMapTypes : reflect.Methods Nat where
  Kind := fun t =>
    match t with
    | 0 => reflect.Kind.Int
    | 1 => reflect.Kind.String
    | 2 => reflect.Kind.Map
    | 3 => reflect.Kind.Map
    | 4 => reflect.Kind.Map
    | 5 => reflect.Kind.Map
    | _ => reflect.Kind.Invalid
  Len := fun _ => none
  Elem := fun t =>
    match t with
    | 2 => some 0
    | 3 => some 2
    | 4 => some 3
    | 5 => some 4
    | _ => none
  Key := fun t =>
    match t with
    | 2 => some 1
    | 3 => some 0
    | 4 => some 1
    | 5 => some 0
    | _ => none
  ChanDir := fun _ => none
  PkgPath := fun _ => goStr ""
  Name := fun t =>
    match t with
    | 0 => goStr "int"
    | 1 => goStr "string"
    | _ => goStr ""
  String := fun t =>
    match t with
    | 0 => goStr "int"
    | 1 => goStr "string"
    | 2 => goStr "map[string]int"
    | 3 => goStr "map[int]map[string]int"
    | 4 => goStr "map[string]map[int]map[string]int"
    | 5 => goStr "map[int]map[string]map[int]map[string]int"
    | _ => goStr ""
  NumIn := fun _ => none
  In := fun _ _ => none
  IsVariadic := fun _ => none
  NumOut := fun _ => none
  Out := fun _ _ => none

/-- Two optional components correspond: both absent, or both present and
related by `P`. -/
def optRel {α β : Type} (P : α → β → Prop) : Option α → Option β → Prop
  | some a, some b => P a b
  | none, none => True
  | _, _ => False

instance optRel.instDecidable {α β : Type} (P : α → β → Prop) [∀ a b, Decidable (P a b)] :
    ∀ (o₁ : Option α) (o₂ : Option β), Decidable (optRel P o₁ o₂)
  | some a, some b => inferInstanceAs (Decidable (P a b))
  | none, none => isTrue trivial
  | some _, none => isFalse (fun h => h)
  | none, some _ => isFalse (fun h => h)

/-- An optional component, when present, satisfies `P`. -/
def optAll {α : Type} (P : α → Prop) : Option α → Prop
  | some a => P a
  | none => True

instance optAll.instDecidable {α : Type} (P : α → Prop) [∀ a, Decidable (P a)] :
    ∀ o : Option α, Decidable (optAll P o)
  | some a => inferInstanceAs (Decidable (P a))
  | none => isTrue trivial

/-- The descriptors `t1` and `t2` agree on kind, array length, channel
direction, variadic flag, arities, package path, declared name and default
display string. -/
abbrev AttrAgree {τ₁ τ₂ : Type} (R₁ : reflect.Methods τ₁) (R₂ : reflect.Methods τ₂)
    (t1 : τ₁) (t2 : τ₂) : Prop :=
  R₁.Kind t1 = R₂.Kind t2 ∧ R₁.Len t1 = R₂.Len t2 ∧ R₁.ChanDir t1 = R₂.ChanDir t2 ∧
  R₁.IsVariadic t1 = R₂.IsVariadic t2 ∧ R₁.NumIn t1 = R₂.NumIn t2 ∧
  R₁.NumOut t1 = R₂.NumOut t2 ∧ R₁.PkgPath t1 = R₂.PkgPath t2 ∧
  R₁.Name t1 = R₂.Name t2 ∧ R₁.String t1 = R₂.String t2

/-- The descriptors `t1` and `t2` agree on the attributes of `AttrAgree` at
every type reached from the root in fewer than `d` steps, a step going from a
type to its element type, its key type, one of its parameters (an index below
`NumIn`) or one of its results (an index below `NumOut`). -/
def ReachAgree {τ₁ τ₂ : Type} (R₁ : reflect.Methods τ₁) (R₂ : reflect.Methods τ₂) :
    Nat → τ₁ → τ₂ → Prop
  | 0, _, _ => True
  | d + 1, t1, t2 =>
    AttrAgree R₁ R₂ t1 t2 ∧
    optRel (ReachAgree R₁ R₂ d) (R₁.Elem t1) (R₂.Elem t2) ∧
    optRel (ReachAgree R₁ R₂ d) (R₁.Key t1) (R₂.Key t2) ∧
    (∀ i, i < (R₁.NumIn t1).getD 0 →
      optRel (ReachAgree R₁ R₂ d) (R₁.In t1 i) (R₂.In t2 i)) ∧
    (∀ i, i < (R₁.NumOut t1).getD 0 →
      optRel (ReachAgree R₁ R₂ d) (R₁.Out t1 i) (R₂.Out t2 i))

instance ReachAgree.instDecidable {τ₁ τ₂ : Type} (R₁ : reflect.Methods τ₁)
    (R₂ : reflect.Methods τ₂) :
    ∀ (d : Nat) (t1 : τ₁) (t2 : τ₂), Decidable (ReachAgree R₁ R₂ d t1 t2)
  | 0, _, _ => isTrue trivial
  | d + 1, t1, t2 =>
    have : ∀ a b, Decidable (ReachAgree R₁ R₂ d a b) := ReachAgree.instDecidable R₁ R₂ d
    inferInstanceAs (Decidable (
      AttrAgree R₁ R₂ t1 t2 ∧
      optRel (ReachAgree R₁ R₂ d) (R₁.Elem t1) (R₂.Elem t2) ∧
      optRel (ReachAgree R₁ R₂ d) (R₁.Key t1) (R₂.Key t2) ∧
      (∀ i, i < (R₁.NumIn t1).getD 0 →
        optRel (ReachAgree R₁ R₂ d) (R₁.In t1 i) (R₂.In t2 i)) ∧
      (∀ i, i < (R₁.NumOut t1).getD 0 →
        optRel (ReachAgree R₁ R₂ d) (R₁.Out t1 i) (R₂.Out t2 i))))

/-- The descriptors `t1` and `t2` agree on the attributes of `AttrAgree`, and
the types one descent of the renderer below them correspond and are related by
`P`.  A descent goes to the element type, the key type, a parameter or a
result, as a step of `ReachAgree` does, except that from a variadic function
it goes to the element type of the last parameter instead of the last
parameter: `typeNameForFunc` renders `t.In(i).Elem()` there. -/
abbrev LevelAgree {τ₁ τ₂ : Type} (R₁ : reflect.Methods τ₁) (R₂ : reflect.Methods τ₂)
    (P : τ₁ → τ₂ → Prop) (t1 : τ₁) (t2 : τ₂) : Prop :=
  AttrAgree R₁ R₂ t1 t2 ∧
  optRel P (R₁.Elem t1) (R₂.Elem t2) ∧
  optRel P (R₁.Key t1) (R₂.Key t2) ∧
  (∀ i, i < (R₁.NumIn t1).getD 0 →
    if R₁.IsVariadic t1 = some true ∧ i + 1 = (R₁.NumIn t1).getD 0 then
      optRel (fun p1 p2 => optRel P (R₁.Elem p1) (R₂.Elem p2)) (R₁.In t1 i) (R₂.In t2 i)
    else optRel P (R₁.In t1 i) (R₂.In t2 i)) ∧
  (∀ i, i < (R₁.NumOut t1).getD 0 → optRel P (R₁.Out t1 i) (R₂.Out t2 i))

/-- The descriptors `t1` and `t2` agree, in the sense of `LevelAgree`, at
every type reached in fewer than `d` descents of the renderer from the
root. -/
def DescentAgree {τ₁ τ₂ : Type} (R₁ : reflect.Methods τ₁) (R₂ : reflect.Methods τ₂) :
    Nat → τ₁ → τ₂ → Prop
  | 0, _, _ => True
  | d + 1, t1, t2 => LevelAgree R₁ R₂ (DescentAgree R₁ R₂ d) t1 t2

instance DescentAgree.instDecidable {τ₁ τ₂ : Type} (R₁ : reflect.Methods τ₁)
    (R₂ : reflect.Methods τ₂) :
    ∀ (d : Nat) (t1 : τ₁) (t2 : τ₂), Decidable (DescentAgree R₁ R₂ d t1 t2)
  | 0, _, _ => isTrue trivial
  | d + 1, t1, t2 =>
    have : ∀ a b, Decidable (DescentAgree R₁ R₂ d a b) := DescentAgree.instDecidable R₁ R₂ d
    inferInstanceAs (Decidable (LevelAgree R₁ R₂ (DescentAgree R₁ R₂ d) t1 t2))

/-- The height of the descriptor `t` is at most `h`: the number of types on
every descent from `t` through element, key, parameter and result types, a
leaf counting 1.  It holds for no `h` on a cyclic descriptor. -/
def HeightLE {τ : Type} (R : reflect.Methods τ) : Nat → τ → Prop
  | 0, _ => False
  | h + 1, t =>
    optAll (HeightLE R h) (R.Elem t) ∧ optAll (HeightLE R h) (R.Key t) ∧
    (∀ i, i < (R.NumIn t).getD 0 → optAll (HeightLE R h) (R.In t i)) ∧
    (∀ i, i < (R.NumOut t).getD 0 → optAll (HeightLE R h) (R.Out t i))

instance HeightLE.instDecidable {τ : Type} (R : reflect.Methods τ) :
    ∀ (h : Nat) (t : τ), Decidable (HeightLE R h t)
  | 0, _ => isFalse (fun h => h)
  | h + 1, t =>
    have : ∀ a, Decidable (HeightLE R h a) := HeightLE.instDecidable R h
    inferInstanceAs (Decidable (
      optAll (HeightLE R h) (R.Elem t) ∧ optAll (HeightLE R h) (R.Key t) ∧
      (∀ i, i < (R.NumIn t).getD 0 → optAll (HeightLE R h) (R.In t i)) ∧
      (∀ i, i < (R.NumOut t).getD 0 → optAll (HeightLE R h) (R.Out t i))))

/-- Function-local types of one package `main`, numbered: `int` (0); declared
in one function, `type E []int` (1) and `type F func(...E)` (5), whose
parameter has type `[]E` (3); declared in another function, `type E *int` (2)
and `type F func(...E)` (6), whose parameter has type `[]E` (4). -/
def localTypes : reflect.Methods Nat where
  Kind := fun t =>
    match t with
    | 0 => reflect.Kind.Int
    | 1 => reflect.Kind.Slice
    | 2 => reflect.Kind.Ptr
    | 3 => reflect.Kind.Slice
    | 4 => reflect.Kind.Slice
    | 5 => reflect.Kind.Func
    | 6 => reflect.Kind.Func
    | _ => reflect.Kind.Invalid
  Len := fun _ => none
  Elem := fun t =>
    match t with
    | 1 => some 0
    | 2 => some 0
    | 3 => some 1
    | 4 => some 2
    | _ => none
  Key := fun _ => none
  ChanDir := fun _ => none
  PkgPath := fun t =>
    match t with
    | 1 => goStr "main"
    | 2 => goStr "main"
    | 5 => goStr "main"
    | 6 => goStr "main"
    | _ => goStr ""
  Name := fun t =>
    match t with
    | 0 => goStr "int"
    | 1 => goStr "E"
    | 2 => goStr "E"
    | 5 => goStr "F"
    | 6 => goStr "F"
    | _ => goStr ""
  String := fun t =>
    match t with
    | 0 => goStr "int"
    | 1 => goStr "main.E"
    | 2 => goStr "main.E"
    | 3 => goStr "[]main.E"
    | 4 => goStr "[]main.E"
    | 5 => goStr "main.F"
    | 6 => goStr "main.F"
    | _ => goStr ""
  NumIn := fun t => if t = 5 ∨ t = 6 then some 1 else none
  In := fun t i =>
    match t, i with
    | 5, 0 => some 3
    | 6, 0 => some 4
    | _, _ => none
  IsVariadic := fun t => if t = 5 ∨ t = 6 then some true else none
  NumOut := fun t => if t = 5 ∨ t = 6 then some 0 else none
  Out := fun _ _ => none

/-- The kinds that `typeNameWithDepth` renders from the components of the
type: array, slice, map, channel, pointer and function. -/
def IsComposite (k : reflect.Kind) : Prop :=
  k = reflect.Kind.Array ∨ k = reflect.Kind.Slice ∨ k = reflect.Kind.Map ∨
  k = reflect.Kind.Chan ∨ k = reflect.Kind.Ptr ∨ k = reflect.Kind.Func

instance (k : reflect.Kind) : Decidable (IsComposite k) :=
  inferInstanceAs (Decidable (
    k = reflect.Kind.Array ∨ k = reflect.Kind.Slice ∨ k = reflect.Kind.Map ∨
    k = reflect.Kind.Chan ∨ k = reflect.Kind.Ptr ∨ k = reflect.Kind.Func))

/-- The universe `R` with the declared name, package path and default display
string of the descriptor `t` replaced; everything else is unchanged. -/
def reflect.Methods.rename {τ : Type} [DecidableEq τ] (R : reflect.Methods τ) (t : τ)
    (pkgPath name str : GoString) : reflect.Methods τ :=
  { R with
    PkgPath := fun u => if u = t then pkgPath else R.PkgPath u
    Name := fun u => if u = t then name else R.Name u
    String := fun u => if u = t then str else R.String u }

/-! ## `slice_to_set.go`

The map `map[T]struct{}` is modelled by the list of its keys, in the order in
which the entries were created; Go exposes no order, and no property below
depends on it.  A nil map is `none`.

A lookup `set[v]` finds the entry whose key `k` satisfies `k == v`, with the
`==` of Go.  That comparison is symmetric and transitive but not reflexive: a
floating-point NaN differs from itself, so a NaN key is never found and every
assignment with a NaN key creates a new entry.  Using a value as a map key
panics at run time when its dynamic type is not comparable (an interface value
holding a slice, for instance). -/

/-- A Go `error` value, identified by its message. -/
structure GoError where
  message : GoString
  deriving DecidableEq

/-- What `SliceToSet` uses of its type argument `T comparable`: `eq a b` is
the Go comparison `a == b`, `hashable v` tells whether `v` can be a map key
(otherwise the map access panics), and `render v` is the text the verb `%v`
prints for `v`.  The comparison of Go is symmetric and transitive; it need not
be reflexive. -/
structure Comparable (T : Type) where
  eq : T → T → Bool
  hashable : T → Bool
  render : T → GoString
  eq_symm : ∀ a b, eq a b = true → eq b a = true
  eq_trans : ∀ a b c, eq a b = true → eq b c = true → eq a c = true

/-- The lookup `_, exists := set[v]`: whether some key `k` of the map has
`k == v`. -/
def mapLookup {T : Type} (C : Comparable T) (set : List T) (v : T) : Bool :=
  set.any (fun k => C.eq k v)

/-- The assignment `set[v] = struct{}{}`.  When a key `k == v` is present its
entry is reused and holds the key `v` afterwards (the Go runtime overwrites
the stored key for the key types on which `==` can hold between different
values, such as `+0` and `-0`; for the other key types `k` and `v` are the
same value).  Otherwise a new entry is created. -/
def mapAssign {T : Type} (C : Comparable T) (set : List T) (v : T) : List T :=
  if mapLookup C set v then set.map (fun k => if C.eq k v then v else k)
  else set ++ [v]

/-- The loop of `SliceToSet` over the rest of the slice, `set` being the map
built so far.  The result is `none` for a run-time panic, otherwise the pair
of returned values: the map (or nil) and the error (or nil). -/
def sliceToSetLoop {T : Type} (C : Comparable T) (strict : Bool) :
    List T → List T → Option (Option (List T) × Option GoError)
  | [], set => some (some set, none)
  | v :: rest, set =>
    if C.hashable v then
      if mapLookup C set v && strict then
        some (none, some { message := goStr "duplicate element: " ++ C.render v })
      else
        sliceToSetLoop C strict rest (mapAssign C set v)
    else none

/-- The function `SliceToSet`; `make(map[T]struct{}, len(slice))` is the empty
map. -/
def SliceToSet {T : Type} (C : Comparable T) (slice : List T) (strict : Bool) :
    Option (Option (List T) × Option GoError) :=
  sliceToSetLoop C strict slice []

/-- The type `int`: `==` is equality, every value can be a map key. -/
def intComparable : Comparable Int where
  eq := fun a b => decide (a = b)
  hashable := fun _ => true
  render := formatInt
  eq_symm := fun a b h => by
    rw [decide_eq_true_eq] at h ⊢
    exact h.symm
  eq_trans := fun a b c h₁ h₂ => by
    rw [decide_eq_true_eq] at h₁ h₂ ⊢
    exact h₁.trans h₂

/-- Sample values of the interface type `any`: an `int`, which is comparable,
or a `[]int`, which is not. -/
inductive AnyValue where
  | int (n : Int)
  | ints (xs : List Int)
  deriving DecidableEq

/-- The comparison `==` of two sample values that can be map keys. -/
def AnyValue.eq : AnyValue → AnyValue → Bool
  | AnyValue.int a, AnyValue.int b => decide (a = b)
  | _, _ => false

/-- Whether a sample value can be a map key. -/
def AnyValue.hashable : AnyValue → Bool
  | AnyValue.int _ => true
  | AnyValue.ints _ => false

/-- The `%v` rendering of a sample value. -/
def AnyValue.render : AnyValue → GoString
  | AnyValue.int n => formatInt n
  | AnyValue.ints xs => goStr "[" ++ (goStr " ").intercalate (xs.map formatInt) ++ goStr "]"

/-- The interface type `any`, on the sample values. -/
def anyComparable : Comparable AnyValue where
  eq := AnyValue.eq
  hashable := AnyValue.hashable
  render := AnyValue.render
  eq_symm := fun a b h => by
    cases a <;> cases b <;> simp_all [AnyValue.eq, eq_comm]
  eq_trans := fun a b c h₁ h₂ => by
    cases a <;> cases b <;> cases c <;> simp_all [AnyValue.eq]

/-- Sample values of the type `float64`: the NaN, `+0`, `-0` and `1`. -/
inductive Float64Value where
  | NaN
  | posZero
  | negZero
  | one
  deriving DecidableEq

/-- The comparison `==` of `float64`: the NaN equals nothing, itself
included, and `+0 == -0`. -/
def Float64Value.eq : Float64Value → Float64Value → Bool
  | Float64Value.posZero, Float64Value.posZero => true
  | Float64Value.posZero, Float64Value.negZero => true
  | Float64Value.negZero, Float64Value.posZero => true
  | Float64Value.negZero, Float64Value.negZero => true
  | Float64Value.one, Float64Value.one => true
  | _, _ => false

/-- The `%v` rendering of the sample `float64` values. -/
def Float64Value.render : Float64Value → GoString
  | Float64Value.NaN => goStr "NaN"
  | Float64Value.posZero => goStr "0"
  | Float64Value.negZero => goStr "-0"
  | Float64Value.one => goStr "1"

/-- The type `float64`, on the sample values: every value can be a map key. -/
def float64Comparable : Comparable Float64Value where
  eq := Float64Value.eq
  hashable := fun _ => true
  render := Float64Value.render
  eq_symm := fun a b h => by
    cases a <;> cases b <;> revert h <;> decide
  eq_trans := fun a b c h₁ h₂ => by
    cases a <;> cases b <;> cases c <;> revert h₁ h₂ <;> decide

/-- Whether the elements at indices `i` and `j` of `s` are equal under `==`. -/
def eqAt {T : Type} (C : Comparable T) (s : List T) (i j : Nat) : Bool :=
  match s[i]?, s[j]? with
  | some a, some b => C.eq a b
  | _, _ => false

/-- Two different indices of `s` hold elements that are equal under `==`. -/
def HasDuplicate {T : Type} (C : Comparable T) (s : List T) : Prop :=
  ∃ j, j < s.length ∧ ∃ i, i < j ∧ eqAt C s i j = true

instance {T : Type} (C : Comparable T) (s : List T) : Decidable (HasDuplicate C s) :=
  inferInstanceAs (Decidable (∃ j, j < s.length ∧ ∃ i, i < j ∧ eqAt C s i j = true))

/-- Index `j` is the smallest index of `s` whose element equals (`==`) an
element at an earlier index. -/
def IsFirstDuplicate {T : Type} (C : Comparable T) (s : List T) (j : Nat) : Prop :=
  j < s.length ∧ (∃ i, i < j ∧ eqAt C s i j = true) ∧
    ∀ k, k < j → ¬ ∃ i, i < k ∧ eqAt C s i k = true

instance {T : Type} (C : Comparable T) (s : List T) (j : Nat) :
    Decidable (IsFirstDuplicate C s j) :=
  inferInstanceAs (Decidable (j < s.length ∧ (∃ i, i < j ∧ eqAt C s i j = true) ∧
    ∀ k, k < j → ¬ ∃ i, i < k ∧ eqAt C s i k = true))

/-- One value occurs at two different indices of `s`. -/
def HasRepeatedValue {T : Type} (s : List T) : Prop :=
  ∃ j, j < s.length ∧ ∃ i, i < j ∧ s[i]? = s[j]?

instance {T : Type} [DecidableEq T] (s : List T) : Decidable (HasRepeatedValue s) :=
  inferInstanceAs (Decidable (∃ j, j < s.length ∧ ∃ i, i < j ∧ s[i]? = s[j]?))

/-- The number of elements of `s` that are not equal (`==`) to an element
before them, `seen` being the elements that precede `s`. -/
def countFirstOccurrences {T : Type} (C : Comparable T) : List T → List T → Nat
  | _, [] => 0
  | seen, v :: rest =>
    (if mapLookup C seen v then 0 else 1) + countFirstOccurrences C (seen ++ [v]) rest

/-- The number of distinct values of `s`, compared with `==`: the number of
elements that are not equal to an earlier element. -/
def numDistinct {T : Type} (C : Comparable T) (s : List T) : Nat :=
  countFirstOccurrences C [] s

/-- The slices `s1` and `s2` have the same element values, compared with
`==`: every element of each is equal to an element of the other. -/
def SameValues {T : Type} (C : Comparable T) (s1 s2 : List T) : Prop :=
  (∀ x ∈ s1, ∃ y ∈ s2, C.eq x y = true) ∧ (∀ y ∈ s2, ∃ x ∈ s1, C.eq y x = true)

instance {T : Type} (C : Comparable T) (s1 s2 : List T) : Decidable (SameValues C s1 s2) :=
  inferInstanceAs (Decidable
    ((∀ x ∈ s1, ∃ y ∈ s2, C.eq x y = true) ∧ (∀ y ∈ s2, ∃ x ∈ s1, C.eq y x = true)))

/-- On the type behind `C`, `==` holds exactly between a value and itself (as
for integers, strings and pointers). -/
def IsIdentity {T : Type} (C : Comparable T) : Prop :=
  ∀ a b, C.eq a b = true ↔ a = b

/-- The value `y` is a key of the map `m` or equal (`==`) to one. -/
def IsRepresented {T : Type} (C : Comparable T) (m : List T) (y : T) : Prop :=
  y ∈ m ∨ mapLookup C m y = true

/-! ## Vocabulary of the properties -/

/-- What follows `"func(" + params + ")"` in the rendering of a function type
whose rendered return types are `rs`: nothing for no return, a space and the
name for one return, a space and the parenthesised `", "`-joined names for
several. -/
def returnsSuffix : List GoString → GoString
  | [] => goStr ""
  | [r] => goStr " " ++ r
  | r :: r2 :: rs => goStr " (" ++ (goStr ", ").intercalate (r :: r2 :: rs) ++ goStr ")"


/-- A character whose UTF-8 encoding is the single byte of its code. -/
def IsOneByte (c : Char) : Prop := String.utf8EncodeChar c = [c.toNat.toUInt8]

instance (c : Char) : Decidable (IsOneByte c) :=
  inferInstanceAs (Decidable (String.utf8EncodeChar c = [c.toNat.toUInt8]))


/-- The string `s` has a `'.'` after its last `'/'`: some position holds a
`'.'` and no `'/'` occurs from that position on. -/
def HasDotAfterLastSlash (s : GoString) : Prop :=
  ∃ i, i < s.length ∧ s[i]? = some dot ∧ slash ∉ s.drop i

instance (s : GoString) : Decidable (HasDotAfterLastSlash s) :=
  inferInstanceAs (Decidable (∃ i, i < s.length ∧ s[i]? = some dot ∧ slash ∉ s.drop i))

/-- Position `i` of `s` holds the first `'.'` after the last `'/'` of `s`:
it holds a `'.'`, no `'/'` occurs from `i` on, and each `'.'` before `i` is
followed by a `'/'` that comes before `i`. -/
def IsSplitDot (s : GoString) (i : Nat) : Prop :=
  s[i]? = some dot ∧ slash ∉ s.drop i ∧
    ∀ j, j < i → s[j]? = some dot → slash ∈ (s.take i).drop j

instance (s : GoString) (i : Nat) : Decidable (IsSplitDot s i) :=
  inferInstanceAs (Decidable (s[i]? = some dot ∧ slash ∉ s.drop i ∧
    ∀ j, j < i → s[j]? = some dot → slash ∈ (s.take i).drop j))

/-- A directory part of a path: empty, or ending in `'/'`. -/
def IsDir (dir : GoString) : Prop := dir = [] ∨ dir.getLast? = some slash

instance (dir : GoString) : Decidable (IsDir dir) :=
  inferInstanceAs (Decidable (dir = [] ∨ dir.getLast? = some slash))

/-! ## Lemmas on the library functions -/

theorem IndexByte_of_not_mem {c : UInt8} : ∀ {s : GoString}, c ∉ s → IndexByte s c = -1
  | [], _ => rfl
  | b :: s, h => by
    have hb : ¬ b = c := fun e => h (by simp [e])
    have hs : c ∉ s := fun e => h (List.mem_cons_of_mem _ e)
    simp [IndexByte, hb, IndexByte_of_not_mem hs]

theorem IndexByte_append_cons {c : UInt8} :
    ∀ (a t : GoString), c ∉ a → IndexByte (a ++ c :: t) c = (a.length : Int)
  | [], t, _ => by simp [IndexByte]
  | b :: a, t, h => by
    have hb : ¬ b = c := fun e => h (by simp [e])
    have ha : c ∉ a := fun e => h (List.mem_cons_of_mem _ e)
    have ih := IndexByte_append_cons a t ha
    have hlt : ¬ ((a.length : Int) < 0) := by omega
    simp [IndexByte, hb, ih, hlt]

theorem LastIndexByte_of_not_mem {c : UInt8} :
    ∀ {s : GoString}, c ∉ s → LastIndexByte s c = -1
  | [], _ => rfl
  | b :: s, h => by
    have hb : ¬ b = c := fun e => h (by simp [e])
    have hs : c ∉ s := fun e => h (List.mem_cons_of_mem _ e)
    simp [LastIndexByte, hb, LastIndexByte_of_not_mem hs]

theorem LastIndexByte_append_cons {c : UInt8} :
    ∀ (a t : GoString), c ∉ t → LastIndexByte (a ++ c :: t) c = (a.length : Int)
  | [], t, h => by simp [LastIndexByte, LastIndexByte_of_not_mem h]
  | b :: a, t, h => by
    have ih := LastIndexByte_append_cons a t h
    have hge : (0 : Int) ≤ (a.length : Int) := by omega
    simp [LastIndexByte, ih, hge]

theorem sliceFrom_append (a b : GoString) : sliceFrom (a ++ b) (a.length : Int) = some b := by
  have h : (0 : Int) ≤ (a.length : Int) ∧ (a.length : Int) ≤ ((a ++ b).length : Int) := by
    simp
  simp only [sliceFrom, if_pos h, Int.toNat_ofNat, List.drop_left]

theorem sliceTo_append (a b : GoString) : sliceTo (a ++ b) (a.length : Int) = some a := by
  have h : (0 : Int) ≤ (a.length : Int) ∧ (a.length : Int) ≤ ((a ++ b).length : Int) := by
    simp
  simp only [sliceTo, if_pos h, Int.toNat_ofNat, List.take_left]

theorem IsDir.cases {dir : GoString} (h : IsDir dir) : dir = [] ∨ ∃ d, dir = d ++ [slash] :=
  h.imp id (fun e => List.getLast?_eq_some_iff.1 e)

theorem isDir_concat (d : GoString) : IsDir (d ++ [slash]) :=
  Or.inr (List.getLast?_concat d)

theorem startPosOf_append (dir seg : GoString) (hdir : IsDir dir) (hseg : slash ∉ seg) :
    startPosOf (dir ++ seg) = (dir.length : Int) := by
  rcases hdir.cases with rfl | ⟨d, rfl⟩
  · simp [startPosOf, LastIndexByte_of_not_mem hseg]
  · have h := LastIndexByte_append_cons d seg hseg
    have e : d ++ [slash] ++ seg = d ++ slash :: seg := by simp
    have hlt : ¬ ((d.length : Int) < 0) := by omega
    simp [startPosOf, e, h, hlt]

/-- Every string is a directory part followed by a `'/'`-free last segment. -/
theorem exists_dir_seg : ∀ s : GoString, ∃ dir seg, s = dir ++ seg ∧ IsDir dir ∧ slash ∉ seg
  | [] => ⟨[], [], rfl, Or.inl rfl, by simp⟩
  | b :: s => by
    obtain ⟨dir, seg, hs, hdir, hseg⟩ := exists_dir_seg s
    rcases hdir.cases with rfl | ⟨d, rfl⟩
    · by_cases hb : b = slash
      · exact ⟨[slash], seg, by simp [hs, hb], isDir_concat [], hseg⟩
      · refine ⟨[], b :: seg, by simp [hs], Or.inl rfl, ?_⟩
        intro hm
        rcases List.mem_cons.1 hm with e | e
        · exact hb e.symm
        · exact hseg e
    · exact ⟨b :: (d ++ [slash]), seg, by simp [hs], isDir_concat (b :: d), hseg⟩

/-- The parser on a string split as directory, dot-free segment, `'.'`, rest. -/
theorem parse_split (dir seg fn : GoString) (hdir : IsDir dir) (hs : slash ∉ seg)
    (hd : dot ∉ seg) (hf : slash ∉ fn) :
    ParseCallerInfo (dir ++ seg ++ dot :: fn) = some ⟨dir ++ seg, fn⟩ := by
  have hs2 : slash ∉ seg ++ dot :: fn := by
    simp only [List.mem_append, List.mem_cons, not_or]
    exact ⟨hs, by decide, hf⟩
  rw [List.append_assoc]
  have hstart : startPosOf (dir ++ (seg ++ dot :: fn)) = (dir.length : Int) :=
    startPosOf_append dir _ hdir hs2
  have htail : sliceFrom (dir ++ (seg ++ dot :: fn)) (dir.length : Int)
      = some (seg ++ dot :: fn) := sliceFrom_append dir _
  have hidx : IndexByte (seg ++ dot :: fn) dot = (seg.length : Int) :=
    IndexByte_append_cons seg fn hd
  have hpkg : sliceTo (dir ++ (seg ++ dot :: fn)) ((dir.length : Int) + (seg.length : Int))
      = some (dir ++ seg) := by
    have := sliceTo_append (dir ++ seg) (dot :: fn)
    simpa using this
  have hfn : sliceFrom (dir ++ (seg ++ dot :: fn)) ((dir.length : Int) + (seg.length : Int) + 1)
      = some fn := by
    have := sliceFrom_append (dir ++ seg ++ [dot]) fn
    simpa using this
  have hge : (0 : Int) ≤ (seg.length : Int) := by omega
  simp only [ParseCallerInfo, hstart, htail, hidx, hpkg, hfn, hge, if_true, Option.bind_eq_bind,
    Option.some_bind, Option.pure_def, bind, pure]

/-- The parser on a string whose last segment has no `'.'`. -/
theorem parse_nodot (dir seg : GoString) (hdir : IsDir dir) (hs : slash ∉ seg)
    (hd : dot ∉ seg) : ParseCallerInfo (dir ++ seg) = some unknownCallerInfo := by
  have hstart := startPosOf_append dir seg hdir hs
  have htail := sliceFrom_append dir seg
  have hidx : IndexByte seg dot = -1 := IndexByte_of_not_mem hd
  simp [ParseCallerInfo, hstart, htail, hidx]

/-- A byte found by index, with what follows it. -/
theorem drop_of_getElem? {s : GoString} {i : Nat} {c : UInt8} (h : s[i]? = some c) :
    s.drop i = c :: s.drop (i + 1) := by
  obtain ⟨hi, hc⟩ := List.getElem?_eq_some.1 h
  rw [List.drop_eq_getElem_cons hi, hc]

theorem getElem?_append_cons_self (a b : GoString) (c : UInt8) :
    (a ++ c :: b)[a.length]? = some c := by
  rw [List.getElem?_append_right (Nat.le_refl _), Nat.sub_self, List.getElem?_cons_zero]

/-- With `s = dir ++ seg` as in `exists_dir_seg`, a `'.'` after the last `'/'`
is a `'.'` of the last segment. -/
theorem hasDot_iff (dir seg : GoString) (hdir : IsDir dir) (hs : slash ∉ seg) :
    HasDotAfterLastSlash (dir ++ seg) ↔ dot ∈ seg := by
  constructor
  · rintro ⟨i, _, hdot, hns⟩
    by_cases hlt : i < dir.length
    · exfalso
      rcases hdir.cases with rfl | ⟨d, rfl⟩
      · simp at hlt
      · apply hns
        have hle : i ≤ d.length := by
          simp only [List.length_append, List.length_singleton] at hlt; omega
        have e : d ++ [slash] ++ seg = d ++ slash :: seg := by simp
        rw [e, List.drop_append_of_le_length hle]
        simp
    · have hge : dir.length ≤ i := Nat.le_of_not_lt hlt
      rw [List.getElem?_append_right hge] at hdot
      exact List.getElem?_mem hdot
  · intro hmem
    obtain ⟨a, b, rfl⟩ := List.append_of_mem hmem
    refine ⟨dir.length + a.length, by simp, ?_, ?_⟩
    · rw [List.getElem?_append_right (Nat.le_add_right _ _), Nat.add_sub_cancel_left]
      exact getElem?_append_cons_self a b dot
    · rw [List.drop_append, List.drop_left]
      intro hm
      exact hs (List.mem_append_right a hm)

/-- The text before the splitting dot has a `'.'`-free last segment, and the
string is that text, the dot, and a `'/'`-free rest. -/
theorem isSplitDot_decomp {s : GoString} {i : Nat} (h : IsSplitDot s i) :
    ∃ dir seg, IsDir dir ∧ slash ∉ seg ∧ dot ∉ seg ∧ s.take i = dir ++ seg ∧
      s = dir ++ seg ++ dot :: s.drop (i + 1) ∧ slash ∉ s.drop (i + 1) := by
  obtain ⟨hdot, hafter, hfirst⟩ := h
  have hi : i < s.length := (List.getElem?_eq_some.1 hdot).1
  have hdrop := drop_of_getElem? hdot
  obtain ⟨dir, seg, hp, hdir, hseg⟩ := exists_dir_seg (s.take i)
  have hlen : dir.length + seg.length = i := by
    have := congrArg List.length hp
    simp only [List.length_take, List.length_append] at this
    omega
  refine ⟨dir, seg, hdir, hseg, ?_, hp, ?_, ?_⟩
  · intro hmem
    obtain ⟨a, b, rfl⟩ := List.append_of_mem hmem
    simp only [List.length_append, List.length_cons] at hlen
    have hj : dir.length + a.length < i := by omega
    have hsj : s[dir.length + a.length]? = some dot := by
      rw [← List.getElem?_take_of_lt hj, hp,
        List.getElem?_append_right (Nat.le_add_right _ _), Nat.add_sub_cancel_left]
      exact getElem?_append_cons_self a b dot
    have hm := hfirst _ hj hsj
    rw [hp, List.drop_append, List.drop_left] at hm
    rcases List.mem_cons.1 hm with e | e
    · exact absurd e (by decide)
    · exact hseg (List.mem_append_right a (List.mem_cons_of_mem _ e))
  · rw [← hp, ← hdrop, List.take_append_drop]
  · intro hm
    apply hafter
    rw [hdrop]
    exact List.mem_cons_of_mem _ hm

/-- The result of the parser at a splitting dot. -/
theorem parse_of_isSplitDot {s : GoString} {i : Nat} (h : IsSplitDot s i) :
    ParseCallerInfo s = some ⟨s.take i, s.drop (i + 1)⟩ := by
  obtain ⟨dir, seg, hdir, hseg, hnd, hp, hs, hfn⟩ := isSplitDot_decomp h
  have := parse_split dir seg (s.drop (i + 1)) hdir hseg hnd hfn
  rw [← hs, ← hp] at this
  exact this

/-- A byte that occurs in `t` has a first occurrence. -/
theorem exists_first_split {c : UInt8} :
    ∀ {t : GoString}, c ∈ t → ∃ a b, t = a ++ c :: b ∧ c ∉ a
  | [], h => by simp at h
  | x :: t, h => by
    by_cases hx : x = c
    · exact ⟨[], t, by simp [hx], by simp⟩
    · have ht : c ∈ t := by
        rcases List.mem_cons.1 h with e | e
        · exact absurd e.symm hx
        · exact e
      obtain ⟨a, b, e, hn⟩ := exists_first_split ht
      refine ⟨x :: a, b, by simp [e], ?_⟩
      intro hm
      rcases List.mem_cons.1 hm with e2 | e2
      · exact hx e2.symm
      · exact hn e2

/-- In `dir ++ seg ++ '.' :: fn`, the dot that follows a `'.'`-free last
segment is the splitting dot. -/
theorem isSplitDot_of_split (dir seg fn : GoString) (hdir : IsDir dir)
    (hd : dot ∉ seg) (hf : slash ∉ fn) :
    IsSplitDot (dir ++ seg ++ dot :: fn) (dir ++ seg).length := by
  refine ⟨getElem?_append_cons_self (dir ++ seg) fn dot, ?_, ?_⟩
  · rw [List.drop_left]
    intro hm
    rcases List.mem_cons.1 hm with e | e
    · exact absurd e (by decide)
    · exact hf e
  · intro j hj hdot
    rw [List.take_left]
    have hjlt : j < dir.length := by
      by_contra hge
      have hge : dir.length ≤ j := Nat.le_of_not_lt hge
      rw [List.getElem?_append_left hj, List.getElem?_append_right hge] at hdot
      exact hd (List.getElem?_mem hdot)
    rcases hdir.cases with rfl | ⟨d, rfl⟩
    · simp at hjlt
    · have hle : j ≤ d.length := by
        simp only [List.length_append, List.length_singleton] at hjlt; omega
      have e : d ++ [slash] ++ seg = d ++ slash :: seg := by simp
      rw [e, List.drop_append_of_le_length hle]
      simp

/-- Two splitting dots of one string sit at the same position. -/
theorem isSplitDot_unique {s : GoString} {i j : Nat} (hi : IsSplitDot s i)
    (hj : IsSplitDot s j) : j = i := by
  have h1 := parse_of_isSplitDot hi
  have h2 := parse_of_isSplitDot hj
  rw [h1] at h2
  have e : s.take i = s.take j := congrArg CallerInfo.Package (Option.some.inj h2)
  have li : i < s.length := (List.getElem?_eq_some.1 hi.1).1
  have lj : j < s.length := (List.getElem?_eq_some.1 hj.1).1
  have := congrArg List.length e
  simp only [List.length_take] at this
  omega

/-- The two outcomes of the parser: the sentinel when the last segment has no
`'.'`, the split at the first `'.'` of the last segment otherwise. -/
theorem parse_cases (s : GoString) :
    (¬ HasDotAfterLastSlash s ∧ ParseCallerInfo s = some unknownCallerInfo) ∨
    (∃ dir seg fn, IsDir dir ∧ slash ∉ seg ∧ dot ∉ seg ∧ slash ∉ fn ∧
      s = dir ++ seg ++ dot :: fn ∧ ParseCallerInfo s = some ⟨dir ++ seg, fn⟩) := by
  obtain ⟨dir, tail, rfl, hdir, htail⟩ := exists_dir_seg s
  by_cases hd : dot ∈ tail
  · right
    obtain ⟨seg, fn, hsplit⟩ := exists_first_split hd
    obtain ⟨rfl, hnd⟩ := hsplit
    have hseg : slash ∉ seg := fun hm => htail (List.mem_append_left _ hm)
    have hfn : slash ∉ fn := fun hm =>
      htail (List.mem_append_right _ (List.mem_cons_of_mem _ hm))
    exact ⟨dir, seg, fn, hdir, hseg, hnd, hfn, by simp, by
      have := parse_split dir seg fn hdir hseg hnd hfn
      simpa using this⟩
  · left
    exact ⟨fun h => hd ((hasDot_iff dir tail hdir htail).1 h), parse_nodot dir tail hdir htail hd⟩

theorem goStr_dot : goStr "." = [dot] := by decide

theorem Sprintf_s_dot_s (p f : GoString) :
    Sprintf (goStr "%s.%s") [FmtArg.str p, FmtArg.str f] = p ++ dot :: (f ++ []) := rfl

/-- The method `String` joins the two fields with one `'.'`. -/
theorem String_eq (c : CallerInfo) : c.String = c.Package ++ dot :: c.Function := by
  rw [CallerInfo.String, Sprintf_s_dot_s, List.append_nil]

/-! ## Properties of `ParseCallerInfo` -/

set_option maxRecDepth 100000

/-- C1: every string `s` that contains a `'.'` at or after the position
following its last `'/'` (anywhere, when it has no `'/'`) has exactly one
position `i` holding the first such `'.'`, and `ParseCallerInfo s` returns
`Package` = the prefix of `s` that ends just before it and `Function` =
everything after it, verbatim. -/
theorem ParseCallerInfo_splits_at_first_dot (s : GoString)
    (h : HasDotAfterLastSlash s) :
    ∃ i, IsSplitDot s i ∧ (∀ j, IsSplitDot s j → j = i) ∧
      ParseCallerInfo s = some { Package := s.take i, Function := s.drop (i + 1) } := by
  rcases parse_cases s with ⟨hn, _⟩ | ⟨dir, seg, fn, hdir, hseg, hnd, hfn, hs, _⟩
  · exact absurd h hn
  · have hsplit : IsSplitDot s (dir ++ seg).length := by
      rw [hs]; exact isSplitDot_of_split dir seg fn hdir hnd hfn
    exact ⟨_, hsplit, fun j hj => isSplitDot_unique hsplit hj, parse_of_isSplitDot hsplit⟩

theorem ParseCallerInfo_splits_at_first_dot_witness :
    HasDotAfterLastSlash (goStr "foo.bar.com/pkg.(*T).M[int]") ∧
    ∃ i, IsSplitDot (goStr "foo.bar.com/pkg.(*T).M[int]") i ∧
      (∀ j, IsSplitDot (goStr "foo.bar.com/pkg.(*T).M[int]") j → j = i) ∧
      ParseCallerInfo (goStr "foo.bar.com/pkg.(*T).M[int]") =
        some { Package := (goStr "foo.bar.com/pkg.(*T).M[int]").take i,
               Function := (goStr "foo.bar.com/pkg.(*T).M[int]").drop (i + 1) } :=
  ⟨by decide,
    ParseCallerInfo_splits_at_first_dot (goStr "foo.bar.com/pkg.(*T).M[int]") (by decide)⟩

/-- C2: when no `'.'` occurs after the last `'/'` of `s` (the empty string, a
string without any `'.'`, a string whose dots all precede its last `'/'`),
`ParseCallerInfo s` returns exactly
`CallerInfo{Package: "<unknown-package>", Function: "<unknown-function>"}`. -/
theorem ParseCallerInfo_unknown_of_no_dot (s : GoString)
    (h : ¬ HasDotAfterLastSlash s) :
    ParseCallerInfo s =
      some { Package := goStr "<unknown-package>", Function := goStr "<unknown-function>" } := by
  rcases parse_cases s with ⟨_, hp⟩ | ⟨dir, seg, fn, hdir, hseg, _, hfn, hs, _⟩
  · exact hp
  · exfalso
    apply h
    have hs2 : slash ∉ seg ++ dot :: fn := by
      simp only [List.mem_append, List.mem_cons, not_or]
      exact ⟨hseg, by decide, hfn⟩
    rw [hs, List.append_assoc]
    exact (hasDot_iff dir (seg ++ dot :: fn) hdir hs2).2 (by simp)

theorem ParseCallerInfo_unknown_of_no_dot_witness :
    (¬ HasDotAfterLastSlash (goStr "foo.bar.com/pkg") ∧
      ParseCallerInfo (goStr "foo.bar.com/pkg") =
        some { Package := goStr "<unknown-package>", Function := goStr "<unknown-function>" }) ∧
    (¬ HasDotAfterLastSlash (goStr "") ∧
      ParseCallerInfo (goStr "") =
        some { Package := goStr "<unknown-package>", Function := goStr "<unknown-function>" }) ∧
    (¬ HasDotAfterLastSlash (goStr "justafunctionname") ∧
      ParseCallerInfo (goStr "justafunctionname") =
        some { Package := goStr "<unknown-package>", Function := goStr "<unknown-function>" }) :=
  ⟨⟨by decide, ParseCallerInfo_unknown_of_no_dot (goStr "foo.bar.com/pkg") (by decide)⟩,
    ⟨by decide, ParseCallerInfo_unknown_of_no_dot (goStr "") (by decide)⟩,
    ⟨by decide, ParseCallerInfo_unknown_of_no_dot (goStr "justafunctionname") (by decide)⟩⟩

/-- C3: for a package string `P = dir ++ seg` whose final `'/'`-delimited
segment `seg` contains no `'.'` (the directory part `dir`, empty or ending in
`'/'`, may contain dots) and a function string `F` without `'/'`,
`ParseCallerInfo (P + "." + F) = CallerInfo{Package: P, Function: F}`. -/
theorem ParseCallerInfo_package_dot_function (dir seg F : GoString)
    (hdir : IsDir dir) (hseg : slash ∉ seg) (hnodot : dot ∉ seg) (hF : slash ∉ F) :
    ParseCallerInfo ((dir ++ seg) ++ goStr "." ++ F) =
      some { Package := dir ++ seg, Function := F } := by
  have h := parse_split dir seg F hdir hseg hnodot hF
  rw [goStr_dot]
  simpa using h

theorem ParseCallerInfo_package_dot_function_witness :
    IsDir (goStr "foo.bar.com/") ∧ slash ∉ goStr "mypackage" ∧ dot ∉ goStr "mypackage" ∧
    slash ∉ goStr "(*T[int]).Get.func1" ∧
    ParseCallerInfo ((goStr "foo.bar.com/" ++ goStr "mypackage") ++ goStr "." ++
        goStr "(*T[int]).Get.func1") =
      some { Package := goStr "foo.bar.com/" ++ goStr "mypackage",
             Function := goStr "(*T[int]).Get.func1" } :=
  ⟨by decide, by decide, by decide, by decide,
    ParseCallerInfo_package_dot_function (goStr "foo.bar.com/") (goStr "mypackage")
      (goStr "(*T[int]).Get.func1") (by decide) (by decide) (by decide) (by decide)⟩


/-- C4, as stated, fails: `CallerInfo{"a.b", "c"}` is resolved and its function
has no `'/'`, yet parsing its `String()` gives `{"a", "b.c"}`. -/
theorem roundTrip_fails_on_dotted_package :
    (CallerInfo.mk (goStr "a.b") (goStr "c")).IsUnknown = false ∧
    slash ∉ (CallerInfo.mk (goStr "a.b") (goStr "c")).Function ∧
    ParseCallerInfo (CallerInfo.mk (goStr "a.b") (goStr "c")).String =
      some { Package := goStr "a", Function := goStr "b.c" } ∧
    ParseCallerInfo (CallerInfo.mk (goStr "a.b") (goStr "c")).String ≠
      some (CallerInfo.mk (goStr "a.b") (goStr "c")) := by
  decide

/-- C4 (amended): round trip.  For every resolved `CallerInfo` `c` whose
`Function` contains no `'/'` and whose `Package` has no `'.'` after its last
`'/'`, `ParseCallerInfo (c.String()) = c`. -/
theorem ParseCallerInfo_String_roundTrip (c : CallerInfo)
    (_hres : c.IsUnknown = false) (hF : slash ∉ c.Function)
    (hP : ¬ HasDotAfterLastSlash c.Package) :
    ParseCallerInfo c.String = some c := by
  obtain ⟨dir, seg, hp, hdir, hseg⟩ := exists_dir_seg c.Package
  have hnd : dot ∉ seg := fun hm => hP (by rw [hp]; exact (hasDot_iff dir seg hdir hseg).2 hm)
  have h := parse_split dir seg c.Function hdir hseg hnd hF
  rw [String_eq, hp, h, ← hp]

theorem ParseCallerInfo_String_roundTrip_witness :
    (CallerInfo.mk (goStr "x.org/pkg") (goStr "(*T).M")).IsUnknown = false ∧
    slash ∉ (CallerInfo.mk (goStr "x.org/pkg") (goStr "(*T).M")).Function ∧
    ¬ HasDotAfterLastSlash (CallerInfo.mk (goStr "x.org/pkg") (goStr "(*T).M")).Package ∧
    ParseCallerInfo (CallerInfo.mk (goStr "x.org/pkg") (goStr "(*T).M")).String =
      some (CallerInfo.mk (goStr "x.org/pkg") (goStr "(*T).M")) :=
  ⟨by decide, by decide, by decide,
    ParseCallerInfo_String_roundTrip (CallerInfo.mk (goStr "x.org/pkg") (goStr "(*T).M"))
      (by decide) (by decide) (by decide)⟩

/-- C5, as stated, fails: `"<unknown-package>.<unknown-function>"` has a
splitting dot (at index 17) and is parsed to the unknown sentinel, and
`"<unknown-package>.f"` has one and its result reports `IsUnknown() = true`. -/
theorem sentinel_returned_despite_split_dot :
    IsSplitDot (goStr "<unknown-package>.<unknown-function>") 17 ∧
    ParseCallerInfo (goStr "<unknown-package>.<unknown-function>") = some unknownCallerInfo ∧
    IsSplitDot (goStr "<unknown-package>.f") 17 ∧
    (ParseCallerInfo (goStr "<unknown-package>.f")).map CallerInfo.IsUnknown = some true := by
  decide

theorem parse_sentinel_text :
    ParseCallerInfo (goStr "<unknown-package>.<unknown-function>") = some unknownCallerInfo := by
  decide

theorem sentinel_text_eq :
    goStr "<unknown-package>.<unknown-function>" =
      goStr "<unknown-package>" ++ dot :: goStr "<unknown-function>" := by
  decide

theorem isUnknown_eq_false_iff (c : CallerInfo) :
    c.IsUnknown = false ↔
      c.Package ≠ goStr "<unknown-package>" ∧ c.Function ≠ goStr "<unknown-function>" := by
  simp [CallerInfo.IsUnknown]

/-- C5 (amended): whenever `s` has a splitting dot (position `i`), the input
is accepted verbatim: the result is the split at that dot, never a substituted
sentinel.  Its `IsUnknown()` is false exactly when the text before the dot is
not `"<unknown-package>"` and the text after it is not `"<unknown-function>"`,
and it equals the unknown sentinel only for
`s = "<unknown-package>.<unknown-function>"`. -/
theorem ParseCallerInfo_accepts_verbatim (s : GoString) (i : Nat) (h : IsSplitDot s i) :
    ∃ c, ParseCallerInfo s = some c ∧ c.Package = s.take i ∧ c.Function = s.drop (i + 1) ∧
      (c.IsUnknown = false ↔
        s.take i ≠ goStr "<unknown-package>" ∧ s.drop (i + 1) ≠ goStr "<unknown-function>") ∧
      (c = unknownCallerInfo ↔ s = goStr "<unknown-package>.<unknown-function>") := by
  have hp := parse_of_isSplitDot h
  refine ⟨⟨s.take i, s.drop (i + 1)⟩, hp, rfl, rfl, isUnknown_eq_false_iff _, ?_⟩
  constructor
  · intro e
    have e1 : s.take i = goStr "<unknown-package>" := congrArg CallerInfo.Package e
    have e2 : s.drop (i + 1) = goStr "<unknown-function>" := congrArg CallerInfo.Function e
    have hs : s = s.take i ++ dot :: s.drop (i + 1) := by
      rw [← drop_of_getElem? h.1, List.take_append_drop]
    rw [hs, e1, e2, sentinel_text_eq]
  · intro e
    rw [e, parse_sentinel_text] at hp
    rw [e]
    exact (Option.some.inj hp).symm

theorem ParseCallerInfo_accepts_verbatim_witness :
    IsSplitDot (goStr "package.(*Type.GetMethod") 7 ∧
    ∃ c, ParseCallerInfo (goStr "package.(*Type.GetMethod") = some c ∧
      c.Package = (goStr "package.(*Type.GetMethod").take 7 ∧
      c.Function = (goStr "package.(*Type.GetMethod").drop (7 + 1) ∧
      (c.IsUnknown = false ↔
        (goStr "package.(*Type.GetMethod").take 7 ≠ goStr "<unknown-package>" ∧
        (goStr "package.(*Type.GetMethod").drop (7 + 1) ≠ goStr "<unknown-function>") ∧
      (c = unknownCallerInfo ↔
        goStr "package.(*Type.GetMethod" = goStr "<unknown-package>.<unknown-function>") :=
  ⟨by decide, ParseCallerInfo_accepts_verbatim (goStr "package.(*Type.GetMethod") 7 (by decide)⟩


/-- C6: reconstruction.  For every string `s` that has a `'.'` after its last
`'/'`, `ParseCallerInfo(s).String() = s`. -/
theorem ParseCallerInfo_String_reconstructs (s : GoString) (h : HasDotAfterLastSlash s) :
    (ParseCallerInfo s).map CallerInfo.String = some s := by
  rcases parse_cases s with ⟨hn, _⟩ | ⟨dir, seg, fn, _, _, _, _, hs, hp⟩
  · exact absurd h hn
  · rw [hp, Option.map_some', String_eq]
    exact congrArg some hs.symm

theorem ParseCallerInfo_String_reconstructs_witness :
    HasDotAfterLastSlash (goStr "github.com/user/package.(*MyStruct).SetValue") ∧
    (ParseCallerInfo (goStr "github.com/user/package.(*MyStruct).SetValue")).map
        CallerInfo.String =
      some (goStr "github.com/user/package.(*MyStruct).SetValue") :=
  ⟨by decide,
    ParseCallerInfo_String_reconstructs
      (goStr "github.com/user/package.(*MyStruct).SetValue") (by decide)⟩

/-- C7: `ParseCallerInfo` is total.  For every string the slice expression
`fnName[startPos:]` is in range and, when a period is found, so are
`fnName[:startPos+periodPos]` and `fnName[startPos+periodPos+1:]`; the
function never panics and always returns a `CallerInfo`. -/
theorem ParseCallerInfo_total (s : GoString) :
    (∃ c, ParseCallerInfo s = some c) ∧
    ∃ tail, sliceFrom s (startPosOf s) = some tail ∧
      (IndexByte tail dot < 0 ∨
        (0 ≤ IndexByte tail dot ∧
          (sliceTo s (startPosOf s + IndexByte tail dot)).isSome = true ∧
          (sliceFrom s (startPosOf s + IndexByte tail dot + 1)).isSome = true)) := by
  constructor
  · rcases parse_cases s with ⟨_, hp⟩ | ⟨dir, seg, fn, _, _, _, _, _, hp⟩
    · exact ⟨_, hp⟩
    · exact ⟨_, hp⟩
  · obtain ⟨dir, tail, rfl, hdir, htail⟩ := exists_dir_seg s
    refine ⟨tail, ?_, ?_⟩
    · rw [startPosOf_append dir tail hdir htail]
      exact sliceFrom_append dir tail
    · rw [startPosOf_append dir tail hdir htail]
      by_cases hd : dot ∈ tail
      · right
        obtain ⟨a, b, e, hna⟩ := exists_first_split hd
        subst e
        rw [IndexByte_append_cons a b hna]
        refine ⟨by omega, ?_, ?_⟩
        · have := sliceTo_append (dir ++ a) (dot :: b)
          simp only [List.length_append, Nat.cast_add, List.append_assoc] at this
          rw [this]; rfl
        · have := sliceFrom_append (dir ++ a ++ [dot]) b
          simp only [List.length_append, List.length_singleton, Nat.cast_add, Nat.cast_one,
            List.append_assoc, List.singleton_append, ← Int.add_assoc] at this
          rw [this]; rfl
      · left
        rw [IndexByte_of_not_mem hd]
        decide

/-- C8: `c.IsUnknown()` is true if and only if `c.Package` is
`"<unknown-package>"` or `c.Function` is `"<unknown-function>"`; one sentinel
field alone suffices, while the zero value and the near-misses
`"unknown-package"`, `"unknown-function"` are reported as not unknown. -/
theorem IsUnknown_iff_either_sentinel :
    (∀ c : CallerInfo, c.IsUnknown = true ↔
      (c.Package = goStr "<unknown-package>" ∨ c.Function = goStr "<unknown-function>")) ∧
    (∀ f, (CallerInfo.mk (goStr "<unknown-package>") f).IsUnknown = true) ∧
    (∀ p, (CallerInfo.mk p (goStr "<unknown-function>")).IsUnknown = true) ∧
    (CallerInfo.mk (goStr "") (goStr "")).IsUnknown = false ∧
    (CallerInfo.mk (goStr "unknown-package") (goStr "TestFunction")).IsUnknown = false ∧
    (CallerInfo.mk (goStr "github.com/goosz/commonz_test")
      (goStr "unknown-function")).IsUnknown = false := by
  refine ⟨fun c => by simp [CallerInfo.IsUnknown], fun f => by simp [CallerInfo.IsUnknown],
    fun p => by simp [CallerInfo.IsUnknown], by decide, by decide, by decide⟩

/-- C9: `c.String()` is `c.Package`, then a single `'.'`, then `c.Function`;
its length is `len(Package) + 1 + len(Function)`. -/
theorem String_is_package_dot_function (c : CallerInfo) :
    c.String = c.Package ++ goStr "." ++ c.Function ∧
    c.String.length = c.Package.length + 1 + c.Function.length := by
  rw [String_eq, goStr_dot]
  constructor
  · simp
  · simp only [List.length_append, List.length_cons]; omega

/-- C10, as stated, fails: `"."` is parsed to `CallerInfo{"", ""}`, whose
fields are empty and which is not the sentinel; `"<unknown-package>.f"` is
parsed to a value with only one sentinel field. -/
theorem parse_result_with_empty_fields :
    ParseCallerInfo (goStr ".") = some { Package := goStr "", Function := goStr "" } ∧
    (CallerInfo.mk (goStr "") (goStr "")) ≠ unknownCallerInfo ∧
    (goStr "" : GoString) = [] ∧
    ParseCallerInfo (goStr "<unknown-package>.f") =
      some { Package := goStr "<unknown-package>", Function := goStr "f" } ∧
    goStr "f" ≠ goStr "<unknown-function>" := by
  decide

/-- C10 (amended): for every string `s`, `ParseCallerInfo s` is either exactly
the canonical unknown sentinel (and `s` has no `'.'` after its last `'/'`), or
a split result `c` with `c.String() = s` whose `Package` has no `'.'` after its
last `'/'` and whose `Function` has no `'/'`. -/
theorem ParseCallerInfo_sentinel_or_split (s : GoString) :
    (ParseCallerInfo s = some unknownCallerInfo ∧ ¬ HasDotAfterLastSlash s ∧
      unknownCallerInfo.Package = goStr "<unknown-package>" ∧
      unknownCallerInfo.Function = goStr "<unknown-function>") ∨
    (∃ c, ParseCallerInfo s = some c ∧ c.String = s ∧
      ¬ HasDotAfterLastSlash c.Package ∧ slash ∉ c.Function) := by
  rcases parse_cases s with ⟨hn, hp⟩ | ⟨dir, seg, fn, hdir, hseg, hnd, hfn, hs, hp⟩
  · exact Or.inl ⟨hp, hn, rfl, rfl⟩
  · refine Or.inr ⟨_, hp, ?_, ?_, hfn⟩
    · rw [String_eq]; exact hs.symm
    · intro hh
      exact hnd ((hasDot_iff dir seg hdir hseg).1 hh)

/-! ## Properties of `GetCaller` -/

theorem wrapInt64_succ {depth : Int} (h0 : 0 ≤ depth) (hlt : depth < 9223372036854775807) :
    wrapInt64 (depth + 1) = depth + 1 := by
  unfold wrapInt64
  omega

/-- C11: for every `depth < 0`, `GetCaller(depth)` returns the unknown sentinel
`CallerInfo{"<unknown-package>", "<unknown-function>"}` whatever the call
stack is; the result is the same for every stack walker, so the walker is not
consulted. -/
theorem GetCaller_negative_depth (depth : Int) (h : depth < 0) :
    (∀ w : StackWalker, GetCaller w depth =
      some { Package := goStr "<unknown-package>", Function := goStr "<unknown-function>" }) ∧
    ∀ w w2 : StackWalker, GetCaller w depth = GetCaller w2 depth := by
  have key : ∀ w : StackWalker, GetCaller w depth = some unknownCallerInfo := by
    intro w
    simp [GetCaller, h]
  exact ⟨fun w => key w, fun w w2 => by rw [key w, key w2]⟩

theorem GetCaller_negative_depth_witness :
    (-1 : Int) < 0 ∧
    ((∀ w : StackWalker, GetCaller w (-1) =
      some { Package := goStr "<unknown-package>", Function := goStr "<unknown-function>" }) ∧
    ∀ w w2 : StackWalker, GetCaller w (-1) = GetCaller w2 (-1)) :=
  ⟨by decide, GetCaller_negative_depth (-1) (by decide)⟩

/-- C12: for every `depth ≥ 0`, if the stack walker yields no frame for the
index `depth + 1` that `GetCaller` asks for (the depth exceeds the stack
height), or the program counter of that frame resolves to no function,
`GetCaller(depth)` returns the unknown sentinel.  The index is the Go
expression `depth + 1`; it is the integer `depth + 1` for every depth below
the largest `int`. -/
theorem GetCaller_unknown_of_no_frame (w : StackWalker) (depth : Int) (h0 : 0 ≤ depth)
    (h : w.Caller (wrapInt64 (depth + 1)) = none ∨
      ∃ pc, w.Caller (wrapInt64 (depth + 1)) = some pc ∧ w.FuncForPC pc = none) :
    GetCaller w depth =
      some { Package := goStr "<unknown-package>", Function := goStr "<unknown-function>" } ∧
    (depth < 9223372036854775807 → wrapInt64 (depth + 1) = depth + 1) := by
  have hneg : ¬ depth < 0 := by omega
  refine ⟨?_, fun hlt => wrapInt64_succ h0 hlt⟩
  rcases h with h | ⟨pc, hpc, hfn⟩
  · simp only [GetCaller, if_neg hneg, h]; rfl
  · simp only [GetCaller, if_neg hneg, hpc, hfn]; rfl

theorem GetCaller_unknown_of_no_frame_witness :
    ((0 : Int) ≤ 100 ∧ sampleWalker.Caller (100 + 1) = none ∧
      GetCaller sampleWalker 100 =
        some { Package := goStr "<unknown-package>", Function := goStr "<unknown-function>" }) ∧
    ((0 : Int) ≤ 3 ∧ sampleWalker.Caller (3 + 1) = some 14 ∧ sampleWalker.FuncForPC 14 = none ∧
      GetCaller sampleWalker 3 =
        some { Package := goStr "<unknown-package>", Function := goStr "<unknown-function>" }) :=
  ⟨⟨by decide, by decide,
      (GetCaller_unknown_of_no_frame sampleWalker 100 (by decide) (Or.inl (by decide))).1⟩,
    ⟨by decide, by decide, by decide,
      (GetCaller_unknown_of_no_frame sampleWalker 3 (by decide)
        (Or.inr ⟨14, by decide, by decide⟩)).1⟩⟩

/-- C13: for every `depth ≥ 0` for which the frame lookup succeeds,
`GetCaller(depth)` is `ParseCallerInfo` of the name of the frame at walker
index `depth + 1`, index 0 being `GetCaller` itself: `CurrentCaller` looks at
index 1 (the function that invoked `GetCaller`), `ParentCaller` at index 2,
`GrandparentCaller` at index 3. -/
theorem GetCaller_parses_frame_name (w : StackWalker) (depth : Int) (pc : Nat)
    (name : GoString) (h0 : 0 ≤ depth)
    (hpc : w.Caller (wrapInt64 (depth + 1)) = some pc) (hname : w.FuncForPC pc = some name) :
    GetCaller w depth = ParseCallerInfo name ∧
    (depth < 9223372036854775807 → wrapInt64 (depth + 1) = depth + 1) ∧
    wrapInt64 (CurrentCaller + 1) = 1 ∧ wrapInt64 (ParentCaller + 1) = 2 ∧
    wrapInt64 (GrandparentCaller + 1) = 3 := by
  have hneg : ¬ depth < 0 := by omega
  refine ⟨?_, fun hlt => wrapInt64_succ h0 hlt, by decide, by decide, by decide⟩
  simp only [GetCaller, if_neg hneg, hpc, hname]

theorem GetCaller_parses_frame_name_witness :
    (0 : Int) ≤ ParentCaller ∧ sampleWalker.Caller (ParentCaller + 1) = some 12 ∧
    sampleWalker.FuncForPC 12 = some (goStr "main.(*T).Run") ∧
    GetCaller sampleWalker ParentCaller = ParseCallerInfo (goStr "main.(*T).Run") ∧
    GetCaller sampleWalker ParentCaller =
      some { Package := goStr "main", Function := goStr "(*T).Run" } :=
  ⟨by decide, by decide, by decide,
    (GetCaller_parses_frame_name sampleWalker ParentCaller 12 (goStr "main.(*T).Run")
      (by decide) (by decide) (by decide)).1, by decide⟩

/-- C14, as stated, fails: at depth 2 the sample stack has a frame and a
function name for it, `"justafunctionname"`, and `GetCaller` returns the
unknown sentinel, whose `IsUnknown()` is true. -/
theorem GetCaller_unknown_within_stack :
    sampleWalker.Caller (2 + 1) = some 13 ∧
    sampleWalker.FuncForPC 13 = some (goStr "justafunctionname") ∧
    GetCaller sampleWalker 2 = some unknownCallerInfo ∧
    (GetCaller sampleWalker 2).map CallerInfo.IsUnknown = some true := by
  decide

/-- C14 (amended): for every `depth ≥ 0` within the actual stack height (the
stack walker produces a frame and a function name for it) whose function name
has a splitting dot, the text before it not being `"<unknown-package>"` and the
text after it not being `"<unknown-function>"`,
`GetCaller(depth).IsUnknown() = false`. -/
theorem GetCaller_known_within_stack (w : StackWalker) (depth : Int) (pc : Nat)
    (name : GoString) (i : Nat) (h0 : 0 ≤ depth)
    (hpc : w.Caller (wrapInt64 (depth + 1)) = some pc) (hname : w.FuncForPC pc = some name)
    (hsplit : IsSplitDot name i) (hpkg : name.take i ≠ goStr "<unknown-package>")
    (hfn : name.drop (i + 1) ≠ goStr "<unknown-function>") :
    (GetCaller w depth).map CallerInfo.IsUnknown = some false := by
  have hneg : ¬ depth < 0 := by omega
  simp only [GetCaller, if_neg hneg, hpc, hname, parse_of_isSplitDot hsplit, Option.map_some']
  exact congrArg some ((isUnknown_eq_false_iff _).2 ⟨hpkg, hfn⟩)

theorem GetCaller_known_within_stack_witness :
    (0 : Int) ≤ 0 ∧ sampleWalker.Caller (wrapInt64 (0 + 1)) = some 11 ∧
    sampleWalker.FuncForPC 11 = some (goStr "main.helper") ∧
    IsSplitDot (goStr "main.helper") 4 ∧
    (goStr "main.helper").take 4 ≠ goStr "<unknown-package>" ∧
    (goStr "main.helper").drop (4 + 1) ≠ goStr "<unknown-function>" ∧
    (GetCaller sampleWalker 0).map CallerInfo.IsUnknown = some false :=
  ⟨by decide, by decide, by decide, by decide, by decide, by decide,
    GetCaller_known_within_stack sampleWalker 0 11 (goStr "main.helper") 4
      (by decide) (by decide) (by decide) (by decide) (by decide) (by decide)⟩

/-! ## Properties of `TypeName` -/

theorem Sprintf_slice (s : GoString) :
    Sprintf (goStr "[]%s") [FmtArg.str s] = goStr "[]" ++ s := by
  have h : Sprintf (goStr "[]%s") [FmtArg.str s] = goStr "[]" ++ (s ++ []) := rfl
  rw [h, List.append_nil]

theorem Sprintf_array (n : Int) (s : GoString) :
    Sprintf (goStr "[%d]%s") [FmtArg.int n, FmtArg.str s] =
      goStr "[" ++ formatInt n ++ goStr "]" ++ s := by
  have h : Sprintf (goStr "[%d]%s") [FmtArg.int n, FmtArg.str s] =
      goStr "[" ++ (formatInt n ++ (goStr "]" ++ (s ++ []))) := rfl
  rw [h, List.append_nil, List.append_assoc, List.append_assoc]

theorem Sprintf_map (k v : GoString) :
    Sprintf (goStr "map[%s]%s") [FmtArg.str k, FmtArg.str v] =
      goStr "map[" ++ k ++ goStr "]" ++ v := by
  have h : Sprintf (goStr "map[%s]%s") [FmtArg.str k, FmtArg.str v] =
      goStr "map[" ++ (k ++ (goStr "]" ++ (v ++ []))) := rfl
  rw [h, List.append_nil, List.append_assoc, List.append_assoc]

/-! ### The decimal numeral printed by `%d` -/

theorem ite_pred {α : Type} (P : α → Prop) (c : Prop) [Decidable c] (a b : α)
    (ha : P a) (hb : P b) : P (if c then a else b) := by
  split <;> assumption

theorem digitChar_oneByte (n : Nat) : IsOneByte (Nat.digitChar n) := by
  unfold Nat.digitChar
  iterate 16 refine ite_pred IsOneByte _ _ _ (by decide) ?_
  decide

theorem toDigitsCore_oneByte (b : Nat) :
    ∀ (fuel n : Nat) (ds : List Char), (∀ c ∈ ds, IsOneByte c) →
      ∀ c ∈ Nat.toDigitsCore b fuel n ds, IsOneByte c
  | 0, _, ds, h => by simpa [Nat.toDigitsCore] using h
  | fuel + 1, n, ds, h => by
    have hcons : ∀ c ∈ Nat.digitChar (n % b) :: ds, IsOneByte c := by
      intro c hc
      rcases List.mem_cons.1 hc with e | e
      · rw [e]; exact digitChar_oneByte _
      · exact h c e
    unfold Nat.toDigitsCore
    simp only
    split
    · exact hcons
    · exact toDigitsCore_oneByte b fuel _ _ hcons

theorem flatMap_oneByte : ∀ (l : List Char), (∀ c ∈ l, IsOneByte c) →
    l.flatMap String.utf8EncodeChar = l.map (fun c => c.toNat.toUInt8)
  | [], _ => rfl
  | c :: l, h => by
    have hc : String.utf8EncodeChar c = [c.toNat.toUInt8] := h c (List.mem_cons_self _ _)
    have ih := flatMap_oneByte l (fun x hx => h x (List.mem_cons_of_mem _ hx))
    simp only [List.flatMap_cons, List.map_cons, hc, ih, List.singleton_append]

/-- For a non-negative integer, `formatInt` is the decimal numeral. -/
theorem formatInt_of_nonneg {N : Int} (hN : 0 ≤ N) : formatInt N = goStr (toString N.toNat) := by
  have hlt : ¬ N < 0 := by omega
  have habs : N.natAbs = N.toNat := by omega
  have hdata : (toString N.toNat).data = Nat.toDigits 10 N.toNat := rfl
  have hflat := flatMap_oneByte (Nat.toDigits 10 N.toNat)
    (toDigitsCore_oneByte 10 _ _ [] (by simp))
  simp only [formatInt, if_neg hlt, habs, goStr, String.toUTF8, hdata, hflat]

/-- C15: `TypeName` of the nil descriptor is the literal `"<nil>"`, and for
every non-nil descriptor `t` it is `typeNameWithDepth(t, 8)`. -/
theorem TypeName_nil_and_budget {τ : Type} (R : reflect.Methods τ) :
    TypeName R none = some (goStr "<nil>") ∧
    ∀ t : τ, TypeName R (some t) = typeNameWithDepth R t 8 :=
  ⟨rfl, fun _ => rfl⟩

/-- Rendering `n` nested slices with a budget `d ≤ n`: `d` times `"[]"`, then
the placeholder. -/
theorem typeNameWithDepth_nested_slice {τ : Type} (R : reflect.Methods τ) (b : τ) :
    ∀ (d n : Nat) (t : τ), d ≤ n → IsNestedSlice R b n t →
      typeNameWithDepth R t d =
        some ((List.replicate d (goStr "[]")).flatten ++ goStr "<...>")
  | 0, _, _, _, _ => rfl
  | d + 1, 0, _, h, _ => absurd h (by omega)
  | d + 1, n + 1, t, h, hn => by
    obtain ⟨hk, he⟩ := hn
    cases hE : R.Elem t with
    | none => rw [hE] at he; exact he.elim
    | some e =>
      rw [hE] at he
      have ih := typeNameWithDepth_nested_slice R b d n e (by omega) he
      simp only [typeNameWithDepth, hk, hE, ih, Option.bind_eq_bind, Option.some_bind,
        Option.pure_def, bind, pure, Sprintf_slice]
      simp [List.replicate_succ]

/-- C16: depth limit.  For every base type `b` and every `n ≥ 8`, `TypeName` of
`n` nested slice constructors around `b` is exactly eight `"[]"` followed by
`"<...>"`, whatever `n` and `b` are. -/
theorem TypeName_depth_limit {τ : Type} (R : reflect.Methods τ) (b t : τ) (n : Nat)
    (hn : 8 ≤ n) (h : IsNestedSlice R b n t) :
    TypeName R (some t) = some (goStr "[][][][][][][][]<...>") := by
  have key := typeNameWithDepth_nested_slice R b 8 n t hn h
  have e : (List.replicate 8 (goStr "[]")).flatten ++ goStr "<...>" =
      goStr "[][][][][][][][]<...>" := by decide
  rw [e] at key
  exact key

theorem TypeName_depth_limit_witness :
    (8 ≤ 9 ∧ IsNestedSlice sampleTypes 20 9 29 ∧
      TypeName sampleTypes (some 29) = some (goStr "[][][][][][][][]<...>")) ∧
    (8 ≤ 8 ∧ IsNestedSlice sampleTypes 10 8 10 ∧
      TypeName sampleTypes (some 10) = some (goStr "[][][][][][][][]<...>")) :=
  ⟨⟨by decide, by simp [IsNestedSlice, sampleTypes],
      TypeName_depth_limit sampleTypes 20 29 9 (by decide) (by simp [IsNestedSlice, sampleTypes])⟩,
    ⟨by decide, by simp [IsNestedSlice, sampleTypes],
      TypeName_depth_limit sampleTypes 10 10 8 (by decide) (by simp [IsNestedSlice, sampleTypes])⟩⟩

/-- C17: for every budget `d ≥ 1` and element type `E`, a slice of `E` renders
as `"[]"` followed by `typeNameWithDepth(E, d-1)`, and a pointer to `E` as
`"*"` followed by `typeNameWithDepth(E, d-1)`. -/
theorem typeNameWithDepth_slice_pointer {τ : Type} (R : reflect.Methods τ) (t E : τ)
    (d : Nat) (hd : 1 ≤ d) (he : R.Elem t = some E) :
    (R.Kind t = reflect.Kind.Slice →
      typeNameWithDepth R t d =
        (typeNameWithDepth R E (d - 1)).map (fun name => goStr "[]" ++ name)) ∧
    (R.Kind t = reflect.Kind.Ptr →
      typeNameWithDepth R t d =
        (typeNameWithDepth R E (d - 1)).map (fun name => goStr "*" ++ name)) := by
  obtain ⟨k, rfl⟩ : ∃ k, d = k + 1 := ⟨d - 1, by omega⟩
  rw [Nat.add_sub_cancel]
  constructor
  · intro hk
    simp only [typeNameWithDepth, hk, he, Option.bind_eq_bind, Option.some_bind,
      Option.pure_def, bind, pure, Sprintf_slice]
    cases typeNameWithDepth R E k <;> rfl
  · intro hk
    simp only [typeNameWithDepth, hk, he, Option.bind_eq_bind, Option.some_bind,
      Option.pure_def, bind, pure]
    cases typeNameWithDepth R E k <;> rfl

theorem typeNameWithDepth_slice_pointer_witness :
    (1 ≤ 8 ∧ sampleTypes.Elem 4 = some 3 ∧ sampleTypes.Kind 4 = reflect.Kind.Slice ∧
      typeNameWithDepth sampleTypes 4 8 =
        (typeNameWithDepth sampleTypes 3 (8 - 1)).map (fun name => goStr "[]" ++ name)) ∧
    (1 ≤ 7 ∧ sampleTypes.Elem 3 = some 2 ∧ sampleTypes.Kind 3 = reflect.Kind.Ptr ∧
      typeNameWithDepth sampleTypes 3 7 =
        (typeNameWithDepth sampleTypes 2 (7 - 1)).map (fun name => goStr "*" ++ name)) ∧
    TypeName sampleTypes (some 4) = some (goStr "[]*example.com/app.User") :=
  ⟨⟨by decide, by decide, by decide,
      (typeNameWithDepth_slice_pointer sampleTypes 4 3 8 (by decide) (by decide)).1 (by decide)⟩,
    ⟨by decide, by decide, by decide,
      (typeNameWithDepth_slice_pointer sampleTypes 3 2 7 (by decide) (by decide)).2 (by decide)⟩,
    by decide⟩

/-- C18: for every budget `d ≥ 1`, length `N ≥ 0` and element type `E`, the
array type `[N]E` renders as `"["`, the decimal representation of `N`, `"]"`,
followed by `typeNameWithDepth(E, d-1)`. -/
theorem typeNameWithDepth_array {τ : Type} (R : reflect.Methods τ) (t E : τ) (N : Int)
    (d : Nat) (hd : 1 ≤ d) (hN : 0 ≤ N) (hk : R.Kind t = reflect.Kind.Array)
    (hl : R.Len t = some N) (he : R.Elem t = some E) :
    typeNameWithDepth R t d =
      (typeNameWithDepth R E (d - 1)).map
        (fun name => goStr "[" ++ goStr (toString N.toNat) ++ goStr "]" ++ name) := by
  obtain ⟨k, rfl⟩ : ∃ k, d = k + 1 := ⟨d - 1, by omega⟩
  rw [Nat.add_sub_cancel]
  simp only [typeNameWithDepth, hk, hl, he, Option.bind_eq_bind, Option.some_bind,
    Option.pure_def, bind, pure, Sprintf_array]
  rw [formatInt_of_nonneg hN]
  cases typeNameWithDepth R E k <;> rfl

theorem typeNameWithDepth_array_witness :
    1 ≤ 8 ∧ (0 : Int) ≤ 3 ∧ sampleTypes.Kind 5 = reflect.Kind.Array ∧
    sampleTypes.Len 5 = some 3 ∧ sampleTypes.Elem 5 = some 0 ∧
    typeNameWithDepth sampleTypes 5 8 =
      (typeNameWithDepth sampleTypes 0 (8 - 1)).map
        (fun name => goStr "[" ++ goStr (toString (3 : Int).toNat) ++ goStr "]" ++ name) ∧
    typeNameWithDepth sampleTypes 5 8 = some (goStr "[3]int") :=
  ⟨by decide, by decide, by decide, by decide, by decide,
    typeNameWithDepth_array sampleTypes 5 0 3 8 (by decide) (by decide) (by decide)
      (by decide) (by decide), by decide⟩

/-- C19: for every budget `d ≥ 1`, key type `K` and value type `V`, `map[K]V`
renders as `"map["`, `typeNameWithDepth(K, d-1)`, `"]"`,
`typeNameWithDepth(V, d-1)`: key and value get the same decremented budget. -/
theorem typeNameWithDepth_map {τ : Type} (R : reflect.Methods τ) (t K V : τ) (d : Nat)
    (hd : 1 ≤ d) (hk : R.Kind t = reflect.Kind.Map) (hkey : R.Key t = some K)
    (he : R.Elem t = some V) :
    typeNameWithDepth R t d =
      (typeNameWithDepth R K (d - 1)).bind (fun keyName =>
        (typeNameWithDepth R V (d - 1)).map (fun elemName =>
          goStr "map[" ++ keyName ++ goStr "]" ++ elemName)) := by
  obtain ⟨k, rfl⟩ : ∃ k, d = k + 1 := ⟨d - 1, by omega⟩
  rw [Nat.add_sub_cancel]
  simp only [typeNameWithDepth, hk, hkey, he, Option.bind_eq_bind, Option.some_bind,
    Option.pure_def, bind, pure, Sprintf_map]
  cases typeNameWithDepth R K k with
  | none => rfl
  | some keyName => cases typeNameWithDepth R V k <;> rfl

theorem typeNameWithDepth_map_witness :
    1 ≤ 1 ∧ sampleTypes.Kind 6 = reflect.Kind.Map ∧ sampleTypes.Key 6 = some 1 ∧
    sampleTypes.Elem 6 = some 0 ∧
    typeNameWithDepth sampleTypes 6 1 =
      (typeNameWithDepth sampleTypes 1 (1 - 1)).bind (fun keyName =>
        (typeNameWithDepth sampleTypes 0 (1 - 1)).map (fun elemName =>
          goStr "map[" ++ keyName ++ goStr "]" ++ elemName)) ∧
    typeNameWithDepth sampleTypes 6 1 = some (goStr "map[<...>]<...>") ∧
    typeNameWithDepth sampleTypes 6 2 = some (goStr "map[string]int") :=
  ⟨by decide, by decide, by decide, by decide,
    typeNameWithDepth_map sampleTypes 6 1 0 1 (by decide) (by decide) (by decide) (by decide),
    by decide, by decide⟩

/-- C20: for every budget `d ≥ 1` and element type `E`, a channel of `E`
renders as its direction prefix followed by `typeNameWithDepth(E, d-1)`; the
prefix is `"<-chan "` for a receive-only channel, `"chan<- "` for a send-only
channel and `"chan "` for a bidirectional one. -/
theorem typeNameWithDepth_chan {τ : Type} (R : reflect.Methods τ) (t E : τ)
    (dir : reflect.ChanDir) (d : Nat) (hd : 1 ≤ d) (hk : R.Kind t = reflect.Kind.Chan)
    (hdir : R.ChanDir t = some dir) (he : R.Elem t = some E) :
    (dir = reflect.ChanDir.RecvDir →
      typeNameWithDepth R t d =
        (typeNameWithDepth R E (d - 1)).map (fun name => goStr "<-chan " ++ name)) ∧
    (dir = reflect.ChanDir.SendDir →
      typeNameWithDepth R t d =
        (typeNameWithDepth R E (d - 1)).map (fun name => goStr "chan<- " ++ name)) ∧
    (dir = reflect.ChanDir.BothDir →
      typeNameWithDepth R t d =
        (typeNameWithDepth R E (d - 1)).map (fun name => goStr "chan " ++ name)) := by
  obtain ⟨k, rfl⟩ : ∃ k, d = k + 1 := ⟨d - 1, by omega⟩
  rw [Nat.add_sub_cancel]
  refine ⟨?_, ?_, ?_⟩ <;> intro hd2 <;> subst hd2 <;>
    simp only [typeNameWithDepth, hk, hdir, he, Option.bind_eq_bind, Option.some_bind,
      Option.pure_def, bind, pure] <;>
    cases typeNameWithDepth R E k <;> rfl

theorem typeNameWithDepth_chan_witness :
    (1 ≤ 8 ∧ sampleTypes.Kind 8 = reflect.Kind.Chan ∧
      sampleTypes.ChanDir 8 = some reflect.ChanDir.RecvDir ∧ sampleTypes.Elem 8 = some 0 ∧
      typeNameWithDepth sampleTypes 8 8 =
        (typeNameWithDepth sampleTypes 0 (8 - 1)).map (fun name => goStr "<-chan " ++ name)) ∧
    (1 ≤ 8 ∧ sampleTypes.Kind 9 = reflect.Kind.Chan ∧
      sampleTypes.ChanDir 9 = some reflect.ChanDir.SendDir ∧ sampleTypes.Elem 9 = some 0 ∧
      typeNameWithDepth sampleTypes 9 8 =
        (typeNameWithDepth sampleTypes 0 (8 - 1)).map (fun name => goStr "chan<- " ++ name)) ∧
    (1 ≤ 8 ∧ sampleTypes.Kind 7 = reflect.Kind.Chan ∧
      sampleTypes.ChanDir 7 = some reflect.ChanDir.BothDir ∧ sampleTypes.Elem 7 = some 0 ∧
      typeNameWithDepth sampleTypes 7 8 =
        (typeNameWithDepth sampleTypes 0 (8 - 1)).map (fun name => goStr "chan " ++ name)) ∧
    typeNameWithDepth sampleTypes 8 8 = some (goStr "<-chan int") ∧
    typeNameWithDepth sampleTypes 9 8 = some (goStr "chan<- int") ∧
    typeNameWithDepth sampleTypes 7 8 = some (goStr "chan int") :=
  ⟨⟨by decide, by decide, by decide, by decide,
      (typeNameWithDepth_chan sampleTypes 8 0 reflect.ChanDir.RecvDir 8 (by decide) (by decide)
        (by decide) (by decide)).1 rfl⟩,
    ⟨by decide, by decide, by decide, by decide,
      (typeNameWithDepth_chan sampleTypes 9 0 reflect.ChanDir.SendDir 8 (by decide) (by decide)
        (by decide) (by decide)).2.1 rfl⟩,
    ⟨by decide, by decide, by decide, by decide,
      (typeNameWithDepth_chan sampleTypes 7 0 reflect.ChanDir.BothDir 8 (by decide) (by decide)
        (by decide) (by decide)).2.2 rfl⟩,
    by decide, by decide, by decide⟩

/-- C21: for every budget `d ≥ 1`, a struct or interface type with a non-empty
package path `P` and declared name `N` renders as `P + "." + N`: with the
full path of the package, not the short package name of the default display
string. -/
theorem typeNameWithDepth_qualified {τ : Type} (R : reflect.Methods τ) (t : τ) (d : Nat)
    (hd : 1 ≤ d)
    (hk : R.Kind t = reflect.Kind.Struct ∨ R.Kind t = reflect.Kind.Interface)
    (hp : R.PkgPath t ≠ goStr "") :
    typeNameWithDepth R t d = some (R.PkgPath t ++ goStr "." ++ R.Name t) := by
  obtain ⟨k, rfl⟩ : ∃ k, d = k + 1 := ⟨d - 1, by omega⟩
  have hs : Sprintf (goStr "%s.%s") [FmtArg.str (R.PkgPath t), FmtArg.str (R.Name t)] =
      R.PkgPath t ++ goStr "." ++ R.Name t := by
    rw [Sprintf_s_dot_s, List.append_nil, goStr_dot]; simp
  rcases hk with hk | hk <;> simp only [typeNameWithDepth, hk, if_neg hp, hs]

theorem typeNameWithDepth_qualified_witness :
    1 ≤ 8 ∧
    (funcTypes.Kind 3 = reflect.Kind.Struct ∨ funcTypes.Kind 3 = reflect.Kind.Interface) ∧
    funcTypes.PkgPath 3 ≠ goStr "" ∧
    typeNameWithDepth funcTypes 3 8 =
      some (funcTypes.PkgPath 3 ++ goStr "." ++ funcTypes.Name 3) ∧
    typeNameWithDepth funcTypes 3 8 = some (goStr "github.com/goosz/commonz_test.Struct") ∧
    funcTypes.String 3 = goStr "commonz_test.Struct" :=
  ⟨by decide, by decide, by decide,
    typeNameWithDepth_qualified funcTypes 3 8 (by decide) (by decide) (by decide),
    by decide, by decide⟩

/-- C22: for every budget `d ≥ 1`, the rendering is the type's own default
display string, unmodified, when the type is a struct or interface with an
empty package path, or when its kind is none of array, slice, map, channel,
pointer, function, struct, interface. -/
theorem typeNameWithDepth_default_string {τ : Type} (R : reflect.Methods τ) (t : τ)
    (d : Nat) (hd : 1 ≤ d)
    (h : ((R.Kind t = reflect.Kind.Struct ∨ R.Kind t = reflect.Kind.Interface) ∧
        R.PkgPath t = goStr "") ∨
      (R.Kind t ≠ reflect.Kind.Array ∧ R.Kind t ≠ reflect.Kind.Slice ∧
        R.Kind t ≠ reflect.Kind.Map ∧ R.Kind t ≠ reflect.Kind.Chan ∧
        R.Kind t ≠ reflect.Kind.Ptr ∧ R.Kind t ≠ reflect.Kind.Func ∧
        R.Kind t ≠ reflect.Kind.Struct ∧ R.Kind t ≠ reflect.Kind.Interface)) :
    typeNameWithDepth R t d = some (R.String t) := by
  obtain ⟨k, rfl⟩ : ∃ k, d = k + 1 := ⟨d - 1, by omega⟩
  rcases h with ⟨hk, hp⟩ | ⟨h1, h2, h3, h4, h5, h6, h7, h8⟩
  · rcases hk with hk | hk <;> simp only [typeNameWithDepth, hk, if_pos hp]
  · unfold typeNameWithDepth
    cases hK : R.Kind t <;> simp_all

theorem typeNameWithDepth_default_string_witness :
    (1 ≤ 8 ∧ funcTypes.Kind 2 = reflect.Kind.Interface ∧ funcTypes.PkgPath 2 = goStr "" ∧
      typeNameWithDepth funcTypes 2 8 = some (funcTypes.String 2) ∧
      funcTypes.String 2 = goStr "error") ∧
    (1 ≤ 1 ∧ funcTypes.Kind 0 = reflect.Kind.Int ∧
      typeNameWithDepth funcTypes 0 1 = some (funcTypes.String 0) ∧
      funcTypes.String 0 = goStr "int") :=
  ⟨⟨by decide, by decide, by decide,
      typeNameWithDepth_default_string funcTypes 2 8 (by decide)
        (Or.inl ⟨Or.inr (by decide), by decide⟩), by decide⟩,
    ⟨by decide, by decide,
      typeNameWithDepth_default_string funcTypes 0 1 (by decide)
        (Or.inr (by decide)), by decide⟩⟩

/-! ### Lists of renderings -/

theorem mapM_cons_option {α β : Type} (f : α → Option β) (a : α) (l : List α) :
    (a :: l).mapM f = (f a).bind (fun y => (l.mapM f).map (fun ys => y :: ys)) := by
  rw [List.mapM_cons]
  cases f a with
  | none => rfl
  | some y => cases l.mapM f <;> rfl

theorem mapM_map_option {α β γ : Type} (f : β → Option γ) (h : α → β) :
    ∀ l : List α, (l.map h).mapM f = l.mapM (fun x => f (h x))
  | [] => rfl
  | a :: l => by
    rw [List.map_cons, mapM_cons_option, mapM_cons_option, mapM_map_option f h l]

theorem mapM_length_option {α β : Type} (f : α → Option β) :
    ∀ (l : List α) (ys : List β), l.mapM f = some ys → ys.length = l.length
  | [], ys, h => by
    have h2 : some ([] : List β) = some ys := h
    cases h2
    rfl
  | a :: l, ys, h => by
    rw [mapM_cons_option] at h
    cases hfa : f a with
    | none => rw [hfa] at h; cases h
    | some y =>
      rw [hfa] at h
      cases hl : l.mapM f with
      | none => rw [hl] at h; cases h
      | some zs =>
        rw [hl] at h
        have e : ys = y :: zs := by simpa using h.symm
        rw [e, List.length_cons, List.length_cons, mapM_length_option f l zs hl]

/-- Rendering by index over `0 .. n-1` is rendering the list of components. -/
theorem mapM_range_eq {α β : Type} (f : α → Option β) :
    ∀ (xs : List α) (g : Nat → Option β),
      (∀ i, i < xs.length → g i = (xs[i]?).bind f) →
      (List.range xs.length).mapM g = xs.mapM f
  | [], _, _ => rfl
  | x :: xs, g, h => by
    have h0 : g 0 = f x := by simpa using h 0 (by simp)
    have hs : ∀ i, i < xs.length → g (i + 1) = (xs[i]?).bind f := by
      intro i hi
      simpa using h (i + 1) (by simp; omega)
    rw [List.length_cons, List.range_succ_eq_map, mapM_cons_option, mapM_cons_option,
      mapM_map_option, h0]
    rw [mapM_range_eq f xs (fun i => g (i + 1)) hs]

theorem mapM_congr_option {α β : Type} (f g : α → Option β) :
    ∀ l : List α, (∀ x ∈ l, f x = g x) → l.mapM f = l.mapM g
  | [], _ => rfl
  | a :: l, h => by
    rw [mapM_cons_option, mapM_cons_option, h a (List.mem_cons_self _ _),
      mapM_congr_option f g l (fun x hx => h x (List.mem_cons_of_mem _ hx))]

theorem mapM_append_option {α β : Type} (f : α → Option β) (l₁ l₂ : List α) :
    (l₁ ++ l₂).mapM f =
      (l₁.mapM f).bind (fun ys => (l₂.mapM f).map (fun zs => ys ++ zs)) := by
  rw [List.mapM_append]
  cases l₁.mapM f with
  | none => rfl
  | some ys => cases l₂.mapM f <;> rfl

theorem appendCommaSeparated_eq (rest : List GoString) : ∀ acc : GoString,
    appendCommaSeparated acc rest = acc ++ (rest.map (fun x => goStr ", " ++ x)).flatten := by
  induction rest with
  | nil => intro acc; simp [appendCommaSeparated]
  | cons x rest ih =>
    intro acc
    have := ih (acc ++ (goStr ", " ++ x))
    simp only [appendCommaSeparated, List.foldl_cons] at this ⊢
    rw [this]
    simp

theorem intercalate_cons_eq (sep x : GoString) (xs : List GoString) :
    sep.intercalate (x :: xs) = x ++ (xs.map (fun y => sep ++ y)).flatten := by
  induction xs generalizing x with
  | nil => simp [List.intercalate]
  | cons y ys ih =>
    have := ih y
    simp only [List.intercalate, List.intersperse_cons₂, List.flatten_cons, List.map_cons] at this ⊢
    rw [this]
    simp

/-- The comma-separated string built by `typeNameForFunc` is the list joined
by `", "`. -/
theorem params_eq_intercalate (names : List GoString) :
    (match names with
      | [] => goStr ""
      | first :: rest => appendCommaSeparated first rest) = (goStr ", ").intercalate names := by
  cases names with
  | nil => decide
  | cons x xs => simp only [appendCommaSeparated_eq, intercalate_cons_eq]

theorem Sprintf_func (p : GoString) :
    Sprintf (goStr "func(%s)") [FmtArg.str p] = goStr "func(" ++ p ++ goStr ")" := by
  have h : Sprintf (goStr "func(%s)") [FmtArg.str p] = goStr "func(" ++ (p ++ goStr ")") := rfl
  rw [h, List.append_assoc]

theorem Sprintf_func_returns (p r : GoString) :
    Sprintf (goStr "func(%s) %s") [FmtArg.str p, FmtArg.str r] =
      goStr "func(" ++ p ++ goStr ") " ++ r := by
  have h : Sprintf (goStr "func(%s) %s") [FmtArg.str p, FmtArg.str r] =
      goStr "func(" ++ (p ++ (goStr ") " ++ (r ++ []))) := rfl
  rw [h, List.append_nil, List.append_assoc, List.append_assoc]

theorem goStr_empty : goStr "" = [] := by decide

theorem goStr_close_space : goStr ") " = goStr ")" ++ goStr " " := by decide

theorem goStr_space_open : goStr " (" = goStr " " ++ goStr "(" := by decide

theorem bind_some_eq_map {α β : Type} (f : α → β) (o : Option α) :
    (o.bind fun a => some (f a)) = o.map f := by
  cases o <;> rfl

theorem paramTypeName_nonvariadic {τ : Type} (R : reflect.Methods τ)
    (recur : τ → Option GoString) (t : τ) (i : Nat) (hv : R.IsVariadic t = some false) :
    paramTypeName R recur t i = (R.In t i).bind recur := by
  simp only [paramTypeName, hv, Option.bind_eq_bind, Option.some_bind, bind, pure]
  rfl

theorem paramTypeName_variadic_init {τ : Type} (R : reflect.Methods τ)
    (recur : τ → Option GoString) (t : τ) (i n : Nat) (hv : R.IsVariadic t = some true)
    (hn : R.NumIn t = some n) (hi : i + 1 ≠ n) :
    paramTypeName R recur t i = (R.In t i).bind recur := by
  have hd : decide ((i : Int) = (n : Int) - 1) = false := by
    apply decide_eq_false; omega
  simp only [paramTypeName, hv, hn, hd, Option.bind_eq_bind, Option.some_bind, Option.map_some',
    bind, pure, if_true]
  rfl

theorem paramTypeName_variadic_last {τ : Type} (R : reflect.Methods τ)
    (recur : τ → Option GoString) (t : τ) (i : Nat) (hv : R.IsVariadic t = some true)
    (hn : R.NumIn t = some (i + 1)) :
    paramTypeName R recur t i =
      (R.In t i).bind (fun p => (R.Elem p).bind (fun e =>
        (recur e).map (fun name => goStr "..." ++ name))) := by
  have hd : decide ((i : Int) = ((i + 1 : Nat) : Int) - 1) = true := by
    apply decide_eq_true; omega
  simp only [paramTypeName, hv, hn, hd, Option.bind_eq_bind, Option.some_bind, Option.map_some',
    bind, pure, if_true, bind_some_eq_map]

/-- The function `typeNameForFunc` in closed form: `"func("`, the parameter
renderings joined by `", "`, `")"`, and the return suffix. -/
theorem typeNameForFunc_eq {τ : Type} (R : reflect.Methods τ) (recur : τ → Option GoString)
    (t : τ) (n m : Nat) (hn : R.NumIn t = some n) (hm : R.NumOut t = some m) :
    typeNameForFunc R recur t =
      ((List.range n).mapM (paramTypeName R recur t)).bind (fun ps =>
        ((List.range m).mapM (fun i => (R.Out t i).bind recur)).map (fun rs =>
          goStr "func(" ++ (goStr ", ").intercalate ps ++ goStr ")" ++ returnsSuffix rs)) := by
  simp only [typeNameForFunc, hn, hm, Option.bind_eq_bind, Option.some_bind, bind, pure,
    params_eq_intercalate]
  cases (List.range n).mapM (paramTypeName R recur t) with
  | none => rfl
  | some ps =>
    simp only [Option.some_bind]
    cases m with
    | zero =>
      simp only [Nat.lt_irrefl, if_false, List.range_zero, List.mapM_nil]
      show some _ = some _
      rw [Sprintf_func]
      simp [returnsSuffix, goStr_empty]
    | succ k =>
      simp only [Nat.zero_lt_succ, if_true]
      cases hrs : (List.range (k + 1)).mapM (fun i => (R.Out t i).bind recur) with
      | none => rfl
      | some rs =>
        have hlen := mapM_length_option _ _ _ hrs
        simp only [List.length_range] at hlen
        match rs, hlen with
        | [r], _ =>
          simp [returnsSuffix, Sprintf_func_returns, appendCommaSeparated, goStr_empty,
            goStr_close_space]
        | r :: r2 :: rest, _ =>
          simp [returnsSuffix, Sprintf_func_returns, appendCommaSeparated_eq,
            intercalate_cons_eq, goStr_empty, goStr_close_space, goStr_space_open]

theorem typeNameWithDepth_func {τ : Type} (R : reflect.Methods τ) (t : τ) (k : Nat)
    (hk : R.Kind t = reflect.Kind.Func) :
    typeNameWithDepth R t (k + 1) = typeNameForFunc R (fun u => typeNameWithDepth R u k) t := by
  simp only [typeNameWithDepth, hk]

/-- C23: for every budget `d ≥ 1` and every non-variadic function type with
parameter types `P1..Pn` (`n ≥ 0`), the rendering is `"func("`, followed by
`typeNameWithDepth(P1, d-1)`, ..., `typeNameWithDepth(Pn, d-1)` joined by
`", "` (empty when `n = 0`), followed by `")"` and by the text for the return
types. -/
theorem typeNameWithDepth_func_params {τ : Type} (R : reflect.Methods τ) (t : τ) (d : Nat)
    (params : List τ) (m : Nat) (hd : 1 ≤ d) (hk : R.Kind t = reflect.Kind.Func)
    (hv : R.IsVariadic t = some false) (hn : R.NumIn t = some params.length)
    (hin : ∀ i, i < params.length → R.In t i = params[i]?)
    (hm : R.NumOut t = some m) :
    typeNameWithDepth R t d =
      (params.mapM (fun p => typeNameWithDepth R p (d - 1))).bind (fun names =>
        ((List.range m).mapM
            (fun i => (R.Out t i).bind (fun u => typeNameWithDepth R u (d - 1)))).map
          (fun rs =>
            goStr "func(" ++ (goStr ", ").intercalate names ++ goStr ")" ++
              returnsSuffix rs)) := by
  obtain ⟨k, rfl⟩ : ∃ k, d = k + 1 := ⟨d - 1, by omega⟩
  rw [Nat.add_sub_cancel, typeNameWithDepth_func R t k hk,
    typeNameForFunc_eq R _ t params.length m hn hm]
  have hps : (List.range params.length).mapM
      (paramTypeName R (fun u => typeNameWithDepth R u k) t) =
      params.mapM (fun p => typeNameWithDepth R p k) := by
    apply mapM_range_eq
    intro i hi
    rw [paramTypeName_nonvariadic R _ t i hv, hin i hi]
  rw [hps]

theorem typeNameWithDepth_func_params_witness :
    1 ≤ 8 ∧ funcTypes.Kind 7 = reflect.Kind.Func ∧ funcTypes.IsVariadic 7 = some false ∧
    funcTypes.NumIn 7 = some [0, 0].length ∧
    (∀ i, i < [0, 0].length → funcTypes.In 7 i = [0, 0][i]?) ∧
    funcTypes.NumOut 7 = some 0 ∧
    typeNameWithDepth funcTypes 7 8 =
      ([0, 0].mapM (fun p => typeNameWithDepth funcTypes p (8 - 1))).bind (fun names =>
        ((List.range 0).mapM
            (fun i => (funcTypes.Out 7 i).bind
              (fun u => typeNameWithDepth funcTypes u (8 - 1)))).map
          (fun rs =>
            goStr "func(" ++ (goStr ", ").intercalate names ++ goStr ")" ++
              returnsSuffix rs)) ∧
    typeNameWithDepth funcTypes 7 8 = some (goStr "func(int, int)") :=
  ⟨by decide, by decide, by decide, by decide, by decide, by decide,
    typeNameWithDepth_func_params funcTypes 7 8 [0, 0] 0 (by decide) (by decide) (by decide)
      (by decide) (by decide) (by decide), by decide⟩

/-- C24: for every budget `d ≥ 1` and every variadic function type with
parameters `init ++ [last]`, only the last parameter is rendered specially, as
`"..."` followed by `typeNameWithDepth(E, d-1)` where `E` is the element type
of `last` (no `"[]"`, no budget level spent on the implicit slice); the
earlier parameters are rendered as for a non-variadic function. -/
theorem typeNameWithDepth_func_variadic {τ : Type} (R : reflect.Methods τ) (t : τ) (d : Nat)
    (init : List τ) (last E : τ) (m : Nat) (hd : 1 ≤ d)
    (hk : R.Kind t = reflect.Kind.Func) (hv : R.IsVariadic t = some true)
    (hn : R.NumIn t = some (init.length + 1))
    (hin : ∀ i, i < init.length → R.In t i = init[i]?)
    (hlast : R.In t init.length = some last) (he : R.Elem last = some E)
    (hm : R.NumOut t = some m) :
    typeNameWithDepth R t d =
      (init.mapM (fun p => typeNameWithDepth R p (d - 1))).bind (fun initNames =>
        (typeNameWithDepth R E (d - 1)).bind (fun elemName =>
          ((List.range m).mapM
              (fun i => (R.Out t i).bind (fun u => typeNameWithDepth R u (d - 1)))).map
            (fun rs =>
              goStr "func(" ++
                (goStr ", ").intercalate (initNames ++ [goStr "..." ++ elemName]) ++
                goStr ")" ++ returnsSuffix rs))) := by
  obtain ⟨k, rfl⟩ : ∃ k, d = k + 1 := ⟨d - 1, by omega⟩
  rw [Nat.add_sub_cancel, typeNameWithDepth_func R t k hk,
    typeNameForFunc_eq R _ t (init.length + 1) m hn hm, List.range_succ, mapM_append_option]
  have hinit : (List.range init.length).mapM
      (paramTypeName R (fun u => typeNameWithDepth R u k) t) =
      init.mapM (fun p => typeNameWithDepth R p k) := by
    apply mapM_range_eq
    intro i hi
    rw [paramTypeName_variadic_init R _ t i _ hv hn (by omega), hin i hi]
  have hl : [init.length].mapM (paramTypeName R (fun u => typeNameWithDepth R u k) t) =
      (typeNameWithDepth R E k).map (fun name => [goStr "..." ++ name]) := by
    rw [mapM_cons_option, paramTypeName_variadic_last R _ t init.length hv hn, hlast]
    simp only [Option.some_bind, he, List.mapM_nil]
    cases typeNameWithDepth R E k <;> rfl
  rw [hinit, hl]
  cases init.mapM (fun p => typeNameWithDepth R p k) with
  | none => rfl
  | some initNames => cases typeNameWithDepth R E k <;> rfl

theorem typeNameWithDepth_func_variadic_witness :
    1 ≤ 8 ∧ funcTypes.Kind 4 = reflect.Kind.Func ∧ funcTypes.IsVariadic 4 = some true ∧
    funcTypes.NumIn 4 = some ([0].length + 1) ∧
    (∀ i, i < [0].length → funcTypes.In 4 i = [0][i]?) ∧
    funcTypes.In 4 [0].length = some 1 ∧ funcTypes.Elem 1 = some 0 ∧
    funcTypes.NumOut 4 = some 0 ∧
    typeNameWithDepth funcTypes 4 8 =
      ([0].mapM (fun p => typeNameWithDepth funcTypes p (8 - 1))).bind (fun initNames =>
        (typeNameWithDepth funcTypes 0 (8 - 1)).bind (fun elemName =>
          ((List.range 0).mapM
              (fun i => (funcTypes.Out 4 i).bind
                (fun u => typeNameWithDepth funcTypes u (8 - 1)))).map
            (fun rs =>
              goStr "func(" ++
                (goStr ", ").intercalate (initNames ++ [goStr "..." ++ elemName]) ++
                goStr ")" ++ returnsSuffix rs))) ∧
    typeNameWithDepth funcTypes 4 8 = some (goStr "func(int, ...int)") ∧
    typeNameWithDepth funcTypes 4 1 = some (goStr "func(<...>, ...<...>)") :=
  ⟨by decide, by decide, by decide, by decide, by decide, by decide, by decide, by decide,
    typeNameWithDepth_func_variadic funcTypes 4 8 [0] 1 0 0 (by decide) (by decide)
      (by decide) (by decide) (by decide) (by decide) (by decide) (by decide),
    by decide, by decide⟩

/-- C25: for every budget `d ≥ 1` and every function type with rendered
parameter list `P` and return types `R1..Rm`: for `m = 0` the result is
`"func(" + P + ")"`; for `m = 1` it is `"func(" + P + ") "` followed by
`typeNameWithDepth(R1, d-1)`; for `m ≥ 2` it is `"func(" + P + ") ("`, the
names of `R1..Rm` at budget `d-1` joined by `", "`, and `")"`. -/
theorem typeNameWithDepth_func_returns {τ : Type} (R : reflect.Methods τ) (t : τ) (d : Nat)
    (n : Nat) (rets : List τ) (hd : 1 ≤ d) (hk : R.Kind t = reflect.Kind.Func)
    (hn : R.NumIn t = some n) (hm : R.NumOut t = some rets.length)
    (hres : ∀ i, i < rets.length → R.Out t i = rets[i]?) :
    (rets.length = 0 →
      typeNameWithDepth R t d =
        ((List.range n).mapM
            (paramTypeName R (fun u => typeNameWithDepth R u (d - 1)) t)).map
          (fun paramTypes =>
            goStr "func(" ++ (goStr ", ").intercalate paramTypes ++ goStr ")")) ∧
    (∀ r1, rets = [r1] →
      typeNameWithDepth R t d =
        ((List.range n).mapM
            (paramTypeName R (fun u => typeNameWithDepth R u (d - 1)) t)).bind
          (fun paramTypes => (typeNameWithDepth R r1 (d - 1)).map (fun r =>
            goStr "func(" ++ (goStr ", ").intercalate paramTypes ++ goStr ") " ++ r))) ∧
    (2 ≤ rets.length →
      typeNameWithDepth R t d =
        ((List.range n).mapM
            (paramTypeName R (fun u => typeNameWithDepth R u (d - 1)) t)).bind
          (fun paramTypes =>
            (rets.mapM (fun r => typeNameWithDepth R r (d - 1))).map (fun retNames =>
              goStr "func(" ++ (goStr ", ").intercalate paramTypes ++ goStr ") (" ++
                (goStr ", ").intercalate retNames ++ goStr ")"))) := by
  obtain ⟨k, rfl⟩ : ∃ k, d = k + 1 := ⟨d - 1, by omega⟩
  rw [Nat.add_sub_cancel, typeNameWithDepth_func R t k hk,
    typeNameForFunc_eq R _ t n rets.length hn hm]
  have hrets : (List.range rets.length).mapM
      (fun i => (R.Out t i).bind (fun u => typeNameWithDepth R u k)) =
      rets.mapM (fun r => typeNameWithDepth R r k) := by
    apply mapM_range_eq
    intro i hi
    rw [hres i hi]
  rw [hrets]
  refine ⟨?_, ?_, ?_⟩
  · intro h0
    have e : rets = [] := List.length_eq_zero.1 h0
    subst e
    cases (List.range n).mapM (paramTypeName R (fun u => typeNameWithDepth R u k) t) with
    | none => rfl
    | some ps =>
      have e : ([] : List τ).mapM (fun r => typeNameWithDepth R r k) = some [] := rfl
      rw [e]
      simp [returnsSuffix, goStr_empty]
  · intro r1 e
    subst e
    cases (List.range n).mapM (paramTypeName R (fun u => typeNameWithDepth R u k) t) with
    | none => rfl
    | some ps =>
      have e : ([] : List τ).mapM (fun r => typeNameWithDepth R r k) = some [] := rfl
      rw [mapM_cons_option, e]
      cases typeNameWithDepth R r1 k with
      | none => rfl
      | some r => simp [returnsSuffix, goStr_close_space]
  · intro h2
    cases (List.range n).mapM (paramTypeName R (fun u => typeNameWithDepth R u k) t) with
    | none => rfl
    | some ps =>
      cases hrs : rets.mapM (fun r => typeNameWithDepth R r k) with
      | none => rfl
      | some rs =>
        have hlen := mapM_length_option _ _ _ hrs
        match rs, hlen with
        | [], hl => simp at hl; omega
        | [_], hl => simp at hl; omega
        | r :: r2 :: rest, _ =>
          have e : goStr ") (" = goStr ")" ++ goStr " (" := by decide
          simp [returnsSuffix, e]

theorem typeNameWithDepth_func_returns_witness :
    (1 ≤ 8 ∧ funcTypes.Kind 5 = reflect.Kind.Func ∧ funcTypes.NumIn 5 = some 2 ∧
      funcTypes.NumOut 5 = some [0, 2].length ∧
      (∀ i, i < [0, 2].length → funcTypes.Out 5 i = [0, 2][i]?) ∧ 2 ≤ [0, 2].length ∧
      typeNameWithDepth funcTypes 5 8 =
        ((List.range 2).mapM
            (paramTypeName funcTypes (fun u => typeNameWithDepth funcTypes u (8 - 1)) 5)).bind
          (fun paramTypes =>
            ([0, 2].mapM (fun r => typeNameWithDepth funcTypes r (8 - 1))).map
              (fun retNames =>
                goStr "func(" ++ (goStr ", ").intercalate paramTypes ++ goStr ") (" ++
                  (goStr ", ").intercalate retNames ++ goStr ")")) ∧
      typeNameWithDepth funcTypes 5 8 = some (goStr "func(int, int) (int, error)")) ∧
    (1 ≤ 8 ∧ funcTypes.Kind 6 = reflect.Kind.Func ∧ funcTypes.NumIn 6 = some 0 ∧
      funcTypes.NumOut 6 = some [0].length ∧
      (∀ i, i < [0].length → funcTypes.Out 6 i = [0][i]?) ∧
      typeNameWithDepth funcTypes 6 8 =
        ((List.range 0).mapM
            (paramTypeName funcTypes (fun u => typeNameWithDepth funcTypes u (8 - 1)) 6)).bind
          (fun paramTypes => (typeNameWithDepth funcTypes 0 (8 - 1)).map (fun r =>
            goStr "func(" ++ (goStr ", ").intercalate paramTypes ++ goStr ") " ++ r)) ∧
      typeNameWithDepth funcTypes 6 8 = some (goStr "func() int")) ∧
    (1 ≤ 8 ∧ funcTypes.Kind 7 = reflect.Kind.Func ∧ funcTypes.NumIn 7 = some 2 ∧
      funcTypes.NumOut 7 = some ([] : List Nat).length ∧
      (∀ i, i < ([] : List Nat).length → funcTypes.Out 7 i = ([] : List Nat)[i]?) ∧
      typeNameWithDepth funcTypes 7 8 =
        ((List.range 2).mapM
            (paramTypeName funcTypes (fun u => typeNameWithDepth funcTypes u (8 - 1)) 7)).map
          (fun paramTypes =>
            goStr "func(" ++ (goStr ", ").intercalate paramTypes ++ goStr ")") ∧
      typeNameWithDepth funcTypes 7 8 = some (goStr "func(int, int)")) :=
  ⟨⟨by decide, by decide, by decide, by decide, by decide, by decide,
      (typeNameWithDepth_func_returns funcTypes 5 8 2 [0, 2] (by decide) (by decide)
        (by decide) (by decide) (by decide)).2.2 (by decide), by decide⟩,
    ⟨by decide, by decide, by decide, by decide, by decide,
      (typeNameWithDepth_func_returns funcTypes 6 8 0 [0] (by decide) (by decide)
        (by decide) (by decide) (by decide)).2.1 0 rfl, by decide⟩,
    ⟨by decide, by decide, by decide, by decide, by decide,
      (typeNameWithDepth_func_returns funcTypes 7 8 2 [] (by decide) (by decide)
        (by decide) (by decide) (by decide)).1 rfl, by decide⟩⟩

theorem mapM_isSome_option {α β : Type} (f : α → Option β) :
    ∀ l : List α, (∀ x ∈ l, ∃ y, f x = some y) → ∃ ys, l.mapM f = some ys
  | [], _ => ⟨[], rfl⟩
  | a :: l, h => by
    obtain ⟨y, hy⟩ := h a (List.mem_cons_self _ _)
    obtain ⟨ys, hys⟩ := mapM_isSome_option f l (fun x hx => h x (List.mem_cons_of_mem _ hx))
    exact ⟨y :: ys, by rw [mapM_cons_option, hy, hys]; rfl⟩

/-- On well-formed descriptors every parameter of a function type renders,
provided the recursive call always returns. -/
theorem paramTypeName_isSome {τ : Type} (R : reflect.Methods τ) (hwf : reflect.WellFormed R)
    (recur : τ → Option GoString) (hrec : ∀ u, ∃ s, recur u = some s) (t : τ) (n i : Nat)
    (hk : R.Kind t = reflect.Kind.Func) (hn : R.NumIn t = some n) (hi : i < n) :
    ∃ s, paramTypeName R recur t i = some s := by
  obtain ⟨p, hp⟩ := hwf.func_in t n i hk hn hi
  obtain ⟨v, hv⟩ := hwf.func_variadic t hk
  cases v with
  | false =>
    rw [paramTypeName_nonvariadic R recur t i hv, hp]
    exact hrec p
  | true =>
    by_cases hlast : i + 1 = n
    · subst hlast
      have hs : R.Kind p = reflect.Kind.Slice := hwf.variadic_last t i p hk hv hn hp
      obtain ⟨e, he⟩ := hwf.elem p (Or.inr (Or.inl hs))
      obtain ⟨s, hs2⟩ := hrec e
      rw [paramTypeName_variadic_last R recur t i hv hn, hp]
      exact ⟨goStr "..." ++ s, by simp only [Option.some_bind, he, hs2, Option.map_some']⟩
    · rw [paramTypeName_variadic_init R recur t i n hv hn hlast, hp]
      exact hrec p

/-- On well-formed descriptors `typeNameWithDepth` returns for every budget. -/
theorem typeNameWithDepth_isSome {τ : Type} (R : reflect.Methods τ)
    (hwf : reflect.WellFormed R) : ∀ (d : Nat) (t : τ), ∃ s, typeNameWithDepth R t d = some s
  | 0, _ => ⟨goStr "<...>", rfl⟩
  | d + 1, t => by
    have ih := typeNameWithDepth_isSome R hwf d
    cases hk : R.Kind t
    case Array =>
      obtain ⟨n, hn⟩ := hwf.len_array t hk
      obtain ⟨e, he⟩ := hwf.elem t (Or.inl hk)
      obtain ⟨s, hs⟩ := ih e
      refine Option.isSome_iff_exists.1 ?_
      simp only [typeNameWithDepth, hk, hn, he, hs, Option.bind_eq_bind,
        Option.some_bind, Option.pure_def, bind, pure]
      rfl
    case Slice =>
      obtain ⟨e, he⟩ := hwf.elem t (Or.inr (Or.inl hk))
      obtain ⟨s, hs⟩ := ih e
      refine Option.isSome_iff_exists.1 ?_
      simp only [typeNameWithDepth, hk, he, hs, Option.bind_eq_bind,
        Option.some_bind, Option.pure_def, bind, pure]
      rfl
    case Map =>
      obtain ⟨key, hkey⟩ := hwf.key_map t hk
      obtain ⟨e, he⟩ := hwf.elem t (Or.inr (Or.inr (Or.inl hk)))
      obtain ⟨s, hs⟩ := ih e
      obtain ⟨s2, hs2⟩ := ih key
      refine Option.isSome_iff_exists.1 ?_
      simp only [typeNameWithDepth, hk, hkey, he, hs, hs2, Option.bind_eq_bind,
        Option.some_bind, Option.pure_def, bind, pure]
      rfl
    case Chan =>
      obtain ⟨dir, hdir⟩ := hwf.dir_chan t hk
      obtain ⟨e, he⟩ := hwf.elem t (Or.inr (Or.inr (Or.inr (Or.inl hk))))
      obtain ⟨s, hs⟩ := ih e
      refine Option.isSome_iff_exists.1 ?_
      simp only [typeNameWithDepth, hk, hdir, he, hs, Option.bind_eq_bind,
        Option.some_bind, Option.pure_def, bind, pure]
      rfl
    case Ptr =>
      obtain ⟨e, he⟩ := hwf.elem t (Or.inr (Or.inr (Or.inr (Or.inr hk))))
      obtain ⟨s, hs⟩ := ih e
      refine Option.isSome_iff_exists.1 ?_
      simp only [typeNameWithDepth, hk, he, hs, Option.bind_eq_bind,
        Option.some_bind, Option.pure_def, bind, pure]
      rfl
    case Func =>
      obtain ⟨n, hn⟩ := hwf.func_numIn t hk
      obtain ⟨m, hm⟩ := hwf.func_numOut t hk
      obtain ⟨ps, hps⟩ := mapM_isSome_option
        (paramTypeName R (fun u => typeNameWithDepth R u d) t) (List.range n)
        (fun i hi => paramTypeName_isSome R hwf _ ih t n i hk hn (List.mem_range.1 hi))
      obtain ⟨rs, hrs⟩ := mapM_isSome_option
        (fun i => (R.Out t i).bind (fun u => typeNameWithDepth R u d)) (List.range m)
        (fun i hi => by
          obtain ⟨p, hp⟩ := hwf.func_out t m i hk hm (List.mem_range.1 hi)
          obtain ⟨s, hs⟩ := ih p
          exact ⟨s, by simp only [hp, Option.some_bind, hs]⟩)
      exact ⟨_, by rw [typeNameWithDepth_func R t d hk, typeNameForFunc_eq R _ t n m hn hm,
        hps, hrs]; rfl⟩
    case Struct =>
      by_cases hp : R.PkgPath t = goStr ""
      · exact ⟨R.String t, by simp only [typeNameWithDepth, hk, if_pos hp]⟩
      · exact ⟨Sprintf (goStr "%s.%s") [FmtArg.str (R.PkgPath t), FmtArg.str (R.Name t)], by
          simp only [typeNameWithDepth, hk, if_neg hp]⟩
    case Interface =>
      by_cases hp : R.PkgPath t = goStr ""
      · exact ⟨R.String t, by simp only [typeNameWithDepth, hk, if_pos hp]⟩
      · exact ⟨Sprintf (goStr "%s.%s") [FmtArg.str (R.PkgPath t), FmtArg.str (R.Name t)], by
          simp only [typeNameWithDepth, hk, if_neg hp]⟩
    all_goals exact ⟨R.String t, by simp only [typeNameWithDepth, hk]⟩

theorem funcTypes_default (k : Nat) : funcTypes.Kind (k + 9) = reflect.Kind.Invalid := rfl

theorem funcTypes_kind_lt {t : Nat} {K : reflect.Kind} (h : funcTypes.Kind t = K)
    (hK : K ≠ reflect.Kind.Invalid) : t < 9 := by
  by_contra hge
  obtain ⟨k, rfl⟩ : ∃ k, t = k + 9 := ⟨t - 9, by omega⟩
  rw [funcTypes_default k] at h
  exact hK h.symm

theorem funcTypes_wellFormed : reflect.WellFormed funcTypes where
  len_array := fun t h => by
    have hb : ∀ t, t < 9 → funcTypes.Kind t = reflect.Kind.Array →
        (funcTypes.Len t).isSome = true := by decide
    exact Option.isSome_iff_exists.1 (hb t (funcTypes_kind_lt h (by decide)) h)
  elem := fun t h => by
    have hb : ∀ t, t < 9 → (funcTypes.Kind t = reflect.Kind.Array ∨
        funcTypes.Kind t = reflect.Kind.Slice ∨ funcTypes.Kind t = reflect.Kind.Map ∨
        funcTypes.Kind t = reflect.Kind.Chan ∨ funcTypes.Kind t = reflect.Kind.Ptr) →
        (funcTypes.Elem t).isSome = true := by decide
    have ht : t < 9 := by
      rcases h with h | h | h | h | h <;> exact funcTypes_kind_lt h (by decide)
    exact Option.isSome_iff_exists.1 (hb t ht h)
  key_map := fun t h => by
    have hb : ∀ t, t < 9 → funcTypes.Kind t = reflect.Kind.Map →
        (funcTypes.Key t).isSome = true := by decide
    exact Option.isSome_iff_exists.1 (hb t (funcTypes_kind_lt h (by decide)) h)
  dir_chan := fun t h => by
    have hb : ∀ t, t < 9 → funcTypes.Kind t = reflect.Kind.Chan →
        (funcTypes.ChanDir t).isSome = true := by decide
    exact Option.isSome_iff_exists.1 (hb t (funcTypes_kind_lt h (by decide)) h)
  func_variadic := fun t h => by
    have hb : ∀ t, t < 9 → funcTypes.Kind t = reflect.Kind.Func →
        (funcTypes.IsVariadic t).isSome = true := by decide
    exact Option.isSome_iff_exists.1 (hb t (funcTypes_kind_lt h (by decide)) h)
  func_numIn := fun t h => by
    have hb : ∀ t, t < 9 → funcTypes.Kind t = reflect.Kind.Func →
        (funcTypes.NumIn t).isSome = true := by decide
    exact Option.isSome_iff_exists.1 (hb t (funcTypes_kind_lt h (by decide)) h)
  func_numOut := fun t h => by
    have hb : ∀ t, t < 9 → funcTypes.Kind t = reflect.Kind.Func →
        (funcTypes.NumOut t).isSome = true := by decide
    exact Option.isSome_iff_exists.1 (hb t (funcTypes_kind_lt h (by decide)) h)
  func_in := fun t n i h hn hi => by
    have hb : ∀ t, t < 9 → ∀ i, i < (funcTypes.NumIn t).getD 0 →
        (funcTypes.In t i).isSome = true := by decide
    have e : (funcTypes.NumIn t).getD 0 = n := by rw [hn]; rfl
    exact Option.isSome_iff_exists.1 (hb t (funcTypes_kind_lt h (by decide)) i (by omega))
  func_out := fun t n i h hn hi => by
    have hb : ∀ t, t < 9 → ∀ i, i < (funcTypes.NumOut t).getD 0 →
        (funcTypes.Out t i).isSome = true := by decide
    have e : (funcTypes.NumOut t).getD 0 = n := by rw [hn]; rfl
    exact Option.isSome_iff_exists.1 (hb t (funcTypes_kind_lt h (by decide)) i (by omega))
  variadic_last := fun t n p h hv hn hp => by
    have hb : ∀ t, t < 9 → funcTypes.IsVariadic t = some true →
        ∀ i, i < (funcTypes.NumIn t).getD 0 → i + 1 = (funcTypes.NumIn t).getD 0 →
        (funcTypes.In t i).map funcTypes.Kind = some reflect.Kind.Slice := by decide
    have e : (funcTypes.NumIn t).getD 0 = n + 1 := by rw [hn]; rfl
    have := hb t (funcTypes_kind_lt h (by decide)) hv n (by omega) (by omega)
    rw [hp] at this
    exact Option.some.inj this

/-- C26: `TypeName` never fails.  On descriptors that satisfy the descriptor
invariants every kind reaches a defined rendering: `TypeName`,
`typeNameWithDepth` at every budget and `typeNameForFunc` (whose accesses
`paramTypes[0]` and `returnTypes[0]` are in range) all return a string. -/
theorem TypeName_never_fails {τ : Type} (R : reflect.Methods τ)
    (hwf : reflect.WellFormed R) :
    (∀ t : Option τ, ∃ s, TypeName R t = some s) ∧
    (∀ (t : τ) (d : Nat), ∃ s, typeNameWithDepth R t d = some s) ∧
    (∀ (t : τ) (d : Nat), R.Kind t = reflect.Kind.Func →
      ∃ s, typeNameForFunc R (fun u => typeNameWithDepth R u d) t = some s) := by
  refine ⟨?_, fun t d => typeNameWithDepth_isSome R hwf d t, ?_⟩
  · intro t
    cases t with
    | none => exact ⟨goStr "<nil>", rfl⟩
    | some t => exact typeNameWithDepth_isSome R hwf maxTypeDepth t
  · intro t d hk
    rw [← typeNameWithDepth_func R t d hk]
    exact typeNameWithDepth_isSome R hwf (d + 1) t

theorem TypeName_never_fails_witness :
    (∀ t : Option Nat, ∃ s, TypeName funcTypes t = some s) ∧
    (∀ (t : Nat) (d : Nat), ∃ s, typeNameWithDepth funcTypes t d = some s) ∧
    (∀ (t : Nat) (d : Nat), funcTypes.Kind t = reflect.Kind.Func →
      ∃ s, typeNameForFunc funcTypes (fun u => typeNameWithDepth funcTypes u d) t = some s) :=
  TypeName_never_fails funcTypes funcTypes_wellFormed

/-! ## Properties of `SliceToSet` -/

theorem mapLookup_iff {T : Type} (C : Comparable T) (m : List T) (v : T) :
    mapLookup C m v = true ↔ ∃ k ∈ m, C.eq k v = true := by
  simp only [mapLookup, List.any_eq_true]

theorem mapLookup_eq_false_iff {T : Type} (C : Comparable T) (m : List T) (v : T) :
    mapLookup C m v = false ↔ ∀ k ∈ m, C.eq k v = false := by
  rw [← Bool.not_eq_true, mapLookup_iff]
  constructor
  · intro h k hk
    cases hkv : C.eq k v with
    | false => rfl
    | true => exact absurd ⟨k, hk, hkv⟩ h
  · rintro h ⟨k, hk, hkv⟩
    rw [h k hk] at hkv
    cases hkv

theorem mapLookup_append {T : Type} (C : Comparable T) (m₁ m₂ : List T) (v : T) :
    mapLookup C (m₁ ++ m₂) v = (mapLookup C m₁ v || mapLookup C m₂ v) := by
  simp only [mapLookup, List.any_append]

theorem mapLookup_singleton {T : Type} (C : Comparable T) (x v : T) :
    mapLookup C [x] v = C.eq x v := by
  simp only [mapLookup, List.any_cons, List.any_nil, Bool.or_false]

theorem mapAssign_of_absent {T : Type} (C : Comparable T) (m : List T) (v : T)
    (h : mapLookup C m v = false) : mapAssign C m v = m ++ [v] := by
  simp only [mapAssign, h, Bool.false_eq_true, if_false]

theorem mapAssign_of_present {T : Type} (C : Comparable T) (m : List T) (v : T)
    (h : mapLookup C m v = true) :
    mapAssign C m v = m.map (fun k => if C.eq k v = true then v else k) := by
  simp only [mapAssign, h, if_true]

/-- A lookup after an assignment with key `x` succeeds exactly when it
succeeded before or looks for a value equal to `x`. -/
theorem mapLookup_assign {T : Type} (C : Comparable T) (m : List T) (x v : T) :
    mapLookup C (mapAssign C m x) v = (mapLookup C m v || C.eq x v) := by
  cases hx : mapLookup C m x with
  | false => rw [mapAssign_of_absent C m x hx, mapLookup_append, mapLookup_singleton]
  | true =>
    rw [mapAssign_of_present C m x hx, Bool.eq_iff_iff]
    simp only [Bool.or_eq_true, mapLookup_iff, List.mem_map]
    constructor
    · rintro ⟨k', ⟨k, hk, rfl⟩, hv⟩
      by_cases hkx : C.eq k x = true
      · rw [if_pos hkx] at hv
        exact Or.inr hv
      · rw [if_neg hkx] at hv
        exact Or.inl ⟨k, hk, hv⟩
    · rintro (⟨k, hk, hv⟩ | hv)
      · by_cases hkx : C.eq k x = true
        · exact ⟨x, ⟨k, hk, if_pos hkx⟩, C.eq_trans x k v (C.eq_symm k x hkx) hv⟩
        · exact ⟨k, ⟨k, hk, if_neg hkx⟩, hv⟩
      · obtain ⟨k0, hk0, hk0x⟩ := (mapLookup_iff C m x).1 hx
        exact ⟨x, ⟨k0, hk0, if_pos hk0x⟩, hv⟩

theorem mapAssign_length {T : Type} (C : Comparable T) (m : List T) (x : T) :
    (mapAssign C m x).length = m.length + if mapLookup C m x = true then 0 else 1 := by
  cases hx : mapLookup C m x with
  | false =>
    rw [mapAssign_of_absent C m x hx, List.length_append]
    rfl
  | true =>
    rw [mapAssign_of_present C m x hx, List.length_map]
    rfl

theorem mapAssign_mem {T : Type} (C : Comparable T) (m : List T) (x k : T)
    (hk : k ∈ mapAssign C m x) : k ∈ m ∨ k = x := by
  cases hx : mapLookup C m x with
  | false =>
    rw [mapAssign_of_absent C m x hx, List.mem_append, List.mem_singleton] at hk
    exact hk
  | true =>
    rw [mapAssign_of_present C m x hx, List.mem_map] at hk
    obtain ⟨a, ha, e⟩ := hk
    by_cases hax : C.eq a x = true
    · rw [if_pos hax] at e
      exact Or.inr e.symm
    · rw [if_neg hax] at e
      exact Or.inl (e ▸ ha)

theorem isRepresented_assign {T : Type} (C : Comparable T) (m : List T) (x y : T)
    (h : IsRepresented C m y) : IsRepresented C (mapAssign C m x) y := by
  rcases h with h | h
  · cases hx : mapLookup C m x with
    | false =>
      left
      rw [mapAssign_of_absent C m x hx]
      exact List.mem_append_left _ h
    | true =>
      by_cases hyx : C.eq y x = true
      · right
        rw [mapLookup_assign, C.eq_symm y x hyx, Bool.or_true]
      · left
        rw [mapAssign_of_present C m x hx, List.mem_map]
        exact ⟨y, h, if_neg hyx⟩
  · right
    rw [mapLookup_assign, h, Bool.true_or]

theorem isRepresented_assign_self {T : Type} (C : Comparable T) (m : List T) (x : T) :
    x ∈ mapAssign C m x := by
  cases hx : mapLookup C m x with
  | false =>
    rw [mapAssign_of_absent C m x hx]
    exact List.mem_append_right _ (List.mem_singleton_self x)
  | true =>
    obtain ⟨k0, hk0, hk0x⟩ := (mapLookup_iff C m x).1 hx
    rw [mapAssign_of_present C m x hx, List.mem_map]
    exact ⟨k0, hk0, if_pos hk0x⟩

theorem mapAssign_pairwise {T : Type} (C : Comparable T) (m : List T) (x : T)
    (hp : m.Pairwise (fun a b => C.eq a b = false)) :
    (mapAssign C m x).Pairwise (fun a b => C.eq a b = false) := by
  cases hx : mapLookup C m x with
  | false =>
    rw [mapAssign_of_absent C m x hx, List.pairwise_append]
    refine ⟨hp, List.pairwise_singleton _ _, ?_⟩
    intro a ha b hb
    rw [List.mem_singleton] at hb
    rw [hb]
    exact (mapLookup_eq_false_iff C m x).1 hx a ha
  | true =>
    rw [mapAssign_of_present C m x hx, List.pairwise_map]
    refine hp.imp ?_
    intro a b hab
    by_cases hax : C.eq a x = true
    · by_cases hbx : C.eq b x = true
      · rw [C.eq_trans a x b hax (C.eq_symm b x hbx)] at hab
        cases hab
      · rw [if_pos hax, if_neg hbx]
        cases hxb : C.eq x b with
        | false => rfl
        | true => exact absurd (C.eq_symm x b hxb) hbx
    · by_cases hbx : C.eq b x = true
      · rw [if_neg hax, if_pos hbx]
        exact Bool.eq_false_iff.2 hax
      · rw [if_neg hax, if_neg hbx]
        exact hab

/-- Without strictness, on elements that can all be keys, the loop assigns
every element in turn and returns the map. -/
theorem sliceToSetLoop_lenient {T : Type} (C : Comparable T) :
    ∀ (s m : List T), (∀ v ∈ s, C.hashable v = true) →
      sliceToSetLoop C false s m = some (some (s.foldl (mapAssign C) m), none)
  | [], _, _ => rfl
  | v :: rest, m, h => by
    have hv : C.hashable v = true := h v (List.mem_cons_self _ _)
    simp only [sliceToSetLoop, hv, if_true, Bool.and_false, Bool.false_eq_true, if_false,
      List.foldl_cons]
    exact sliceToSetLoop_lenient C rest _ (fun x hx => h x (List.mem_cons_of_mem _ hx))

theorem mapLookup_foldl {T : Type} (C : Comparable T) :
    ∀ (s m : List T) (v : T),
      mapLookup C (s.foldl (mapAssign C) m) v = mapLookup C (m ++ s) v
  | [], m, v => by rw [List.foldl_nil, List.append_nil]
  | x :: rest, m, v => by
    rw [List.foldl_cons, mapLookup_foldl C rest, mapLookup_append, mapLookup_assign,
      mapLookup_append, ← List.singleton_append, mapLookup_append, mapLookup_singleton,
      Bool.or_assoc]

theorem length_foldl {T : Type} (C : Comparable T) :
    ∀ (s m seen : List T), (∀ v, mapLookup C m v = mapLookup C seen v) →
      (s.foldl (mapAssign C) m).length = m.length + countFirstOccurrences C seen s
  | [], _, _, _ => rfl
  | x :: rest, m, seen, h => by
    have ih := length_foldl C rest (mapAssign C m x) (seen ++ [x]) (fun v => by
      rw [mapLookup_assign, mapLookup_append, mapLookup_singleton, h v])
    rw [List.foldl_cons, ih, mapAssign_length, countFirstOccurrences, h x]
    cases mapLookup C seen x
    · simp only [Bool.false_eq_true, if_false]
      omega
    · simp only [if_true]
      omega

theorem mem_foldl {T : Type} (C : Comparable T) :
    ∀ (s m : List T) (k : T), k ∈ s.foldl (mapAssign C) m → k ∈ m ∨ k ∈ s
  | [], _, _, hk => Or.inl hk
  | x :: rest, m, k, hk => by
    rw [List.foldl_cons] at hk
    rcases mem_foldl C rest _ k hk with h | h
    · rcases mapAssign_mem C m x k h with h2 | h2
      · exact Or.inl h2
      · exact Or.inr (h2 ▸ List.mem_cons_self _ _)
    · exact Or.inr (List.mem_cons_of_mem _ h)

theorem isRepresented_foldl {T : Type} (C : Comparable T) :
    ∀ (s m : List T) (y : T), IsRepresented C m y ∨ y ∈ s →
      IsRepresented C (s.foldl (mapAssign C) m) y
  | [], _, _, h => by
    rcases h with h | h
    · exact h
    · cases h
  | x :: rest, m, y, h => by
    rw [List.foldl_cons]
    apply isRepresented_foldl C rest
    rcases h with h | h
    · exact Or.inl (isRepresented_assign C m x y h)
    · rcases List.mem_cons.1 h with e | e
      · exact Or.inl (Or.inl (e ▸ isRepresented_assign_self C m x))
      · exact Or.inr e

theorem pairwise_foldl {T : Type} (C : Comparable T) :
    ∀ (s m : List T), m.Pairwise (fun a b => C.eq a b = false) →
      (s.foldl (mapAssign C) m).Pairwise (fun a b => C.eq a b = false)
  | [], _, h => h
  | x :: rest, m, h => by
    rw [List.foldl_cons]
    exact pairwise_foldl C rest _ (mapAssign_pairwise C m x h)

theorem SliceToSet_lenient_eq {T : Type} (C : Comparable T) (s : List T)
    (h : ∀ v ∈ s, C.hashable v = true) :
    SliceToSet C s false = some (some (s.foldl (mapAssign C) []), none) :=
  sliceToSetLoop_lenient C s [] h

/-- While no lookup succeeds the loop, strict or not, appends the elements. -/
theorem sliceToSetLoop_fresh {T : Type} (C : Comparable T) (strict : Bool) :
    ∀ (s m : List T), (∀ v ∈ s, C.hashable v = true) →
      (∀ v ∈ s, mapLookup C m v = false) → s.Pairwise (fun a b => C.eq a b = false) →
      sliceToSetLoop C strict s m = some (some (m ++ s), none)
  | [], m, _, _, _ => by rw [List.append_nil]; rfl
  | v :: rest, m, h, hm, hp => by
    have hv : C.hashable v = true := h v (List.mem_cons_self _ _)
    have hmv : mapLookup C m v = false := hm v (List.mem_cons_self _ _)
    have hp2 := List.pairwise_cons.1 hp
    have ih := sliceToSetLoop_fresh C strict rest (m ++ [v])
      (fun x hx => h x (List.mem_cons_of_mem _ hx))
      (fun x hx => by
        rw [mapLookup_append, mapLookup_singleton, hm x (List.mem_cons_of_mem _ hx),
          hp2.1 x hx]
        rfl)
      hp2.2
    simp only [sliceToSetLoop, hv, if_true, hmv, Bool.false_and, Bool.false_eq_true, if_false,
      mapAssign_of_absent C m v hmv, ih, List.append_assoc, List.singleton_append]

/-- The strict loop stops with the error at the first element that is equal
to a key or to an element before it. -/
theorem sliceToSetLoop_strict_dup {T : Type} (C : Comparable T) (v : T) (post : List T)
    (hv : C.hashable v = true) :
    ∀ (pre m : List T), (∀ x ∈ pre, C.hashable x = true) →
      (∀ x ∈ pre, mapLookup C m x = false) → pre.Pairwise (fun a b => C.eq a b = false) →
      (mapLookup C m v = true ∨ ∃ x ∈ pre, C.eq x v = true) →
      sliceToSetLoop C true (pre ++ v :: post) m =
        some (none, some { message := goStr "duplicate element: " ++ C.render v })
  | [], m, _, _, _, hin => by
    have hmv : mapLookup C m v = true := by
      rcases hin with e | ⟨x, hx, _⟩
      · exact e
      · cases hx
    simp only [List.nil_append, sliceToSetLoop, hv, if_true, hmv, Bool.and_self]
  | x :: pre, m, h, hm, hp, hin => by
    have hx : C.hashable x = true := h x (List.mem_cons_self _ _)
    have hmx : mapLookup C m x = false := hm x (List.mem_cons_self _ _)
    have hp2 := List.pairwise_cons.1 hp
    have ih := sliceToSetLoop_strict_dup C v post hv pre (m ++ [x])
      (fun y hy => h y (List.mem_cons_of_mem _ hy))
      (fun y hy => by
        rw [mapLookup_append, mapLookup_singleton, hm y (List.mem_cons_of_mem _ hy),
          hp2.1 y hy]
        rfl)
      hp2.2
      (by
        rw [mapLookup_append, mapLookup_singleton, Bool.or_eq_true]
        rcases hin with e | ⟨y, hy, e⟩
        · exact Or.inl (Or.inl e)
        · rcases List.mem_cons.1 hy with e2 | e2
          · exact Or.inl (Or.inr (e2 ▸ e))
          · exact Or.inr ⟨y, e2, e⟩)
    rw [List.cons_append]
    simp only [sliceToSetLoop, hx, if_true, hmx, Bool.false_and, Bool.false_eq_true, if_false,
      mapAssign_of_absent C m x hmx]
    exact ih

/-- The strict loop reports an error as soon as two elements of the slice are
equal or an element is equal to a key. -/
theorem sliceToSetLoop_strict_error {T : Type} (C : Comparable T) :
    ∀ (s m : List T), (∀ v ∈ s, C.hashable v = true) →
      (¬ s.Pairwise (fun a b => C.eq a b = false) ∨ ∃ x ∈ s, mapLookup C m x = true) →
      ∃ e, sliceToSetLoop C true s m = some (none, some e)
  | [], _, _, h => by
    rcases h with h | ⟨x, hx, _⟩
    · exact absurd List.Pairwise.nil h
    · cases hx
  | v :: rest, m, h, hd => by
    have hv : C.hashable v = true := h v (List.mem_cons_self _ _)
    cases hmv : mapLookup C m v with
    | true =>
      exact ⟨{ message := goStr "duplicate element: " ++ C.render v }, by
        simp only [sliceToSetLoop, hv, if_true, hmv, Bool.and_self]⟩
    | false =>
      have hd2 : ¬ rest.Pairwise (fun a b => C.eq a b = false) ∨
          ∃ x ∈ rest, mapLookup C (m ++ [v]) x = true := by
        rcases hd with hd | ⟨x, hx, hxs⟩
        · by_cases hvr : ∀ x ∈ rest, C.eq v x = false
          · left
            intro hr
            exact hd (List.pairwise_cons.2 ⟨hvr, hr⟩)
          · right
            push_neg at hvr
            obtain ⟨x, hx, hvx⟩ := hvr
            refine ⟨x, hx, ?_⟩
            rw [mapLookup_append, mapLookup_singleton, Bool.eq_true_of_not_eq_false hvx, Bool.or_true]
        · rcases List.mem_cons.1 hx with e | e
          · rw [e, hmv] at hxs
            cases hxs
          · right
            refine ⟨x, e, ?_⟩
            rw [mapLookup_append, hxs, Bool.true_or]
      obtain ⟨e, he⟩ := sliceToSetLoop_strict_error C rest (m ++ [v])
        (fun x hx => h x (List.mem_cons_of_mem _ hx)) hd2
      exact ⟨e, by
        simp only [sliceToSetLoop, hv, if_true, hmv, Bool.false_and, Bool.false_eq_true,
          if_false, mapAssign_of_absent C m v hmv, he]⟩

theorem eqAt_of_lt {T : Type} (C : Comparable T) (s : List T) {i j : Nat}
    (hi : i < s.length) (hj : j < s.length) : eqAt C s i j = C.eq s[i] s[j] := by
  simp only [eqAt, List.getElem?_eq_getElem hi, List.getElem?_eq_getElem hj]

theorem hasDuplicate_iff_not_pairwise {T : Type} (C : Comparable T) (s : List T) :
    HasDuplicate C s ↔ ¬ s.Pairwise (fun a b => C.eq a b = false) := by
  rw [List.pairwise_iff_getElem]
  constructor
  · rintro ⟨j, hj, i, hi, e⟩ h
    have hi' : i < s.length := Nat.lt_trans hi hj
    rw [eqAt_of_lt C s hi' hj, h i j hi' hj hi] at e
    cases e
  · intro h
    by_contra hn
    apply h
    intro i j hi hj hij
    cases he : C.eq s[i] s[j] with
    | false => rfl
    | true => exact absurd ⟨j, hj, i, hij, by rw [eqAt_of_lt C s hi hj]; exact he⟩ hn

theorem not_hasDuplicate_iff_pairwise {T : Type} (C : Comparable T) (s : List T) :
    ¬ HasDuplicate C s ↔ s.Pairwise (fun a b => C.eq a b = false) := by
  rw [hasDuplicate_iff_not_pairwise, not_not]

/-- On elements that are equal to themselves, a value that occurs at two
indices is a duplicate under `==`. -/
theorem hasDuplicate_of_repeated {T : Type} (C : Comparable T) (s : List T)
    (hrefl : ∀ v ∈ s, C.eq v v = true) (h : HasRepeatedValue s) : HasDuplicate C s := by
  obtain ⟨j, hj, i, hi, e⟩ := h
  have hi' : i < s.length := Nat.lt_trans hi hj
  refine ⟨j, hj, i, hi, ?_⟩
  rw [List.getElem?_eq_getElem hi', List.getElem?_eq_getElem hj, Option.some.injEq] at e
  rw [eqAt_of_lt C s hi' hj, e]
  exact hrefl _ (List.getElem_mem _)

theorem SliceToSet_strict_fresh {T : Type} (C : Comparable T) (strict : Bool) (s : List T)
    (h : ∀ v ∈ s, C.hashable v = true) (hp : s.Pairwise (fun a b => C.eq a b = false)) :
    SliceToSet C s strict = some (some s, none) := by
  have := sliceToSetLoop_fresh C strict s [] h (fun _ _ => rfl) hp
  rwa [List.nil_append] at this

theorem strict_error_iff_hasDuplicate {T : Type} (C : Comparable T) (s : List T)
    (h : ∀ v ∈ s, C.hashable v = true) :
    (∃ set e, SliceToSet C s true = some (set, some e)) ↔ HasDuplicate C s := by
  constructor
  · rintro ⟨set, e, he⟩
    by_contra hn
    rw [SliceToSet_strict_fresh C true s h ((not_hasDuplicate_iff_pairwise C s).1 hn)] at he
    cases he
  · intro hd
    obtain ⟨e, he⟩ := sliceToSetLoop_strict_error C s [] h
      (Or.inl ((hasDuplicate_iff_not_pairwise C s).1 hd))
    exact ⟨none, e, he⟩

/-- The elements before the first duplicate are pairwise different, and the
element at the first duplicate is equal to one of them. -/
theorem isFirstDuplicate_split {T : Type} (C : Comparable T) {s : List T} {j : Nat}
    (hj : IsFirstDuplicate C s j) :
    ∃ v, s[j]? = some v ∧ s = s.take j ++ v :: s.drop (j + 1) ∧
      (s.take j).Pairwise (fun a b => C.eq a b = false) ∧
      ∃ x ∈ s.take j, C.eq x v = true := by
  obtain ⟨hlt, ⟨i, hi, e⟩, hmin⟩ := hj
  have hi' : i < s.length := Nat.lt_trans hi hlt
  have hv : s[j]? = some s[j] := List.getElem?_eq_getElem hlt
  refine ⟨s[j], hv, ?_, ?_, ?_⟩
  · rw [← List.drop_eq_getElem_cons hlt, List.take_append_drop]
  · rw [List.pairwise_iff_getElem]
    intro a b ha hb hab
    have hbj : b < j := by
      simp only [List.length_take] at hb
      omega
    have hbl : b < s.length := Nat.lt_trans hbj hlt
    have hal : a < s.length := Nat.lt_trans hab hbl
    rw [List.getElem_take, List.getElem_take]
    cases he : C.eq s[a] s[b] with
    | false => rfl
    | true => exact absurd ⟨a, hab, by rw [eqAt_of_lt C s hal hbl]; exact he⟩ (hmin b hbj)
  · refine ⟨s[i], ?_, ?_⟩
    · have : (s.take j)[i]? = some s[i] := by
        rw [List.getElem?_take_of_lt hi, List.getElem?_eq_getElem hi']
      exact List.getElem?_mem this
    · rw [eqAt_of_lt C s hi' hlt] at e
      exact e

theorem countFirstOccurrences_le {T : Type} (C : Comparable T) :
    ∀ (s seen : List T), countFirstOccurrences C seen s ≤ s.length
  | [], _ => Nat.le_refl 0
  | v :: rest, seen => by
    have ih := countFirstOccurrences_le C rest (seen ++ [v])
    rw [countFirstOccurrences, List.length_cons]
    split <;> omega

theorem countFirstOccurrences_eq_length {T : Type} (C : Comparable T) :
    ∀ (s seen : List T), countFirstOccurrences C seen s = s.length ↔
      (∀ v ∈ s, mapLookup C seen v = false) ∧ s.Pairwise (fun a b => C.eq a b = false)
  | [], _ => by
    simp only [countFirstOccurrences, List.length_nil, List.not_mem_nil, false_imp_iff,
      implies_true, List.Pairwise.nil, and_self]
  | v :: rest, seen => by
    have ih := countFirstOccurrences_eq_length C rest (seen ++ [v])
    have hle := countFirstOccurrences_le C rest (seen ++ [v])
    rw [countFirstOccurrences, List.length_cons, List.pairwise_cons]
    constructor
    · intro e
      have hv : mapLookup C seen v = false := by
        cases hc : mapLookup C seen v with
        | false => rfl
        | true =>
          rw [hc] at e
          simp only [if_true] at e
          omega
      rw [hv] at e
      simp only [Bool.false_eq_true, if_false] at e
      have e2 := ih.1 (by omega)
      refine ⟨?_, ?_, e2.2⟩
      · intro x hx
        rcases List.mem_cons.1 hx with rfl | hx
        · exact hv
        · have := e2.1 x hx
          rw [mapLookup_append, Bool.or_eq_false_iff] at this
          exact this.1
      · intro x hx
        have := e2.1 x hx
        rw [mapLookup_append, mapLookup_singleton, Bool.or_eq_false_iff] at this
        exact this.2
    · rintro ⟨hs, hvr, hp⟩
      have hv : mapLookup C seen v = false := hs v (List.mem_cons_self _ _)
      have e2 := ih.2 ⟨fun x hx => by
        rw [mapLookup_append, mapLookup_singleton, hs x (List.mem_cons_of_mem _ hx), hvr x hx]
        rfl, hp⟩
      rw [hv, e2]
      simp only [Bool.false_eq_true, if_false]
      omega

/-- A list of pairwise different keys, each equal to a key of `m₂`, is not
longer than `m₂`. -/
theorem length_le_of_matched {T : Type} (C : Comparable T) :
    ∀ (m₁ m₂ : List T), m₁.Pairwise (fun a b => C.eq a b = false) →
      (∀ k ∈ m₁, ∃ k' ∈ m₂, C.eq k k' = true) → m₁.length ≤ m₂.length
  | [], _, _, _ => Nat.zero_le _
  | a :: t, m₂, hp, hm => by
    have hp2 := List.pairwise_cons.1 hp
    obtain ⟨a', ha', haa'⟩ := hm a (List.mem_cons_self _ _)
    obtain ⟨l, r, e⟩ := List.append_of_mem ha'
    have ih := length_le_of_matched C t (l ++ r) hp2.2 (fun k hk => by
      obtain ⟨k', hk', hkk'⟩ := hm k (List.mem_cons_of_mem _ hk)
      refine ⟨k', ?_, hkk'⟩
      rw [e, List.mem_append, List.mem_cons] at hk'
      rcases hk' with h | h | h
      · exact List.mem_append_left _ h
      · rw [h] at hkk'
        have := C.eq_trans a a' k haa' (C.eq_symm k a' hkk')
        rw [hp2.1 k hk] at this
        cases this
      · exact List.mem_append_right _ h)
    rw [e]
    simp only [List.length_cons, List.length_append] at ih ⊢
    omega

/-- The lenient result on elements that can all be keys, with what is known
of its keys. -/
theorem SliceToSet_lenient_spec {T : Type} (C : Comparable T) (s : List T)
    (h : ∀ v ∈ s, C.hashable v = true) :
    ∃ set, SliceToSet C s false = some (some set, none) ∧
      (∀ k ∈ set, k ∈ s) ∧ (∀ x ∈ s, IsRepresented C set x) ∧
      (∀ v, mapLookup C set v = mapLookup C s v) ∧
      set.Pairwise (fun a b => C.eq a b = false) ∧
      set.length = numDistinct C s := by
  refine ⟨s.foldl (mapAssign C) [], SliceToSet_lenient_eq C s h, ?_, ?_, ?_, ?_, ?_⟩
  · intro k hk
    rcases mem_foldl C s [] k hk with h2 | h2
    · cases h2
    · exact h2
  · intro x hx
    exact isRepresented_foldl C s [] x (Or.inr hx)
  · intro v
    rw [mapLookup_foldl, List.nil_append]
  · exact pairwise_foldl C s [] List.Pairwise.nil
  · rw [length_foldl C s [] [] (fun _ => rfl), List.length_nil, Nat.zero_add]
    rfl

theorem isIdentity_mem_iff {T : Type} (C : Comparable T) (hid : IsIdentity C) (s set : List T)
    (hk : ∀ k ∈ set, k ∈ s) (hr : ∀ x ∈ s, IsRepresented C set x) (v : T) :
    v ∈ set ↔ v ∈ s := by
  constructor
  · exact hk v
  · intro hv
    rcases hr v hv with h | h
    · exact h
    · obtain ⟨k, hk2, e⟩ := (mapLookup_iff C set v).1 h
      exact ((hid k v).1 e) ▸ hk2

theorem isIdentity_nodup {T : Type} (C : Comparable T) (hid : IsIdentity C) (set : List T)
    (hp : set.Pairwise (fun a b => C.eq a b = false)) : set.Nodup := by
  refine hp.imp ?_
  intro a b hab e
  rw [(hid a b).2 e] at hab
  cases hab

theorem hasDuplicate_iff_repeated {T : Type} (C : Comparable T) (hid : IsIdentity C)
    (s : List T) : HasDuplicate C s ↔ HasRepeatedValue s := by
  have key : ∀ i j, i < j → j < s.length → (eqAt C s i j = true ↔ s[i]? = s[j]?) := by
    intro i j hij hj
    have hi : i < s.length := Nat.lt_trans hij hj
    rw [eqAt_of_lt C s hi hj, List.getElem?_eq_getElem hi, List.getElem?_eq_getElem hj,
      Option.some.injEq]
    exact hid _ _
  constructor
  · rintro ⟨j, hj, i, hi, e⟩
    exact ⟨j, hj, i, hi, (key i j hi hj).1 e⟩
  · rintro ⟨j, hj, i, hi, e⟩
    exact ⟨j, hj, i, hi, (key i j hi hj).2 e⟩

/-- C27, as stated, fails.  A slice of interface values holding a `[]int`
makes `SliceToSet` panic at the map access, so nothing is returned.  On
`float64` the keys are not the elements taken literally: the NaN is an element
of `[NaN]` but no lookup finds it in the returned set, and `[+0, -0]` has two
elements but its set has one key. -/
theorem SliceToSet_panics_on_unhashable :
    SliceToSet anyComparable [AnyValue.ints [1, 2]] false = none ∧
    (Float64Value.NaN ∈ [Float64Value.NaN] ∧
      SliceToSet float64Comparable [Float64Value.NaN] false =
        some (some [Float64Value.NaN], none) ∧
      mapLookup float64Comparable [Float64Value.NaN] Float64Value.NaN = false) ∧
    (Float64Value.posZero ≠ Float64Value.negZero ∧
      ∃ set, SliceToSet float64Comparable [Float64Value.posZero, Float64Value.negZero] false =
        some (some set, none) ∧ set.length = 1) :=
  ⟨by decide, by decide, by decide, [Float64Value.negZero], by decide, by decide⟩

/-- C27 (amended): for every slice `s` whose elements can all be map keys,
`SliceToSet(s, false)` returns a nil error and a non-nil set whose keys are
exactly the values occurring in `s`, compared with `==`: every key is an
element of `s`, every element of `s` is a key or equal to a key, and a value
is equal to a key if and only if it is equal to an element of `s`.  Where `==`
holds only between a value and itself, `v` is a key if and only if `v` is an
element of `s`.  The empty slice yields the empty set. -/
theorem SliceToSet_lenient_keys {T : Type} (C : Comparable T) (s : List T)
    (h : ∀ v ∈ s, C.hashable v = true) :
    (∃ set, SliceToSet C s false = some (some set, none) ∧
      (∀ k ∈ set, k ∈ s) ∧
      (∀ x ∈ s, x ∈ set ∨ ∃ k ∈ set, C.eq k x = true) ∧
      (∀ v, (∃ k ∈ set, C.eq k v = true) ↔ ∃ x ∈ s, C.eq x v = true) ∧
      (IsIdentity C → ∀ v, v ∈ set ↔ v ∈ s)) ∧
    SliceToSet C [] false = some (some [], none) := by
  obtain ⟨set, hres, hk, hr, hl, _, _⟩ := SliceToSet_lenient_spec C s h
  refine ⟨⟨set, hres, hk, ?_, ?_, ?_⟩, rfl⟩
  · intro x hx
    rcases hr x hx with h1 | h1
    · exact Or.inl h1
    · exact Or.inr ((mapLookup_iff C set x).1 h1)
  · intro v
    rw [← mapLookup_iff, ← mapLookup_iff, hl v]
  · intro hid v
    exact isIdentity_mem_iff C hid s set hk hr v

theorem SliceToSet_lenient_keys_witness :
    (∀ v ∈ [(1 : Int), 2, 2, 3], intComparable.hashable v = true) ∧
    ((∃ set, SliceToSet intComparable [(1 : Int), 2, 2, 3] false = some (some set, none) ∧
      (∀ k ∈ set, k ∈ [(1 : Int), 2, 2, 3]) ∧
      (∀ x ∈ [(1 : Int), 2, 2, 3], x ∈ set ∨ ∃ k ∈ set, intComparable.eq k x = true) ∧
      (∀ v, (∃ k ∈ set, intComparable.eq k v = true) ↔
        ∃ x ∈ [(1 : Int), 2, 2, 3], intComparable.eq x v = true) ∧
      (IsIdentity intComparable → ∀ v, v ∈ set ↔ v ∈ [(1 : Int), 2, 2, 3])) ∧
    SliceToSet intComparable [] false = some (some [], none)) :=
  ⟨by decide, SliceToSet_lenient_keys intComparable [1, 2, 2, 3] (by decide)⟩

/-- C28, as stated, fails.  `[[]int{}, 1, 1]` (as `[]any`) has a value at two
indices, and `[[]int{}]` has none, yet in strict mode both panic at the first
element: neither an error nor a set is returned.  On `float64`, `[NaN, NaN]`
has one value at two indices and strict mode returns a set of two keys and no
error, while `[+0, -0]` has no value at two indices and strict mode returns an
error. -/
theorem SliceToSet_strict_panics_on_unhashable :
    (HasRepeatedValue [AnyValue.ints [], AnyValue.int 1, AnyValue.int 1] ∧
      SliceToSet anyComparable [AnyValue.ints [], AnyValue.int 1, AnyValue.int 1] true = none ∧
      ¬ HasRepeatedValue [AnyValue.ints []] ∧
      SliceToSet anyComparable [AnyValue.ints []] true = none) ∧
    (HasRepeatedValue [Float64Value.NaN, Float64Value.NaN] ∧
      SliceToSet float64Comparable [Float64Value.NaN, Float64Value.NaN] true =
        some (some [Float64Value.NaN, Float64Value.NaN], none)) ∧
    (¬ HasRepeatedValue [Float64Value.posZero, Float64Value.negZero] ∧
      SliceToSet float64Comparable [Float64Value.posZero, Float64Value.negZero] true =
        some (none, some { message := goStr "duplicate element: -0" })) := by
  decide

/-- C28 (amended): for every slice `s` whose elements can all be map keys and
are each equal to themselves under `==`, `SliceToSet(s, true)` returns a
non-nil error if and only if two different indices of `s` hold values that are
equal under `==`, in particular whenever one value occurs at two different
indices; when `s` has no such duplicate it returns a nil error and exactly the
same set as `SliceToSet(s, false)`.  Where `==` holds only between a value and
itself, the duplicates are the values that occur at two different indices. -/
theorem SliceToSet_strict_error_iff {T : Type} (C : Comparable T) (s : List T)
    (h : ∀ v ∈ s, C.hashable v = true) (hrefl : ∀ v ∈ s, C.eq v v = true) :
    ((∃ set e, SliceToSet C s true = some (set, some e)) ↔ HasDuplicate C s) ∧
    (HasRepeatedValue s → ∃ set e, SliceToSet C s true = some (set, some e)) ∧
    (¬ HasDuplicate C s →
      SliceToSet C s true = SliceToSet C s false ∧
      ∃ set, SliceToSet C s true = some (some set, none)) ∧
    (IsIdentity C → (HasDuplicate C s ↔ HasRepeatedValue s)) := by
  have hiff := strict_error_iff_hasDuplicate C s h
  refine ⟨hiff, fun hr => hiff.2 (hasDuplicate_of_repeated C s hrefl hr), ?_,
    fun hid => hasDuplicate_iff_repeated C hid s⟩
  intro hn
  have hp := (not_hasDuplicate_iff_pairwise C s).1 hn
  rw [SliceToSet_strict_fresh C true s h hp, SliceToSet_strict_fresh C false s h hp]
  exact ⟨rfl, s, rfl⟩

theorem SliceToSet_strict_error_iff_witness :
    ((∀ v ∈ [(1 : Int), 2, 2, 3], intComparable.hashable v = true) ∧
      (∀ v ∈ [(1 : Int), 2, 2, 3], intComparable.eq v v = true) ∧
      HasDuplicate intComparable [(1 : Int), 2, 2, 3] ∧
      ∃ set e, SliceToSet intComparable [(1 : Int), 2, 2, 3] true = some (set, some e)) ∧
    ((∀ v ∈ [(1 : Int), 2, 3], intComparable.hashable v = true) ∧
      (∀ v ∈ [(1 : Int), 2, 3], intComparable.eq v v = true) ∧
      ¬ HasDuplicate intComparable [(1 : Int), 2, 3] ∧
      SliceToSet intComparable [(1 : Int), 2, 3] true =
        SliceToSet intComparable [(1 : Int), 2, 3] false ∧
      ∃ set, SliceToSet intComparable [(1 : Int), 2, 3] true = some (some set, none)) :=
  ⟨⟨by decide, by decide, by decide,
      (SliceToSet_strict_error_iff intComparable [1, 2, 2, 3] (by decide) (by decide)).1.2
        (by decide)⟩,
    ⟨by decide, by decide, by decide,
      (SliceToSet_strict_error_iff intComparable [1, 2, 3] (by decide) (by decide)).2.2.1
        (by decide)⟩⟩

/-- C29, as stated, fails: `[[]int{1}, 2, 2]` (as `[]any`) contains a
duplicate, first encountered at index 2, and strict mode panics at the first
element instead of returning the error. -/
theorem SliceToSet_strict_panics_before_duplicate :
    IsFirstDuplicate anyComparable [AnyValue.ints [1], AnyValue.int 2, AnyValue.int 2] 2 ∧
    SliceToSet anyComparable [AnyValue.ints [1], AnyValue.int 2, AnyValue.int 2] true = none := by
  decide

/-- C29 (amended): for every slice `s` that contains a duplicate, `j` being the
smallest index whose element equals (`==`) an element at an earlier index, and
whose elements up to and including index `j` can all be map keys,
`SliceToSet(s, true)` returns a nil set together with the error whose message
is `"duplicate element: "` followed by the rendering of `s[j]`. -/
theorem SliceToSet_strict_first_duplicate {T : Type} (C : Comparable T) (s : List T) (j : Nat)
    (hj : IsFirstDuplicate C s j) (h : ∀ v ∈ s.take (j + 1), C.hashable v = true) :
    ∃ v, s[j]? = some v ∧
      SliceToSet C s true =
        some (none, some { message := goStr "duplicate element: " ++ C.render v }) := by
  obtain ⟨v, hv, hs, hp, hmem⟩ := isFirstDuplicate_split C hj
  refine ⟨v, hv, ?_⟩
  have hvh : C.hashable v = true := by
    apply h v
    have : (s.take (j + 1))[j]? = some v := by
      rw [List.getElem?_take_of_lt (Nat.lt_succ_self j), hv]
    exact List.getElem?_mem this
  have hpre : ∀ x ∈ s.take j, C.hashable x = true := fun x hx =>
    h x ((List.take_subset_take_left s (Nat.le_succ j)) hx)
  have key := sliceToSetLoop_strict_dup C v (s.drop (j + 1)) hvh (s.take j) [] hpre
    (fun _ _ => rfl) hp (Or.inr hmem)
  rw [← hs] at key
  exact key

theorem SliceToSet_strict_first_duplicate_witness :
    (IsFirstDuplicate intComparable [(1 : Int), 2, 2, 3] 2 ∧
      (∀ v ∈ [(1 : Int), 2, 2, 3].take (2 + 1), intComparable.hashable v = true) ∧
      (∃ v, [(1 : Int), 2, 2, 3][2]? = some v ∧
        SliceToSet intComparable [(1 : Int), 2, 2, 3] true =
          some (none, some { message := goStr "duplicate element: " ++ intComparable.render v })) ∧
      SliceToSet intComparable [(1 : Int), 2, 2, 3] true =
        some (none, some { message := goStr "duplicate element: 2" })) ∧
    (IsFirstDuplicate intComparable [(1 : Int), 2, 1, 2] 2 ∧
      SliceToSet intComparable [(1 : Int), 2, 1, 2] true =
        some (none, some { message := goStr "duplicate element: 1" })) ∧
    (IsFirstDuplicate float64Comparable
        [Float64Value.NaN, Float64Value.NaN, Float64Value.one, Float64Value.one] 3 ∧
      SliceToSet float64Comparable
          [Float64Value.NaN, Float64Value.NaN, Float64Value.one, Float64Value.one] true =
        some (none, some { message := goStr "duplicate element: 1" })) :=
  ⟨⟨by decide, by decide,
      SliceToSet_strict_first_duplicate intComparable [1, 2, 2, 3] 2 (by decide) (by decide),
      by decide⟩,
    ⟨by decide, by decide⟩, ⟨by decide, by decide⟩⟩

/-- C30, as stated, fails.  `[1, []int{1}, 1]` (as `[]any`) makes
`SliceToSet(s, false)` panic at its second element, so no set, hence no number
of keys, is returned.  On `float64`, `[NaN, NaN]` holds one value, at two
indices, and the returned set has two keys, as many as `len(s)`; `[+0, -0]`
holds two values and the returned set has one key. -/
theorem SliceToSet_lenient_panics_midway :
    SliceToSet anyComparable [AnyValue.int 1, AnyValue.ints [1], AnyValue.int 1] false = none ∧
    (SliceToSet float64Comparable [Float64Value.NaN, Float64Value.NaN] false =
        some (some [Float64Value.NaN, Float64Value.NaN], none) ∧
      [Float64Value.NaN, Float64Value.NaN].dedup.length = 1 ∧
      HasRepeatedValue [Float64Value.NaN, Float64Value.NaN]) ∧
    ([Float64Value.posZero, Float64Value.negZero].dedup.length = 2 ∧
      ∃ set, SliceToSet float64Comparable [Float64Value.posZero, Float64Value.negZero] false =
        some (some set, none) ∧ set.length = 1) :=
  ⟨by decide, by decide, by decide, [Float64Value.negZero], by decide, by decide⟩

/-- C30 (amended): for every slice `s` whose elements can all be map keys and
are each equal to themselves under `==`, the number of keys of the set
returned by `SliceToSet(s, false)` equals the number of distinct values in
`s`, compared with `==`; it is at most `len(s)`, and equals `len(s)` if and
only if `s` has no duplicates; it is less than `len(s)` when one value occurs
at two indices.  Where `==` holds only between a value and itself, it is the
length of `s` with repeated values removed. -/
theorem SliceToSet_lenient_card {T : Type} [DecidableEq T] (C : Comparable T) (s : List T)
    (h : ∀ v ∈ s, C.hashable v = true) (hrefl : ∀ v ∈ s, C.eq v v = true) :
    ∃ set, SliceToSet C s false = some (some set, none) ∧
      set.length = numDistinct C s ∧ set.length ≤ s.length ∧
      (set.length = s.length ↔ ¬ HasDuplicate C s) ∧
      (HasRepeatedValue s → set.length < s.length) ∧
      (IsIdentity C → set.length = s.dedup.length) := by
  obtain ⟨set, hres, hk, hr, _, hp, hlen⟩ := SliceToSet_lenient_spec C s h
  have hle : set.length ≤ s.length := by
    rw [hlen]
    exact countFirstOccurrences_le C s []
  have hiff : set.length = s.length ↔ ¬ HasDuplicate C s := by
    rw [hlen, not_hasDuplicate_iff_pairwise, numDistinct, countFirstOccurrences_eq_length]
    exact ⟨fun e => e.2, fun e => ⟨fun _ _ => rfl, e⟩⟩
  refine ⟨set, hres, hlen, hle, hiff, ?_, ?_⟩
  · intro hrep
    have hd := hasDuplicate_of_repeated C s hrefl hrep
    have hne : set.length ≠ s.length := fun e => (hiff.1 e) hd
    omega
  · intro hid
    have hnd := isIdentity_nodup C hid set hp
    exact ((List.perm_ext_iff_of_nodup hnd (List.nodup_dedup s)).2 (fun a => by
      rw [List.mem_dedup]
      exact isIdentity_mem_iff C hid s set hk hr a)).length_eq

theorem SliceToSet_lenient_card_witness :
    (∀ v ∈ [(1 : Int), 2, 2, 3], intComparable.hashable v = true) ∧
    (∀ v ∈ [(1 : Int), 2, 2, 3], intComparable.eq v v = true) ∧
    (∃ set, SliceToSet intComparable [(1 : Int), 2, 2, 3] false = some (some set, none) ∧
      set.length = numDistinct intComparable [(1 : Int), 2, 2, 3] ∧
      set.length ≤ [(1 : Int), 2, 2, 3].length ∧
      (set.length = [(1 : Int), 2, 2, 3].length ↔
        ¬ HasDuplicate intComparable [(1 : Int), 2, 2, 3]) ∧
      (HasRepeatedValue [(1 : Int), 2, 2, 3] → set.length < [(1 : Int), 2, 2, 3].length) ∧
      (IsIdentity intComparable → set.length = [(1 : Int), 2, 2, 3].dedup.length)) ∧
    numDistinct intComparable [(1 : Int), 2, 2, 3] = 3 :=
  ⟨by decide, by decide,
    SliceToSet_lenient_card intComparable [1, 2, 2, 3] (by decide) (by decide), by decide⟩

/-! ## Further properties of `ParseCallerInfo` -/

theorem sentinel_parts_shape :
    ¬ HasDotAfterLastSlash (goStr "<unknown-package>") ∧
    slash ∉ goStr "<unknown-function>" ∧ unknownCallerInfo.String =
      goStr "<unknown-package>.<unknown-function>" := by
  decide

/-- The shape of every result of the parser: the package has no `'.'` after
its last `'/'`, the function has no `'/'`. -/
theorem parse_shape (s : GoString) :
    ∃ c, ParseCallerInfo s = some c ∧ ¬ HasDotAfterLastSlash c.Package ∧
      slash ∉ c.Function := by
  rcases parse_cases s with ⟨_, hp⟩ | ⟨dir, seg, fn, hdir, hseg, hnd, hfn, _, hp⟩
  · exact ⟨unknownCallerInfo, hp, sentinel_parts_shape.1, sentinel_parts_shape.2.1⟩
  · exact ⟨_, hp, fun hh => hnd ((hasDot_iff dir seg hdir hseg).1 hh), hfn⟩

/-- Parsing the display string of a value of that shape gives the value back. -/
theorem parse_String_of_shape (c : CallerInfo) (hP : ¬ HasDotAfterLastSlash c.Package)
    (hF : slash ∉ c.Function) : ParseCallerInfo c.String = some c := by
  obtain ⟨dir, seg, hp, hdir, hseg⟩ := exists_dir_seg c.Package
  have hnd : dot ∉ seg := fun hm => hP (by rw [hp]; exact (hasDot_iff dir seg hdir hseg).2 hm)
  have h := parse_split dir seg c.Function hdir hseg hnd hF
  rw [String_eq, hp, h, ← hp]

/-- C34: idempotence of parse-after-display.  For every string `s`,
`ParseCallerInfo(ParseCallerInfo(s).String()) = ParseCallerInfo(s)`; in
particular `"<unknown-package>.<unknown-function>"`, the display string of the
unknown sentinel, parses back to the unknown sentinel. -/
theorem ParseCallerInfo_display_idempotent (s : GoString) :
    (ParseCallerInfo s).bind (fun c => ParseCallerInfo c.String) = ParseCallerInfo s ∧
    (∃ c, ParseCallerInfo s = some c ∧ ParseCallerInfo c.String = some c) ∧
    unknownCallerInfo.String = goStr "<unknown-package>.<unknown-function>" ∧
    ParseCallerInfo unknownCallerInfo.String = some unknownCallerInfo := by
  obtain ⟨c, hc, hP, hF⟩ := parse_shape s
  have h := parse_String_of_shape c hP hF
  refine ⟨by rw [hc, Option.some_bind, h], ⟨c, hc, h⟩, sentinel_parts_shape.2.2, ?_⟩
  exact parse_String_of_shape unknownCallerInfo sentinel_parts_shape.1 sentinel_parts_shape.2.1

/-- C35: output shape of the parser.  For every string `s`, the `Package`
returned by `ParseCallerInfo s` contains no `'.'` after its last `'/'` (no
`'.'` at all when it has no `'/'`), and the `Function` returned contains no
`'/'`. -/
theorem ParseCallerInfo_output_shape (s : GoString) :
    ∃ c, ParseCallerInfo s = some c ∧ ¬ HasDotAfterLastSlash c.Package ∧
      (slash ∉ c.Package → dot ∉ c.Package) ∧ slash ∉ c.Function := by
  obtain ⟨c, hc, hP, hF⟩ := parse_shape s
  refine ⟨c, hc, hP, ?_, hF⟩
  intro hns hd
  apply hP
  have := (hasDot_iff [] c.Package (Or.inl rfl) hns).2 hd
  simpa using this

/-! ## Further properties of `TypeName` -/

theorem typeNameWithDepth_succ {τ : Type} (R : reflect.Methods τ) (t : τ) (d : Nat) :
    typeNameWithDepth R t (d + 1) = typeNameSwitch R (fun u => typeNameWithDepth R u d) t := by
  cases hk : R.Kind t <;> simp only [typeNameWithDepth, typeNameSwitch, hk]

/-- C32: for every type descriptor `t`, of any kind,
`typeNameWithDepth(t, 0) = "<...>"`; hence a map rendered with budget 1 is
`"map[<...>]<...>"` whatever its key and value types, and
`map[int]map[string]map[int]map[string]int` with budget 4 renders as
`"map[int]map[string]map[int]map[<...>]<...>"`. -/
theorem typeNameWithDepth_zero_budget {τ : Type} (R : reflect.Methods τ) :
    (∀ t : τ, typeNameWithDepth R t 0 = some (goStr "<...>")) ∧
    (∀ t K V : τ, R.Kind t = reflect.Kind.Map → R.Key t = some K → R.Elem t = some V →
      typeNameWithDepth R t 1 = some (goStr "map[<...>]<...>")) ∧
    typeNameWithDepth nestedMapTypes 5 4 =
      some (goStr "map[int]map[string]map[int]map[<...>]<...>") ∧
    typeNameWithDepth nestedMapTypes 5 0 = some (goStr "<...>") ∧
    typeNameWithDepth nestedMapTypes 1 0 = some (goStr "<...>") ∧
    typeNameWithDepth funcTypes 3 0 = some (goStr "<...>") := by
  refine ⟨fun _ => rfl, ?_, by decide, by decide, by decide, by decide⟩
  intro t K V hk hkey he
  have e : goStr "map[" ++ goStr "<...>" ++ goStr "]" ++ goStr "<...>" =
      goStr "map[<...>]<...>" := by decide
  simp only [typeNameWithDepth, hk, hkey, he, Option.bind_eq_bind, Option.some_bind,
    Option.pure_def, bind, pure, Sprintf_map, e]


theorem typeNameSwitch_eq {τ : Type} (R : reflect.Methods τ) (recur : τ → Option GoString)
    (t : τ) :
    typeNameSwitch R recur t =
      match R.Kind t with
      | reflect.Kind.Array =>
        (R.Len t).bind fun len => ((R.Elem t).bind recur).bind fun name =>
          some (Sprintf (goStr "[%d]%s") [FmtArg.int len, FmtArg.str name])
      | reflect.Kind.Slice =>
        ((R.Elem t).bind recur).bind fun name =>
          some (Sprintf (goStr "[]%s") [FmtArg.str name])
      | reflect.Kind.Map =>
        ((R.Key t).bind recur).bind fun keyName => ((R.Elem t).bind recur).bind fun elemName =>
          some (Sprintf (goStr "map[%s]%s") [FmtArg.str keyName, FmtArg.str elemName])
      | reflect.Kind.Chan =>
        (R.ChanDir t).bind fun chanDir => ((R.Elem t).bind recur).bind fun name =>
          some ((match chanDir with
            | reflect.ChanDir.RecvDir => goStr "<-chan "
            | reflect.ChanDir.SendDir => goStr "chan<- "
            | _ => goStr "chan ") ++ name)
      | reflect.Kind.Ptr =>
        ((R.Elem t).bind recur).bind fun name => some (goStr "*" ++ name)
      | reflect.Kind.Struct | reflect.Kind.Interface =>
        if R.PkgPath t = goStr "" then some (R.String t)
        else some (Sprintf (goStr "%s.%s") [FmtArg.str (R.PkgPath t), FmtArg.str (R.Name t)])
      | reflect.Kind.Func => typeNameForFunc R recur t
      | _ => some (R.String t) := by
  unfold typeNameSwitch
  cases R.Kind t <;> cases R.Elem t <;> cases R.Key t <;> cases R.Len t <;>
    cases R.ChanDir t <;> rfl

theorem typeNameForFunc_numIn_none {τ : Type} (R : reflect.Methods τ)
    (recur : τ → Option GoString) (t : τ) (hn : R.NumIn t = none) :
    typeNameForFunc R recur t = none := by
  simp only [typeNameForFunc, hn, Option.bind_eq_bind, Option.none_bind, bind]

theorem typeNameForFunc_numOut_none {τ : Type} (R : reflect.Methods τ)
    (recur : τ → Option GoString) (t : τ) (hm : R.NumOut t = none) :
    typeNameForFunc R recur t = none := by
  cases hn : R.NumIn t with
  | none => exact typeNameForFunc_numIn_none R recur t hn
  | some n =>
    simp only [typeNameForFunc, hn, hm, Option.bind_eq_bind, Option.some_bind,
      Option.none_bind, bind]
    cases (List.range n).mapM (paramTypeName R recur t) <;> rfl

theorem paramTypeName_variadic_none {τ : Type} (R : reflect.Methods τ)
    (recur : τ → Option GoString) (t : τ) (i : Nat) (hv : R.IsVariadic t = none) :
    paramTypeName R recur t i = none := by
  simp only [paramTypeName, hv, Option.bind_eq_bind, Option.none_bind, bind]

theorem typeNameForFunc_congr {τ₁ τ₂ : Type} (R₁ : reflect.Methods τ₁) (R₂ : reflect.Methods τ₂)
    (r₁ : τ₁ → Option GoString) (r₂ : τ₂ → Option GoString) (t1 : τ₁) (t2 : τ₂)
    (hnin : R₁.NumIn t1 = R₂.NumIn t2) (hnout : R₁.NumOut t1 = R₂.NumOut t2)
    (hin : ∀ i, i < (R₁.NumIn t1).getD 0 →
      paramTypeName R₁ r₁ t1 i = paramTypeName R₂ r₂ t2 i)
    (hout : ∀ i, i < (R₁.NumOut t1).getD 0 → (R₁.Out t1 i).bind r₁ = (R₂.Out t2 i).bind r₂) :
    typeNameForFunc R₁ r₁ t1 = typeNameForFunc R₂ r₂ t2 := by
  cases hn : R₂.NumIn t2 with
  | none =>
    rw [typeNameForFunc_numIn_none R₂ r₂ t2 hn,
      typeNameForFunc_numIn_none R₁ r₁ t1 (hnin.trans hn)]
  | some n =>
    cases hm : R₂.NumOut t2 with
    | none =>
      rw [typeNameForFunc_numOut_none R₂ r₂ t2 hm,
        typeNameForFunc_numOut_none R₁ r₁ t1 (hnout.trans hm)]
    | some m =>
      have hn1 := hnin.trans hn
      have hm1 := hnout.trans hm
      rw [hn1] at hin
      rw [hm1] at hout
      rw [typeNameForFunc_eq R₁ r₁ t1 n m hn1 hm1, typeNameForFunc_eq R₂ r₂ t2 n m hn hm,
        mapM_congr_option (paramTypeName R₁ r₁ t1) (paramTypeName R₂ r₂ t2) (List.range n)
          (fun i hi => hin i (List.mem_range.1 hi)),
        mapM_congr_option (fun i => (R₁.Out t1 i).bind r₁) (fun i => (R₂.Out t2 i).bind r₂)
          (List.range m) (fun i hi => hout i (List.mem_range.1 hi))]

theorem paramTypeName_congr {τ₁ τ₂ : Type} (R₁ : reflect.Methods τ₁) (R₂ : reflect.Methods τ₂)
    (r₁ : τ₁ → Option GoString) (r₂ : τ₂ → Option GoString) (t1 : τ₁) (t2 : τ₂) (i : Nat)
    (hvar : R₁.IsVariadic t1 = R₂.IsVariadic t2) (hnin : R₁.NumIn t1 = R₂.NumIn t2)
    (hi : i < (R₁.NumIn t1).getD 0)
    (hlast : R₁.IsVariadic t1 = some true → i + 1 = (R₁.NumIn t1).getD 0 →
      (R₁.In t1 i).bind (fun p => (R₁.Elem p).bind r₁) =
        (R₂.In t2 i).bind (fun p => (R₂.Elem p).bind r₂))
    (hinit : ¬ (R₁.IsVariadic t1 = some true ∧ i + 1 = (R₁.NumIn t1).getD 0) →
      (R₁.In t1 i).bind r₁ = (R₂.In t2 i).bind r₂) :
    paramTypeName R₁ r₁ t1 i = paramTypeName R₂ r₂ t2 i := by
  cases hn : R₂.NumIn t2 with
  | none =>
    rw [hnin.trans hn] at hi
    exact absurd hi (Nat.not_lt_zero _)
  | some n =>
    have hn1 := hnin.trans hn
    rw [hn1] at hlast hinit
    simp only [Option.getD_some] at hlast hinit
    cases hv : R₂.IsVariadic t2 with
    | none =>
      rw [paramTypeName_variadic_none R₂ r₂ t2 i hv,
        paramTypeName_variadic_none R₁ r₁ t1 i (hvar.trans hv)]
    | some v =>
      have hv1 := hvar.trans hv
      cases v with
      | false =>
        rw [paramTypeName_nonvariadic R₁ r₁ t1 i hv1, paramTypeName_nonvariadic R₂ r₂ t2 i hv]
        exact hinit (fun h => by rw [hv1] at h; exact absurd h.1 (by decide))
      | true =>
        by_cases hl : i + 1 = n
        · subst hl
          rw [paramTypeName_variadic_last R₁ r₁ t1 i hv1 hn1,
            paramTypeName_variadic_last R₂ r₂ t2 i hv hn]
          have h := hlast hv1 rfl
          have e1 : ∀ {τ : Type} (R : reflect.Methods τ) (r : τ → Option GoString)
              (o : Option τ),
              (o.bind (fun p => (R.Elem p).bind (fun e =>
                (r e).map (fun name => goStr "..." ++ name)))) =
              (o.bind (fun p => (R.Elem p).bind r)).map (fun name => goStr "..." ++ name) := by
            intro τ R r o
            cases o with
            | none => rfl
            | some p =>
              simp only [Option.some_bind]
              cases R.Elem p <;> rfl
          rw [e1, e1, h]
        · rw [paramTypeName_variadic_init R₁ r₁ t1 i n hv1 hn1 hl,
            paramTypeName_variadic_init R₂ r₂ t2 i n hv hn hl]
          exact hinit (fun h => hl h.2)

theorem typeNameSwitch_congr {τ₁ τ₂ : Type} (R₁ : reflect.Methods τ₁) (R₂ : reflect.Methods τ₂)
    (r₁ : τ₁ → Option GoString) (r₂ : τ₂ → Option GoString) (t1 : τ₁) (t2 : τ₂)
    (hk : R₁.Kind t1 = R₂.Kind t2) (hlen : R₁.Len t1 = R₂.Len t2)
    (hdir : R₁.ChanDir t1 = R₂.ChanDir t2)
    (hvar : R₁.IsVariadic t1 = R₂.IsVariadic t2) (hnin : R₁.NumIn t1 = R₂.NumIn t2)
    (hnout : R₁.NumOut t1 = R₂.NumOut t2)
    (hnames : IsComposite (R₁.Kind t1) ∨ (R₁.PkgPath t1 = R₂.PkgPath t2 ∧
      R₁.Name t1 = R₂.Name t2 ∧ R₁.String t1 = R₂.String t2))
    (helem : (R₁.Elem t1).bind r₁ = (R₂.Elem t2).bind r₂)
    (hkey : (R₁.Key t1).bind r₁ = (R₂.Key t2).bind r₂)
    (hlast : ∀ i, i < (R₁.NumIn t1).getD 0 → R₁.IsVariadic t1 = some true →
      i + 1 = (R₁.NumIn t1).getD 0 →
      (R₁.In t1 i).bind (fun p => (R₁.Elem p).bind r₁) =
        (R₂.In t2 i).bind (fun p => (R₂.Elem p).bind r₂))
    (hinit : ∀ i, i < (R₁.NumIn t1).getD 0 →
      ¬ (R₁.IsVariadic t1 = some true ∧ i + 1 = (R₁.NumIn t1).getD 0) →
      (R₁.In t1 i).bind r₁ = (R₂.In t2 i).bind r₂)
    (hout : ∀ i, i < (R₁.NumOut t1).getD 0 → (R₁.Out t1 i).bind r₁ = (R₂.Out t2 i).bind r₂) :
    typeNameSwitch R₁ r₁ t1 = typeNameSwitch R₂ r₂ t2 := by
  have hfunc : typeNameForFunc R₁ r₁ t1 = typeNameForFunc R₂ r₂ t2 :=
    typeNameForFunc_congr R₁ R₂ r₁ r₂ t1 t2 hnin hnout
      (fun i hi => paramTypeName_congr R₁ R₂ r₁ r₂ t1 t2 i hvar hnin hi (hlast i hi) (hinit i hi))
      hout
  rw [typeNameSwitch_eq, typeNameSwitch_eq]
  cases hK : R₂.Kind t2 <;> rw [hK] at hk <;> simp only [hk] <;>
    first
    | (rw [hlen, helem])
    | (rw [hkey, helem])
    | (rw [hdir, helem])
    | (rw [helem])
    | exact hfunc
    | (obtain ⟨h1, h2, h3⟩ := hnames.resolve_left (by rw [hk]; decide)
       first | rw [h1, h2, h3] | rw [h3])

theorem optRel_bind {α β γ : Type} (P : α → β → Prop) (f : α → Option γ) (g : β → Option γ)
    (hfg : ∀ a b, P a b → f a = g b) :
    ∀ (o₁ : Option α) (o₂ : Option β), optRel P o₁ o₂ → o₁.bind f = o₂.bind g
  | some a, some b, h => hfg a b h
  | none, none, _ => rfl
  | some _, none, h => h.elim
  | none, some _, h => h.elim

theorem optAll_bind {α γ : Type} (P : α → Prop) (f g : α → Option γ)
    (hfg : ∀ a, P a → f a = g a) :
    ∀ o : Option α, optAll P o → o.bind f = o.bind g
  | some a, h => hfg a h
  | none, _ => rfl

theorem levelAgree_switch {τ₁ τ₂ : Type} (R₁ : reflect.Methods τ₁) (R₂ : reflect.Methods τ₂)
    (P : τ₁ → τ₂ → Prop) (r₁ : τ₁ → Option GoString) (r₂ : τ₂ → Option GoString)
    (hrec : ∀ a b, P a b → r₁ a = r₂ b) (t1 : τ₁) (t2 : τ₂)
    (h : LevelAgree R₁ R₂ P t1 t2) :
    typeNameSwitch R₁ r₁ t1 = typeNameSwitch R₂ r₂ t2 := by
  obtain ⟨⟨hk, hlen, hdir, hvar, hnin, hnout, hpkg, hname, hstr⟩, helem, hkey, hin, hout⟩ := h
  refine typeNameSwitch_congr R₁ R₂ r₁ r₂ t1 t2 hk hlen hdir hvar hnin hnout
    (Or.inr ⟨hpkg, hname, hstr⟩) (optRel_bind P r₁ r₂ hrec _ _ helem)
    (optRel_bind P r₁ r₂ hrec _ _ hkey) ?_ ?_
    (fun i hi => optRel_bind P r₁ r₂ hrec _ _ (hout i hi))
  · intro i hi hv hl
    have h := hin i hi
    rw [if_pos ⟨hv, hl⟩] at h
    exact optRel_bind _ _ _ (fun p1 p2 hp => optRel_bind P r₁ r₂ hrec _ _ hp) _ _ h
  · intro i hi hnl
    have h := hin i hi
    rw [if_neg hnl] at h
    exact optRel_bind P r₁ r₂ hrec _ _ h

theorem descentAgree_render {τ₁ τ₂ : Type} (R₁ : reflect.Methods τ₁) (R₂ : reflect.Methods τ₂) :
    ∀ (d : Nat) (t1 : τ₁) (t2 : τ₂), DescentAgree R₁ R₂ d t1 t2 →
      typeNameWithDepth R₁ t1 d = typeNameWithDepth R₂ t2 d
  | 0, _, _, _ => rfl
  | d + 1, t1, t2, h => by
    rw [typeNameWithDepth_succ, typeNameWithDepth_succ]
    exact levelAgree_switch R₁ R₂ (DescentAgree R₁ R₂ d) _ _
      (fun a b hab => descentAgree_render R₁ R₂ d a b hab) t1 t2 h

theorem typeNameWithDepthFuel_eq {τ : Type} (R : reflect.Methods τ) :
    ∀ (d fuel : Nat) (t : τ), d ≤ fuel → (d : Int) ≤ 9223372036854775807 →
      typeNameWithDepthFuel R fuel t (d : Int) = typeNameWithDepth R t d
  | 0, 0, _, _, _ => rfl
  | 0, _ + 1, _, _, _ => rfl
  | d + 1, 0, _, hf, _ => absurd hf (Nat.not_succ_le_zero d)
  | d + 1, fuel + 1, t, hf, hd => by
    have h0 : ((d + 1 : Nat) : Int) ≠ 0 := by omega
    have hw : wrapInt64 (((d + 1 : Nat) : Int) - 1) = (d : Int) := by
      unfold wrapInt64
      omega
    have ih : (fun u => typeNameWithDepthFuel R fuel u (d : Int)) =
        fun u => typeNameWithDepth R u d :=
      funext fun u => typeNameWithDepthFuel_eq R d fuel u (by omega) (by omega)
    rw [typeNameWithDepth_succ]
    simp only [typeNameWithDepthFuel, if_neg h0, hw, ih]

/-- C33: for every budget `0 ≤ d` (a Go `int`, so at most `MaxInt64`),
`typeNameWithDepth(t, d)` run with recursive calls nested at most `d` deep
already gives the result of the function, so the recursion, which passes budget
`d - 1` at every call and stops at budget `0`, terminates on every descriptor,
cyclic ones included; on a well-formed universe the result is a string; for
`TypeName` nesting 8 is enough.  On the self-referential `type T []T` budget 8
is used up to nesting exactly 8. -/
theorem typeNameWithDepth_terminates {τ : Type} (R : reflect.Methods τ) (t : τ) (d fuel : Nat)
    (hd : (d : Int) ≤ 9223372036854775807) (hf : d ≤ fuel) :
    typeNameWithDepthFuel R fuel t (d : Int) = typeNameWithDepth R t d ∧
    (reflect.WellFormed R → ∃ s, typeNameWithDepthFuel R fuel t (d : Int) = some s) ∧
    typeNameWithDepthFuel R 8 t 8 = TypeName R (some t) ∧
    typeNameWithDepthFuel sampleTypes 8 10 8 = some (goStr "[][][][][][][][]<...>") ∧
    typeNameWithDepthFuel sampleTypes 7 10 8 = none := by
  have h := typeNameWithDepthFuel_eq R d fuel t hf hd
  refine ⟨h, fun hwf => ?_, ?_, by decide, by decide⟩
  · rw [h]
    exact typeNameWithDepth_isSome R hwf d t
  · exact typeNameWithDepthFuel_eq R 8 8 t (Nat.le_refl 8) (by decide)

theorem typeNameWithDepth_terminates_witness :
    ((8 : Nat) : Int) ≤ 9223372036854775807 ∧ 8 ≤ 8 ∧
    (typeNameWithDepthFuel sampleTypes 8 10 ((8 : Nat) : Int) = typeNameWithDepth sampleTypes 10 8 ∧
    (reflect.WellFormed sampleTypes →
      ∃ s, typeNameWithDepthFuel sampleTypes 8 10 ((8 : Nat) : Int) = some s) ∧
    typeNameWithDepthFuel sampleTypes 8 10 8 = TypeName sampleTypes (some 10) ∧
    typeNameWithDepthFuel sampleTypes 8 10 8 = some (goStr "[][][][][][][][]<...>") ∧
    typeNameWithDepthFuel sampleTypes 7 10 8 = none) :=
  ⟨by decide, by decide, typeNameWithDepth_terminates sampleTypes 10 8 8 (by decide) (by decide)⟩

theorem optAll_mono {α : Type} (P Q : α → Prop) (hPQ : ∀ a, P a → Q a) :
    ∀ o : Option α, optAll P o → optAll Q o
  | some a, h => hPQ a h
  | none, _ => trivial

theorem heightLE_succ {τ : Type} (R : reflect.Methods τ) :
    ∀ (h : Nat) (t : τ), HeightLE R h t → HeightLE R (h + 1) t
  | 0, _, hh => hh.elim
  | h + 1, t, hh => by
    have ih := heightLE_succ R h
    obtain ⟨he, hk, hi, ho⟩ := hh
    exact ⟨optAll_mono _ _ ih _ he, optAll_mono _ _ ih _ hk,
      fun i hi' => optAll_mono _ _ ih _ (hi i hi'), fun i hi' => optAll_mono _ _ ih _ (ho i hi')⟩

theorem heightLE_elem {τ : Type} (R : reflect.Methods τ) :
    ∀ (h : Nat) (p : τ), HeightLE R h p → optAll (HeightLE R h) (R.Elem p)
  | 0, _, hh => hh.elim
  | h + 1, _, hh => optAll_mono _ _ (heightLE_succ R h) _ hh.1

theorem heightLE_render {τ : Type} (R : reflect.Methods τ) :
    ∀ (h d d' : Nat) (t : τ), HeightLE R h t → h ≤ d → h ≤ d' →
      typeNameWithDepth R t d = typeNameWithDepth R t d'
  | 0, _, _, _, hh, _, _ => hh.elim
  | _ + 1, 0, _, _, _, hd, _ => absurd hd (Nat.not_succ_le_zero _)
  | _ + 1, _ + 1, 0, _, _, _, hd' => absurd hd' (Nat.not_succ_le_zero _)
  | h + 1, d + 1, d' + 1, t, hh, hd, hd' => by
    have ih : ∀ a, HeightLE R h a → typeNameWithDepth R a d = typeNameWithDepth R a d' :=
      fun a ha => heightLE_render R h d d' a ha (by omega) (by omega)
    obtain ⟨he, hk, hi, ho⟩ := hh
    rw [typeNameWithDepth_succ, typeNameWithDepth_succ]
    refine typeNameSwitch_congr R R _ _ t t rfl rfl rfl rfl rfl rfl (Or.inr ⟨rfl, rfl, rfl⟩)
      (optAll_bind _ _ _ ih _ he) (optAll_bind _ _ _ ih _ hk) ?_ ?_
      (fun i hi' => optAll_bind _ _ _ ih _ (ho i hi'))
    · intro i hi' _ _
      exact optAll_bind (HeightLE R h) _ _
        (fun p hp => optAll_bind _ _ _ ih _ (heightLE_elem R h p hp)) _ (hi i hi')
    · intro i hi' _
      exact optAll_bind _ _ _ ih _ (hi i hi')

/-- C36: for every descriptor `t` whose height is at most `h`, and budgets
`d` and `d'` that are both at least `h`, `typeNameWithDepth(t, d)` equals
`typeNameWithDepth(t, d')`: a budget that covers the height truncates nothing,
and `TypeName`, whose budget is 8, renders every type of height at most 8 as
any larger budget would.  Seven nested slices of `int` (height 8) give
`"[][][][][][][]int"`. -/
theorem typeNameWithDepth_no_truncation {τ : Type} (R : reflect.Methods τ) (t : τ)
    (h d d' : Nat) (hh : HeightLE R h t) (hd : h ≤ d) (hd' : h ≤ d') :
    typeNameWithDepth R t d = typeNameWithDepth R t d' ∧
    (h ≤ 8 → TypeName R (some t) = typeNameWithDepth R t d') ∧
    HeightLE sampleTypes 8 27 ∧
    TypeName sampleTypes (some 27) = some (goStr "[][][][][][][]int") := by
  refine ⟨heightLE_render R h d d' t hh hd hd', fun h8 => ?_, by decide, by decide⟩
  exact heightLE_render R h 8 d' t hh h8 hd'

theorem typeNameWithDepth_no_truncation_witness :
    HeightLE sampleTypes 8 27 ∧ 8 ≤ 8 ∧ 8 ≤ 30 ∧
    (typeNameWithDepth sampleTypes 27 8 = typeNameWithDepth sampleTypes 27 30 ∧
    (8 ≤ 8 → TypeName sampleTypes (some 27) = typeNameWithDepth sampleTypes 27 30) ∧
    HeightLE sampleTypes 8 27 ∧
    TypeName sampleTypes (some 27) = some (goStr "[][][][][][][]int")) :=
  ⟨by decide, by decide, by decide,
    typeNameWithDepth_no_truncation sampleTypes 27 8 8 30 (by decide) (by decide) (by decide)⟩

/-- C37 (as stated, refuted): the two function types `F` of `localTypes`,
both `func(...E)` of package `main`, agree on kind, array length, channel
direction, variadic flag, arities, package path, declared name and default
display string at the root and at the one type reached in one step, the
parameter type `[]E`; yet with budget 2 one renders as `"func(...[]<...>)"`
and the other as `"func(...*<...>)"`, because the kind of `E`, two steps below
the root, is read. -/
theorem variadic_element_read_below_budget :
    ReachAgree localTypes localTypes 2 5 6 ∧
    typeNameWithDepth localTypes 5 2 = some (goStr "func(...[]<...>)") ∧
    typeNameWithDepth localTypes 6 2 = some (goStr "func(...*<...>)") ∧
    typeNameWithDepth localTypes 5 2 ≠ typeNameWithDepth localTypes 6 2 := by decide

/-- C37 (amended): for every budget `d` and any two descriptors `t1` and
`t2` that agree on kind, array length, channel direction, variadic flag,
arities, package path, declared name and default display string at every type
reached in fewer than `d` descents from the root, where the descent from a
variadic function type to its last parameter leads to the element type of that
parameter, `typeNameWithDepth(t1, d)` equals `typeNameWithDepth(t2, d)`; with
`d = 8` the two have the same `TypeName`. -/
theorem typeNameWithDepth_depends_on_top {τ₁ τ₂ : Type} (R₁ : reflect.Methods τ₁)
    (R₂ : reflect.Methods τ₂) (d : Nat) (t1 : τ₁) (t2 : τ₂)
    (h : DescentAgree R₁ R₂ d t1 t2) :
    typeNameWithDepth R₁ t1 d = typeNameWithDepth R₂ t2 d ∧
    (d = 8 → TypeName R₁ (some t1) = TypeName R₂ (some t2)) := by
  refine ⟨descentAgree_render R₁ R₂ d t1 t2 h, fun h8 => ?_⟩
  subst h8
  exact descentAgree_render R₁ R₂ 8 t1 t2 h

theorem typeNameWithDepth_depends_on_top_witness :
    DescentAgree sampleTypes sampleTypes 8 29 40 ∧
    (typeNameWithDepth sampleTypes 29 8 = typeNameWithDepth sampleTypes 40 8 ∧
    (8 = 8 → TypeName sampleTypes (some 29) = TypeName sampleTypes (some 40))) :=
  ⟨by decide, typeNameWithDepth_depends_on_top sampleTypes sampleTypes 8 29 40 (by decide)⟩

theorem rename_render {τ : Type} [DecidableEq τ] (R : reflect.Methods τ) (t : τ)
    (pkgPath name str : GoString) (hk : IsComposite (R.Kind t)) :
    ∀ (d : Nat) (u : τ),
      typeNameWithDepth (R.rename t pkgPath name str) u d = typeNameWithDepth R u d
  | 0, _ => rfl
  | d + 1, u => by
    have ih : (fun a => typeNameWithDepth (R.rename t pkgPath name str) a d) =
        fun a => typeNameWithDepth R a d :=
      funext fun a => rename_render R t pkgPath name str hk d a
    rw [typeNameWithDepth_succ, typeNameWithDepth_succ, ih]
    refine typeNameSwitch_congr (R.rename t pkgPath name str) R _ _ u u rfl rfl rfl rfl rfl rfl
      ?_ rfl rfl (fun _ _ _ _ => rfl) (fun _ _ _ => rfl) (fun _ _ => rfl)
    by_cases hu : u = t
    · subst hu
      exact Or.inl hk
    · exact Or.inr ⟨if_neg hu, if_neg hu, if_neg hu⟩

/-- C38: for every descriptor `t` whose kind is array, slice, map, channel,
pointer or function, replacing the declared name, package path and default
display string of `t` by anything changes no output of `typeNameWithDepth`,
for every budget and every root (`t` itself or a type that contains `t`): the
three attributes of `t` are not read.  The named type `type IDs []int` of
package `main` renders as `"[]int"`. -/
theorem typeNameWithDepth_ignores_declared_name {τ : Type} [DecidableEq τ]
    (R : reflect.Methods τ) (t : τ) (pkgPath name str : GoString)
    (hk : IsComposite (R.Kind t)) :
    (∀ (u : τ) (d : Nat),
      typeNameWithDepth (R.rename t pkgPath name str) u d = typeNameWithDepth R u d) ∧
    TypeName (funcTypes.rename 1 (goStr "main") (goStr "IDs") (goStr "main.IDs")) (some 1) =
      some (goStr "[]int") :=
  ⟨fun u d => rename_render R t pkgPath name str hk d u, by decide⟩

theorem typeNameWithDepth_ignores_declared_name_witness :
    IsComposite (funcTypes.Kind 1) ∧
    ((∀ (u : Nat) (d : Nat),
      typeNameWithDepth (funcTypes.rename 1 (goStr "main") (goStr "IDs") (goStr "main.IDs")) u d =
        typeNameWithDepth funcTypes u d) ∧
    TypeName (funcTypes.rename 1 (goStr "main") (goStr "IDs") (goStr "main.IDs")) (some 1) =
      some (goStr "[]int")) :=
  ⟨by decide, typeNameWithDepth_ignores_declared_name funcTypes 1 (goStr "main") (goStr "IDs")
    (goStr "main.IDs") (by decide)⟩

/-! ## Further properties of `SliceToSet` -/

theorem sameValues_lookup {T : Type} (C : Comparable T) (s1 s2 : List T)
    (hs : SameValues C s1 s2) (v : T) : mapLookup C s1 v = mapLookup C s2 v := by
  rw [Bool.eq_iff_iff, mapLookup_iff, mapLookup_iff]
  constructor
  · rintro ⟨x, hx, e⟩
    obtain ⟨y, hy, exy⟩ := hs.1 x hx
    exact ⟨y, hy, C.eq_trans y x v (C.eq_symm x y exy) e⟩
  · rintro ⟨y, hy, e⟩
    obtain ⟨x, hx, eyx⟩ := hs.2 y hy
    exact ⟨x, hx, C.eq_trans x y v (C.eq_symm y x eyx) e⟩

/-- Every key of the lenient result for `s1` is equal to a key of the lenient
result for a slice `s2` that holds an equal of each element of `s1`. -/
theorem keys_matched {T : Type} (C : Comparable T) (s1 s2 set1 set2 : List T)
    (hs : ∀ x ∈ s1, ∃ y ∈ s2, C.eq x y = true) (hk : ∀ k ∈ set1, k ∈ s1)
    (hr : ∀ y ∈ s2, IsRepresented C set2 y) :
    ∀ k ∈ set1, ∃ k' ∈ set2, C.eq k k' = true := by
  intro k hk1
  obtain ⟨y, hy, eky⟩ := hs k (hk k hk1)
  rcases hr y hy with h | h
  · exact ⟨y, h, eky⟩
  · obtain ⟨k', hk', e⟩ := (mapLookup_iff C set2 y).1 h
    exact ⟨k', hk', C.eq_trans k y k' eky (C.eq_symm k' y e)⟩

/-- C39, as stated, fails.  `[2, 2, []int{1}]` (as `[]any`) and its
permutation `[[]int{1}, 2, 2]` differ in whether strict mode returns an error,
the first returns the duplicate error and the second panics at its first
element; without strictness both panic, so no sets are returned.  On
`float64`, `[NaN]` and `[NaN, NaN]` hold the same values, and their sets have
one key and two keys. -/
theorem SliceToSet_strict_error_depends_on_order :
    ([AnyValue.int 2, AnyValue.int 2, AnyValue.ints [1]].Perm
        [AnyValue.ints [1], AnyValue.int 2, AnyValue.int 2] ∧
      SliceToSet anyComparable [AnyValue.int 2, AnyValue.int 2, AnyValue.ints [1]] true =
        some (none, some { message := goStr "duplicate element: 2" }) ∧
      SliceToSet anyComparable [AnyValue.ints [1], AnyValue.int 2, AnyValue.int 2] true = none ∧
      SliceToSet anyComparable [AnyValue.int 2, AnyValue.int 2, AnyValue.ints [1]] false = none ∧
      SliceToSet anyComparable [AnyValue.ints [1], AnyValue.int 2, AnyValue.int 2] false =
        none) ∧
    ((∀ v, v ∈ [Float64Value.NaN] ↔ v ∈ [Float64Value.NaN, Float64Value.NaN]) ∧
      SliceToSet float64Comparable [Float64Value.NaN] false =
        some (some [Float64Value.NaN], none) ∧
      SliceToSet float64Comparable [Float64Value.NaN, Float64Value.NaN] false =
        some (some [Float64Value.NaN, Float64Value.NaN], none)) := by
  refine ⟨⟨List.isPerm_iff.1 (by decide), by decide, by decide, by decide, by decide⟩,
    ?_, by decide, by decide⟩
  intro v
  simp only [List.mem_cons, List.mem_singleton, List.not_mem_nil, or_false, or_self]

/-- C39 (amended): for any two slices `s1` and `s2` whose elements can all be
map keys and that have the same element values compared with `==` (every
element of each is equal to an element of the other; `s2` a permutation of
`s1`, or `s1` with elements repeated), `SliceToSet(s1, false)` and
`SliceToSet(s2, false)` return equal sets: the same number of keys, every key
of one equal to a key of the other, and the same lookups; where `==` holds only
between a value and itself the two sets have the same keys.  For every
permutation `s2` of `s1`, `SliceToSet(s1, true)` returns an error exactly when
`SliceToSet(s2, true)` does.  The value named in the error is not invariant:
`[1, 1, 2, 2]` names `1` and its permutation `[2, 2, 1, 1]` names `2`. -/
theorem SliceToSet_depends_on_values {T : Type} (C : Comparable T) (s1 s2 : List T)
    (h1 : ∀ v ∈ s1, C.hashable v = true) (h2 : ∀ v ∈ s2, C.hashable v = true) :
    (SameValues C s1 s2 →
      ∃ set1 set2, SliceToSet C s1 false = some (some set1, none) ∧
        SliceToSet C s2 false = some (some set2, none) ∧
        set1.length = set2.length ∧
        (∀ k ∈ set1, ∃ k' ∈ set2, C.eq k k' = true) ∧
        (∀ k ∈ set2, ∃ k' ∈ set1, C.eq k k' = true) ∧
        (∀ v, mapLookup C set1 v = mapLookup C set2 v) ∧
        (IsIdentity C → set1.Perm set2)) ∧
    (s1.Perm s2 →
      ((∃ set e, SliceToSet C s1 true = some (set, some e)) ↔
        ∃ set e, SliceToSet C s2 true = some (set, some e))) ∧
    [(1 : Int), 1, 2, 2].Perm [2, 2, 1, 1] ∧
    SliceToSet intComparable [(1 : Int), 1, 2, 2] true =
      some (none, some { message := goStr "duplicate element: 1" }) ∧
    SliceToSet intComparable [(2 : Int), 2, 1, 1] true =
      some (none, some { message := goStr "duplicate element: 2" }) := by
  refine ⟨fun hs => ?_, fun hp => ?_, List.isPerm_iff.1 (by decide), by decide, by decide⟩
  · obtain ⟨set1, hres1, hk1, hr1, hl1, hp1, _⟩ := SliceToSet_lenient_spec C s1 h1
    obtain ⟨set2, hres2, hk2, hr2, hl2, hp2, _⟩ := SliceToSet_lenient_spec C s2 h2
    have m12 := keys_matched C s1 s2 set1 set2 hs.1 hk1 hr2
    have m21 := keys_matched C s2 s1 set2 set1 hs.2 hk2 hr1
    refine ⟨set1, set2, hres1, hres2, ?_, m12, m21, ?_, ?_⟩
    · exact Nat.le_antisymm (length_le_of_matched C set1 set2 hp1 m12)
        (length_le_of_matched C set2 set1 hp2 m21)
    · intro v
      rw [hl1 v, hl2 v, sameValues_lookup C s1 s2 hs v]
    · intro hid
      refine (List.perm_ext_iff_of_nodup (isIdentity_nodup C hid set1 hp1)
        (isIdentity_nodup C hid set2 hp2)).2 (fun a => ?_)
      constructor
      · intro ha
        obtain ⟨k', hk', e⟩ := m12 a ha
        exact ((hid a k').1 e) ▸ hk'
      · intro ha
        obtain ⟨k', hk', e⟩ := m21 a ha
        exact ((hid a k').1 e) ▸ hk'
  · rw [strict_error_iff_hasDuplicate C s1 h1,
      strict_error_iff_hasDuplicate C s2 h2, hasDuplicate_iff_not_pairwise,
      hasDuplicate_iff_not_pairwise]
    have hsymm : ∀ {x y : T}, C.eq x y = false → C.eq y x = false := by
      intro x y hxy
      cases hyx : C.eq y x with
      | false => rfl
      | true =>
        rw [C.eq_symm y x hyx] at hxy
        cases hxy
    rw [hp.pairwise_iff hsymm]

theorem SliceToSet_depends_on_values_witness :
    (∀ v ∈ [(1 : Int), 2, 2, 3], intComparable.hashable v = true) ∧
    (∀ v ∈ [(2 : Int), 3, 1, 2], intComparable.hashable v = true) ∧
    SameValues intComparable [(1 : Int), 2, 2, 3] [2, 3, 1, 2] ∧
    [(1 : Int), 2, 2, 3].Perm [2, 3, 1, 2] ∧
    (∃ set1 set2, SliceToSet intComparable [(1 : Int), 2, 2, 3] false = some (some set1, none) ∧
      SliceToSet intComparable [(2 : Int), 3, 1, 2] false = some (some set2, none) ∧
      set1.length = set2.length ∧
      (∀ k ∈ set1, ∃ k' ∈ set2, intComparable.eq k k' = true) ∧
      (∀ k ∈ set2, ∃ k' ∈ set1, intComparable.eq k k' = true) ∧
      (∀ v, mapLookup intComparable set1 v = mapLookup intComparable set2 v) ∧
      (IsIdentity intComparable → set1.Perm set2)) ∧
    ((∃ set e, SliceToSet intComparable [(1 : Int), 2, 2, 3] true = some (set, some e)) ↔
      ∃ set e, SliceToSet intComparable [(2 : Int), 3, 1, 2] true = some (set, some e)) :=
  ⟨by decide, by decide, by decide, List.isPerm_iff.1 (by decide),
    (SliceToSet_depends_on_values intComparable [1, 2, 2, 3] [2, 3, 1, 2] (by decide)
      (by decide)).1 (by decide),
    (SliceToSet_depends_on_values intComparable [1, 2, 2, 3] [2, 3, 1, 2] (by decide)
      (by decide)).2.1 (List.isPerm_iff.1 (by decide))⟩

end Commonz
